import Mathlib

/-!
Verification of the tutorial programs

Shallow embeddings of four of the lesson programs and proofs about them:

* `28_hash_table_implementation.c`, a string-keyed hash table with separate
  chaining (namespace `Ht`);
* `19_recursion.c`, factorial and Fibonacci (namespace `Recursion`);
* `27_build_your_own_grep.c`, the substring search `my_grep` (namespace `Grep`);
* `30_multithreaded_file_analyzer.c`, the chunked line, word and letter count
  (namespace `Analyzer`).

Modelling conventions

* A C string is represented by its content: the list of its bytes before the
  terminating NUL, each byte as its value `0..255`.  `strcmp(a, b) == 0` holds
  exactly when the two contents are equal.  A file is the list of its bytes.
* A bucket chain (`EntryNode` records linked through `next`, ended by `NULL`)
  is the list of its records, head first.
* The bucket array `entries` is the list of its chains; `size` is the separate
  `size` field of the C structure.  Reading a bucket outside the array yields
  the empty chain and writing one does nothing; the C code does either only on
  a table whose `size` is 0 or exceeds the number of slots (undefined
  behaviour there), and `WellFormed` excludes such tables.
* The two implementation-defined facts the hash depends on (the width of
  `unsigned long` and whether plain `char` is signed) are the fields of
  `Target`.
* `malloc`/`strdup` inside `ht_insert` are taken to succeed; `ht_create` takes
  the outcome of its two allocations as arguments.  `ht_insert_alloc` is
  `ht_insert` with the outcome of its allocations, over records whose pointers
  may be `NULL`.
* `unsigned long long` arithmetic is arithmetic modulo `2^64`; an `int`
  addition that leaves the range of a 32-bit `int` yields `none`.
* The threads of the file analyzer add their local counts to the global
  result under one lock; the totals are the sums of the local counts,
  whatever the order of the threads.
-/

namespace Ht

/-! ## Data model -/

/-- Content of a NUL-terminated C string, one number per byte. -/
abbrev CStr := List Nat

/-- Implementation-defined parameters of the C target. -/
structure Target where
  /-- Width of `unsigned long` in bits. -/
  ulong_bits : Nat
  /-- Whether plain `char` is a signed type. -/
  char_signed : Bool
deriving DecidableEq, Repr

/-- LP64 target with signed plain `char` (for instance x86-64 Linux). -/
def lp64_signed : Target := { ulong_bits := 64, char_signed := true }

/-- LP64 target with unsigned plain `char` (for instance AArch64 Linux). -/
def lp64_unsigned : Target := { ulong_bits := 64, char_signed := false }

/-- `#define TABLE_SIZE 53`. -/
def TABLE_SIZE : Nat := 53

/-- `struct EntryNode` without its `next` link (the link is the list tail). -/
structure EntryNode where
  key : CStr
  value : CStr
deriving DecidableEq, Repr

/-- A bucket: the linked list starting at `entries[i]`. -/
abbrev Chain := List EntryNode

/-- `struct HashTable`. -/
structure HashTable where
  entries : List Chain
  size : Nat
deriving DecidableEq, Repr

/-! ## hash_function -/

/-- Value of `c` after `c = *key++`: the byte read through `const char *`
and converted to `int`. -/
def char_to_int (T : Target) (b : Nat) : Int :=
  if T.char_signed = true ∧ 128 ≤ b then (b : Int) - 256 else (b : Int)

/-- Conversion of an `int` to `unsigned long` (reduction modulo `2^w`). -/
def to_ulong (T : Target) (x : Int) : Nat :=
  (x % (2 ^ T.ulong_bits : Nat)).toNat

/-- One iteration of the loop body `hash = ((hash << 5) + hash) + c`. -/
def hash_step (T : Target) (hash : Nat) (b : Nat) : Nat :=
  let c : Int := char_to_int T b
  ((((hash <<< 5) % 2 ^ T.ulong_bits + hash) % 2 ^ T.ulong_bits) + to_ulong T c)
    % 2 ^ T.ulong_bits

/-- The loop `while ((c = *key++))` of `hash_function`, started with the
accumulator `hash`; it ends at the terminator, that is at the end of the
content. -/
def hash_loop (T : Target) : Nat → CStr → Nat
  | hash, [] => hash
  | hash, b :: rest => hash_loop T (hash_step T hash b) rest

/-- `unsigned long hash_function(const char *key)`. -/
def hash_function (T : Target) (key : CStr) : Nat :=
  hash_loop T (5381 % 2 ^ T.ulong_bits) key

/-- The djb2 fold as the specification words it: `h0 = 5381`,
`h_i = (h_(i-1) * 33 + b_i) mod 2^w` with every byte taken as `0..255`. -/
def djb2_spec (w : Nat) (s : CStr) : Nat :=
  List.foldl (fun (h : Nat) (b : Nat) => (h * 33 + b) % 2 ^ w) 5381 s

/-- The fold `hash_function` computes, worded for any target: `h0 = 5381`,
`h_i = (h_(i-1) * 33 + c_i) mod 2^w`, where `c_i` is the byte as a plain
`char`: `b_i - 256` when plain `char` is signed and `b_i >= 128`, `b_i`
otherwise. -/
def djb2_char_spec (signed : Bool) (w : Nat) (s : CStr) : Int :=
  List.foldl
    (fun (h : Int) (b : Nat) =>
      (h * 33 + (if signed = true ∧ 128 ≤ b then (b : Int) - 256 else (b : Int)))
        % (2 : Int) ^ w)
    (5381 : Int) s

/-! ## Table operations -/

/-- `HashTable *ht_create(void)`; `none` is the `NULL` result.  The arguments
say whether the `malloc` of the table and the `calloc` of the bucket array
succeed. -/
def ht_create (malloc_ok calloc_ok : Bool) : Option HashTable :=
  if malloc_ok = false then none
  else
    let size := TABLE_SIZE
    if calloc_ok = false then none
    else some { entries := List.replicate size [], size := size }

/-- `EntryNode *create_entry(key, value)` with `next = NULL`. -/
def create_entry (key value : CStr) : EntryNode :=
  { key := key, value := value }

/-- The traversal of `ht_insert` (step 3): `some c` is the chain after the
value of the first record with the given key was replaced, `none` means the
loop ran off the end of the chain without a match. -/
def update_chain (key value : CStr) : Chain → Option Chain
  | [] => none
  | current :: next =>
      if current.key = key then some ({ current with value := value } :: next)
      else (update_chain key value next).map (fun c => current :: c)

/-- `void ht_insert(HashTable *table, const char *key, const char *value)`. -/
def ht_insert (T : Target) (table : HashTable) (key value : CStr) : HashTable :=
  let hash_val := hash_function T key
  let index := hash_val % table.size
  let current := table.entries.getD index []
  match update_chain key value current with
  | some updated => { table with entries := table.entries.set index updated }
  | none =>
      let new_entry := create_entry key value
      { table with
        entries := table.entries.set index (new_entry :: table.entries.getD index []) }

/-- The traversal of `ht_search`: value of the first record with the key. -/
def search_chain (key : CStr) : Chain → Option CStr
  | [] => none
  | current :: next =>
      if current.key = key then some current.value else search_chain key next

/-- `const char *ht_search(HashTable *table, const char *key)`; `none` is the
`NULL` (not found) result. -/
def ht_search (T : Target) (table : HashTable) (key : CStr) : Option CStr :=
  let index := hash_function T key % table.size
  search_chain key (table.entries.getD index [])

/-- The traversal of `ht_delete`: the chain with the first record holding the
key unlinked, or the same chain when no record holds it. -/
def delete_chain (key : CStr) : Chain → Chain
  | [] => []
  | current :: next =>
      if current.key = key then next else current :: delete_chain key next

/-- `void ht_delete(HashTable *table, const char *key)`. -/
def ht_delete (T : Target) (table : HashTable) (key : CStr) : HashTable :=
  let index := hash_function T key % table.size
  { table with
    entries := table.entries.set index (delete_chain key (table.entries.getD index [])) }

/-! ## Sequences of calls and reachable tables -/

/-- A mutating call on a table. -/
inductive Op where
  | insert (key value : CStr)
  | delete (key : CStr)
deriving DecidableEq, Repr

/-- The key argument of a call. -/
def Op.key : Op → CStr
  | .insert k _ => k
  | .delete k => k

/-- Effect of one call. -/
def apply_op (T : Target) (table : HashTable) : Op → HashTable
  | .insert k v => ht_insert T table k v
  | .delete k => ht_delete T table k

/-- Effect of a sequence of calls, first call first. -/
def run_ops (T : Target) (table : HashTable) (ops : List Op) : HashTable :=
  ops.foldl (apply_op T) table

/-- Tables obtained from a successful `ht_create` by `ht_insert` and
`ht_delete` calls. -/
inductive Reachable (T : Target) : HashTable → Prop
  | create {malloc_ok calloc_ok : Bool} {table : HashTable} :
      ht_create malloc_ok calloc_ok = some table → Reachable T table
  | insert {table : HashTable} (key value : CStr) :
      Reachable T table → Reachable T (ht_insert T table key value)
  | delete {table : HashTable} (key : CStr) :
      Reachable T table → Reachable T (ht_delete T table key)

/-- Number of records in the whole table whose key is `key`. -/
def count_key (table : HashTable) (key : CStr) : Nat :=
  (table.entries.map (fun chain => chain.countP (fun e => e.key = key))).sum

/-- Number of records in the whole table. -/
def entry_count (table : HashTable) : Nat :=
  (table.entries.map List.length).sum

/-- The bytes of an ASCII text. -/
def ascii (s : String) : CStr :=
  s.toList.map Char.toNat

/-- The `ht_search` results of `main`, in the order of the calls that print
them; `none` is the `EXIT_FAILURE` return after a failed `ht_create`. -/
def main (T : Target) (malloc_ok calloc_ok : Bool) : Option (List (Option CStr)) :=
  match ht_create malloc_ok calloc_ok with
  | none => none
  | some ht0 =>
      let ht1 := ht_insert T ht0 (ascii "name") (ascii "Alice")
      let ht2 := ht_insert T ht1 (ascii "age") (ascii "30")
      let ht3 := ht_insert T ht2 (ascii "city") (ascii "New York")
      let ht4 := ht_insert T ht3 (ascii "country") (ascii "USA")
      let ht5 := ht_insert T ht4 (ascii "occupation") (ascii "Engineer")
      let name1 := ht_search T ht5 (ascii "name")
      let city1 := ht_search T ht5 (ascii "city")
      let occupation1 := ht_search T ht5 (ascii "occupation")
      let status := ht_search T ht5 (ascii "status")
      let old_city := ht_search T ht5 (ascii "city")
      let ht6 := ht_insert T ht5 (ascii "city") (ascii "London")
      let new_city := ht_search T ht6 (ascii "city")
      let age_before := ht_search T ht6 (ascii "age")
      let ht7 := ht_delete T ht6 (ascii "age")
      let age_after := ht_search T ht7 (ascii "age")
      let name2 := ht_search T ht7 (ascii "name")
      some [name1, city1, occupation1, status, old_city, new_city, age_before,
        age_after, name2]

/-- Effect of one call on a lookup function (the map the table stands for). -/
def lookup_step (m : CStr → Option CStr) : Op → CStr → Option CStr
  | .insert k v => fun k2 => if k2 = k then some v else m k2
  | .delete k => fun k2 => if k2 = k then none else m k2

/-- The table a successful `ht_create` returns: `TABLE_SIZE` empty buckets. -/
def empty_table : HashTable :=
  { entries := List.replicate TABLE_SIZE [], size := TABLE_SIZE }

/-- Bucket index of a key: `hash_function(key) % table->size`. -/
def bucket_index (T : Target) (table : HashTable) (key : CStr) : Nat :=
  hash_function T key % table.size

/-- The chain stored by `ht_insert` in the bucket of the key: the updated
chain when the key was found, the old chain behind a new head otherwise. -/
def insert_chain (key value : CStr) (chain : Chain) : Chain :=
  match update_chain key value chain with
  | some updated => updated
  | none => create_entry key value :: chain

/-- The bucket array has `size` slots and `size` is not zero. -/
def WellFormed (table : HashTable) : Prop :=
  table.entries.length = table.size ∧ 0 < table.size

/-- No chain holds two records with the same key. -/
def UniqueKeys (table : HashTable) : Prop :=
  ∀ i : Nat, ((table.entries.getD i []).map EntryNode.key).Nodup

/-- Every record sits in the bucket its key hashes to. -/
def Placed (T : Target) (table : HashTable) : Prop :=
  ∀ i : Nat, ∀ e ∈ table.entries.getD i [], hash_function T e.key % table.size = i

/-- The invariant of reachable tables. -/
structure Inv (T : Target) (table : HashTable) : Prop where
  wf : WellFormed table
  unique : UniqueKeys table
  placed : Placed T table

/-! ## ht_insert with the outcome of its allocations -/

/-- A record as it lies in memory: `key` and `value` are pointers and may be
`NULL` (`none`). -/
structure RawNode where
  key : Option CStr
  value : Option CStr
deriving DecidableEq, Repr

/-- `struct HashTable` over raw records. -/
structure RawTable where
  entries : List (List RawNode)
  size : Nat
deriving DecidableEq, Repr

/-- Outcome of the allocations one `ht_insert` call can make. -/
structure Alloc where
  /-- `malloc(sizeof(EntryNode))` in `create_entry`. -/
  malloc_ok : Bool
  /-- `strdup(key)` in `create_entry`. -/
  strdup_key_ok : Bool
  /-- `strdup(value)`, in `create_entry` or on the update path. -/
  strdup_value_ok : Bool
deriving DecidableEq, Repr

/-- `strdup`: a copy of the string, or `NULL` when the allocation fails. -/
def strdup (ok : Bool) (s : CStr) : Option CStr :=
  if ok = true then some s else none

/-- `create_entry` with its allocations: `none` is the undefined behaviour of
storing through the `NULL` that a failed `malloc` returned (the result of
`malloc` is not checked). -/
def create_entry_alloc (a : Alloc) (key value : CStr) : Option RawNode :=
  if a.malloc_ok = false then none
  else some { key := strdup a.strdup_key_ok key, value := strdup a.strdup_value_ok value }

/-- The traversal of `ht_insert` over raw records.  The outer `none` is the
undefined behaviour of `strcmp` on a `NULL` key; `some none` means no record
matched; on a match the old value is freed and the result of `strdup(value)`
is stored unchecked. -/
def update_chain_alloc (a : Alloc) (key value : CStr) :
    List RawNode → Option (Option (List RawNode))
  | [] => some none
  | current :: next =>
      match current.key with
      | none => none
      | some current_key =>
          if current_key = key then
            some (some ({ current with value := strdup a.strdup_value_ok value } :: next))
          else
            (update_chain_alloc a key value next).map
              (fun r => r.map (fun c => current :: c))

/-- `ht_insert` with the outcome of its allocations; `none` is undefined
behaviour.  The C function returns `void`: the table is all the caller gets. -/
def ht_insert_alloc (T : Target) (a : Alloc) (table : RawTable) (key value : CStr) :
    Option RawTable :=
  let index := hash_function T key % table.size
  match update_chain_alloc a key value (table.entries.getD index []) with
  | none => none
  | some (some updated) => some { table with entries := table.entries.set index updated }
  | some none =>
      match create_entry_alloc a key value with
      | none => none
      | some new_entry =>
          some { table with
            entries := table.entries.set index (new_entry :: table.entries.getD index []) }

/-- The traversal of `ht_search` over raw records; the outer `none` is the
undefined behaviour of `strcmp` on a `NULL` key, `some none` the `NULL`
result. -/
def search_chain_raw (key : CStr) : List RawNode → Option (Option CStr)
  | [] => some none
  | current :: next =>
      match current.key with
      | none => none
      | some current_key =>
          if current_key = key then some current.value else search_chain_raw key next

/-- `ht_search` over raw records. -/
def ht_search_raw (T : Target) (table : RawTable) (key : CStr) : Option (Option CStr) :=
  search_chain_raw key (table.entries.getD (hash_function T key % table.size) [])

/-- A record all of whose allocations succeeded. -/
def raw_node (e : EntryNode) : RawNode :=
  { key := some e.key, value := some e.value }

/-- A table all of whose allocations succeeded. -/
def raw_table (t : HashTable) : RawTable :=
  { entries := t.entries.map (fun chain => chain.map raw_node), size := t.size }

end Ht

/-! # 19_recursion.c -/

namespace Recursion

/-- Conversion of an `int` to `unsigned long long` (64 bits). -/
def to_ull (n : Int) : Nat :=
  (n % (2 ^ 64 : Nat)).toNat

/-- `unsigned long long factorial_recursive(int n)`. -/
def factorial_recursive (n : Int) : Nat :=
  if n ≤ 1 then 1
  else (to_ull n * factorial_recursive (n - 1)) % 2 ^ 64
termination_by n.toNat
decreasing_by omega

/-- The loop `for (int i = n; i > 1; i--) result *= i;`. -/
def factorial_iterative_loop (result : Nat) (i : Int) : Nat :=
  if i > 1 then factorial_iterative_loop ((result * to_ull i) % 2 ^ 64) (i - 1)
  else result
termination_by i.toNat
decreasing_by omega

/-- `unsigned long long factorial_iterative(int n)`. -/
def factorial_iterative (n : Int) : Nat :=
  factorial_iterative_loop 1 n

end Recursion

/-! # 27_build_your_own_grep.c -/

namespace Grep

/-- `#define MAX_LINE_LENGTH 1024`. -/
def MAX_LINE_LENGTH : Nat := 1024

/-- The bytes `fgets` stores when it may still store `room` bytes, and the
bytes left in the stream: reading stops after a newline, at the end of the
file, or when there is no room left. -/
def fgets_read : Nat → List Nat → List Nat × List Nat
  | 0, stream => ([], stream)
  | _ + 1, [] => ([], [])
  | room + 1, c :: stream =>
      if c = 10 then ([c], stream)
      else ((fgets_read room stream).1.cons c, (fgets_read room stream).2)

/-- `fgets(line, size, file)`: `none` is the `NULL` returned at end of file;
otherwise at most `size - 1` bytes are stored. -/
def fgets (size : Nat) (stream : List Nat) : Option (List Nat × List Nat) :=
  if stream = [] then none else some (fgets_read (size - 1) stream)

/-- The C string held by a buffer: its bytes before the first NUL. -/
def c_string (buf : List Nat) : List Nat :=
  buf.takeWhile (fun c => c ≠ 0)

/-- `strstr(haystack, needle) != NULL`. -/
def strstr : List Nat → List Nat → Bool
  | [], needle => needle.isEmpty
  | c :: haystack, needle => needle.isPrefixOf (c :: haystack) || strstr haystack needle

/-- The loop `while (fgets(...) != NULL)` of `search_in_file`: the strings
given to `printf`, in order.  Every pass consumes at least one byte, so
`fuel` above the length of the stream is never used up. -/
def search_loop (pattern : List Nat) : Nat → List Nat → List (List Nat)
  | 0, _ => []
  | fuel + 1, stream =>
      match fgets MAX_LINE_LENGTH stream with
      | none => []
      | some (line, rest) =>
          if strstr (c_string line) pattern = true then
            c_string line :: search_loop pattern fuel rest
          else search_loop pattern fuel rest

/-- `void search_in_file(pattern, filename)`, given the content of the file
(`none` when `fopen` fails).  `none` is `exit(EXIT_FAILURE)`; otherwise the
strings printed, in order. -/
def search_in_file (pattern : List Nat) (file : Option (List Nat)) :
    Option (List (List Nat)) :=
  match file with
  | none => none
  | some content => some (search_loop pattern (content.length + 1) content)

/-- The lines of a file, each with its terminating newline (the last line may
lack one). -/
def file_lines : List Nat → List (List Nat)
  | [] => []
  | c :: rest =>
      if c = 10 then [c] :: file_lines rest
      else
        match file_lines rest with
        | [] => [[c]]
        | line :: lines => (c :: line) :: lines

/-- What the claim asks `search_in_file` to print: the lines that contain the
pattern as a substring, whole, in file order. -/
def matching_lines (pattern : List Nat) (content : List Nat) : List (List Nat) :=
  (file_lines content).filter (fun line => decide (pattern <:+: line))

/-- The test file `poem.txt` of the file header. -/
def poem : List Nat :=
  Ht.ascii "The quick brown fox jumps over the lazy dog.\nA C program is a wonderful thing.\nSearching for patterns is key to many tools.\nThe lazy dog naps in the sun.\n"

end Grep

/-! # 30_multithreaded_file_analyzer.c -/

namespace Analyzer

/-- `#define NUM_THREADS 4`. -/
def NUM_THREADS : Nat := 4

/-- `#define ALPHABET_SIZE 26`. -/
def ALPHABET_SIZE : Nat := 26

/-- `isspace` in the "C" locale. -/
def isspace (c : Nat) : Bool :=
  decide (c = 32 ∨ (9 ≤ c ∧ c ≤ 13))

/-- `isalpha` in the "C" locale. -/
def isalpha (c : Nat) : Bool :=
  decide ((65 ≤ c ∧ c ≤ 90) ∨ (97 ≤ c ∧ c ≤ 122))

/-- `tolower` in the "C" locale. -/
def tolower (c : Nat) : Nat :=
  if 65 ≤ c ∧ c ≤ 90 then c + 32 else c

/-- The counts of `AnalysisResult` (and the local counts of a thread). -/
structure Counts where
  lines : Nat
  words : Nat
  char_counts : List Nat
deriving DecidableEq, Repr

/-- The local variables of the loop of `analyze_chunk`. -/
structure LoopState where
  local_lines : Nat
  local_words : Nat
  local_char_counts : List Nat
  in_word : Bool
deriving DecidableEq, Repr

/-- One pass of the body of the `for` loop of `analyze_chunk` on the byte
`c = *ptr`. -/
def analyze_byte (st : LoopState) (c : Nat) : LoopState :=
  let lines := if c = 10 then st.local_lines + 1 else st.local_lines
  let words := if isspace c = true then st.local_words
    else if st.in_word = false then st.local_words + 1 else st.local_words
  let in_word := if isspace c = true then false else true
  let counts := if isalpha c = true then
      st.local_char_counts.modify (fun x => x + 1) (tolower c - 97)
    else st.local_char_counts
  { local_lines := lines, local_words := words, local_char_counts := counts,
    in_word := in_word }

/-- The local counts `analyze_chunk` has when its loop over the chunk ends. -/
def analyze_chunk (chunk : List Nat) : Counts :=
  let st := chunk.foldl analyze_byte
    { local_lines := 0, local_words := 0,
      local_char_counts := List.replicate ALPHABET_SIZE 0, in_word := false }
  { lines := st.local_lines, words := st.local_words, char_counts := st.local_char_counts }

/-- The critical section of `analyze_chunk`: the local counts are added to the
global result. -/
def add_counts (global_result local_counts : Counts) : Counts :=
  { lines := global_result.lines + local_counts.lines,
    words := global_result.words + local_counts.words,
    char_counts := List.zipWith (fun x y => x + y) global_result.char_counts
      local_counts.char_counts }

/-- Number of passes of `while (end_pos < file_size && !isspace(file_buffer[end_pos]))`
when `rest` are the bytes of the buffer from `end_pos` on. -/
def extend_count : List Nat → Nat
  | [] => 0
  | c :: rest => if isspace c = true then 0 else extend_count rest + 1

/-- Offset of `thread_data[i].buffer_start` in the buffer. -/
def chunk_start (file_buffer : List Nat) (i : Nat) : Nat :=
  i * (file_buffer.length / NUM_THREADS)

/-- The value of `thread_data[i].size` computed in `main`. -/
def chunk_size_of (file_buffer : List Nat) (i : Nat) : Nat :=
  let chunk_size := file_buffer.length / NUM_THREADS
  if i = NUM_THREADS - 1 then file_buffer.length - chunk_start file_buffer i
  else chunk_size + extend_count (file_buffer.drop (i * chunk_size + chunk_size))

/-- The bytes thread `i` runs over. -/
def chunk (file_buffer : List Nat) (i : Nat) : List Nat :=
  (file_buffer.drop (chunk_start file_buffer i)).take (chunk_size_of file_buffer i)

/-- The totals `main` prints for a file with the given content: the global
result after the four threads have added their local counts (the additions
are made under the lock, so their order does not change the sums). -/
def main (file_buffer : List Nat) : Counts :=
  (List.range NUM_THREADS).foldl
    (fun global_result i => add_counts global_result (analyze_chunk (chunk file_buffer i)))
    { lines := 0, words := 0, char_counts := List.replicate ALPHABET_SIZE 0 }

/-- One sequential pass of the same counting rule over the whole buffer. -/
def sequential (file_buffer : List Nat) : Counts :=
  analyze_chunk file_buffer

end Analyzer

/-! # 28_hash_table_implementation.c: the table with its allocations -/

namespace Ht

/-- The log of the allocator: every call of `malloc`, `calloc` or `strdup`
yields a new allocation, named by the next number; `freed` lists the
arguments of the calls of `free`, in order. -/
structure Allocator where
  next : Nat
  allocated : List Nat
  freed : List Nat
deriving DecidableEq, Repr

/-- The allocator before any call. -/
def Allocator.empty : Allocator :=
  { next := 0, allocated := [], freed := [] }

/-- A successful `malloc`, `calloc` or `strdup`: the new allocation and the
allocator after the call. -/
def malloc (a : Allocator) : Nat × Allocator :=
  (a.next, { a with next := a.next + 1, allocated := a.allocated ++ [a.next] })

/-- `free(p)`. -/
def free (a : Allocator) (p : Nat) : Allocator :=
  { a with freed := a.freed ++ [p] }

/-- A record together with the allocations it owns: the `EntryNode` itself
and the copies of the key and of the value. -/
structure OwnedEntry where
  key : CStr
  value : CStr
  node_addr : Nat
  key_addr : Nat
  value_addr : Nat
deriving DecidableEq, Repr

/-- A table together with the allocations it owns: the `HashTable` record
and the bucket array. -/
structure OwnedTable where
  table_addr : Nat
  entries_addr : Nat
  entries : List (List OwnedEntry)
  size : Nat
deriving DecidableEq, Repr

/-- The allocator and the table of a run. -/
structure Mem where
  alloc : Allocator
  table : OwnedTable
deriving DecidableEq, Repr

/-- `ht_create` with both allocations succeeding: the `malloc` of the table,
then the `calloc` of the bucket array. -/
def ht_create_mem (a : Allocator) : Mem :=
  let table := malloc a
  let entries := malloc table.2
  { alloc := entries.2,
    table := { table_addr := table.1, entries_addr := entries.1,
               entries := List.replicate TABLE_SIZE [], size := TABLE_SIZE } }

/-- `create_entry`: `malloc` of the record, `strdup(key)`, `strdup(value)`. -/
def create_entry_mem (a : Allocator) (key value : CStr) : Allocator × OwnedEntry :=
  let node := malloc a
  let key_copy := malloc node.2
  let value_copy := malloc key_copy.2
  (value_copy.2,
    { key := key, value := value, node_addr := node.1, key_addr := key_copy.1,
      value_addr := value_copy.1 })

/-- The traversal of `ht_insert`: on a match `free(current->value)` and then
`current->value = strdup(value)`; `none` when no record matches. -/
def update_chain_mem (key value : CStr) (a : Allocator) :
    List OwnedEntry → Option (Allocator × List OwnedEntry)
  | [] => none
  | current :: next =>
      if current.key = key then
        let value_copy := malloc (free a current.value_addr)
        some (value_copy.2,
          { current with value := value, value_addr := value_copy.1 } :: next)
      else
        (update_chain_mem key value a next).map (fun r => (r.1, current :: r.2))

/-- `ht_insert` with its allocations (all succeeding). -/
def ht_insert_mem (T : Target) (m : Mem) (key value : CStr) : Mem :=
  let index := hash_function T key % m.table.size
  match update_chain_mem key value m.alloc (m.table.entries.getD index []) with
  | some (alloc, updated) =>
      { alloc := alloc, table := { m.table with entries := m.table.entries.set index updated } }
  | none =>
      let created := create_entry_mem m.alloc key value
      { alloc := created.1,
        table := { m.table with
          entries := m.table.entries.set index (created.2 :: m.table.entries.getD index []) } }

/-- The traversal of `ht_delete`: the matching record is unlinked and its
key, its value and the record are freed, in this order. -/
def delete_chain_mem (key : CStr) (a : Allocator) :
    List OwnedEntry → Allocator × List OwnedEntry
  | [] => (a, [])
  | current :: next =>
      if current.key = key then
        (free (free (free a current.key_addr) current.value_addr) current.node_addr, next)
      else
        ((delete_chain_mem key a next).1, current :: (delete_chain_mem key a next).2)

/-- `ht_delete` with its calls of `free`. -/
def ht_delete_mem (T : Target) (m : Mem) (key : CStr) : Mem :=
  let index := hash_function T key % m.table.size
  let r := delete_chain_mem key m.alloc (m.table.entries.getD index [])
  { alloc := r.1, table := { m.table with entries := m.table.entries.set index r.2 } }

/-- The inner loop of `ht_free` over one chain: for every record `free(key)`,
`free(value)`, `free(record)`. -/
def free_chain (a : Allocator) : List OwnedEntry → Allocator
  | [] => a
  | current :: next =>
      free_chain (free (free (free a current.key_addr) current.value_addr) current.node_addr)
        next

/-- `ht_free`: the loop over the buckets `0 .. size - 1`, then
`free(table->entries)` and `free(table)`.  The result is the allocator after
the call. -/
def ht_free_mem (m : Mem) : Allocator :=
  let after_buckets := (List.range m.table.size).foldl
    (fun a i => free_chain a (m.table.entries.getD i [])) m.alloc
  free (free after_buckets m.table.entries_addr) m.table.table_addr

/-- The runs: `ht_create` on the untouched allocator, then calls of
`ht_insert` and `ht_delete`. -/
inductive ReachableMem (T : Target) : Mem → Prop
  | create : ReachableMem T (ht_create_mem Allocator.empty)
  | insert {m : Mem} (key value : CStr) :
      ReachableMem T m → ReachableMem T (ht_insert_mem T m key value)
  | delete {m : Mem} (key : CStr) :
      ReachableMem T m → ReachableMem T (ht_delete_mem T m key)

/-- The allocations still outstanding: made and not freed. -/
def outstanding (a : Allocator) : List Nat :=
  a.allocated.filter (fun p => decide (p ∉ a.freed))

/-- The three allocations of a record, in the order `ht_free` frees them. -/
def entry_allocations (e : OwnedEntry) : List Nat :=
  [e.key_addr, e.value_addr, e.node_addr]

/-- The record without its allocations. -/
def forget_entry (e : OwnedEntry) : EntryNode :=
  { key := e.key, value := e.value }

/-- The table without its allocations. -/
def forget_table (t : OwnedTable) : HashTable :=
  { entries := t.entries.map (fun chain => chain.map forget_entry), size := t.size }

/-- The allocations the records of a chain own, with multiplicity. -/
def chain_owned (chain : List OwnedEntry) : Multiset Nat :=
  (chain.map (fun e => ((entry_allocations e : List Nat) : Multiset Nat))).sum

/-- The allocations a table owns, with multiplicity. -/
def owned (t : OwnedTable) : Multiset Nat :=
  (([t.entries_addr, t.table_addr] : List Nat) : Multiset Nat) +
    (t.entries.map chain_owned).sum

/-- The invariant of the runs: the allocations made are `0, 1, ..., next - 1`,
and each of them either was freed or is owned by the table, exactly once. -/
structure Balanced (m : Mem) : Prop where
  fresh : m.alloc.allocated = List.range m.alloc.next
  balance : (m.alloc.allocated : Multiset Nat) = (m.alloc.freed : Multiset Nat) + owned m.table

end Ht

/-! # 25_simple_text_editor.c -/

namespace Editor

/-- `struct LineNode`: `prev` and `next` are addresses, `none` is `NULL`. -/
structure LineNode where
  text : List Nat
  prev : Option Nat
  next : Option Nat
deriving DecidableEq, Repr

/-- The heap of `LineNode` records (by address; `none` where no record is
allocated) and the globals `head`, `tail` and `line_count`. -/
structure State where
  heap : Nat → Option LineNode
  head : Option Nat
  tail : Option Nat
  line_count : Int

/-- What `handle_delete_line` prints last. -/
inductive Message where
  | nothing_to_delete
  | invalid_input
  | invalid_line_number
  | line_deleted (line_num : Int)
deriving DecidableEq, Repr

/-- The loop `for (int i = 1; i < line_num; i++) to_delete = to_delete->next;`
run for `steps` passes from `ptr`; the outer `none` is the undefined behaviour
of reading through `NULL` or through an address that holds no record. -/
def advance (heap : Nat → Option LineNode) : Nat → Option Nat → Option (Option Nat)
  | 0, ptr => some ptr
  | steps + 1, ptr =>
      match ptr with
      | none => none
      | some a =>
          match heap a with
          | none => none
          | some node => advance heap steps node.next

/-- `if (to_delete->prev) to_delete->prev->next = to_delete->next;
else head = to_delete->next;`. -/
def unlink_prev (st : State) (to_delete : Nat) : Option State :=
  match st.heap to_delete with
  | none => none
  | some node =>
      match node.prev with
      | some b =>
          match st.heap b with
          | none => none
          | some prev_node =>
              some { st with
                heap := Function.update st.heap b (some { prev_node with next := node.next }) }
      | none => some { st with head := node.next }

/-- `if (to_delete->next) to_delete->next->prev = to_delete->prev;
else tail = to_delete->prev;`. -/
def unlink_next (st : State) (to_delete : Nat) : Option State :=
  match st.heap to_delete with
  | none => none
  | some node =>
      match node.next with
      | some c =>
          match st.heap c with
          | none => none
          | some next_node =>
              some { st with
                heap := Function.update st.heap c (some { next_node with prev := node.prev }) }
      | none => some { st with tail := node.prev }

/-- `void handle_delete_line(void)`; `input` is what `scanf("%d", &line_num)`
reads (`none` when it reads no number).  The result is the new state and the
last message printed; `none` is undefined behaviour. -/
def handle_delete_line (st : State) (input : Option Int) : Option (State × Message) :=
  match st.head with
  | none => some (st, Message.nothing_to_delete)
  | some _ =>
      match input with
      | none => some (st, Message.invalid_input)
      | some line_num =>
          if line_num < 1 ∨ line_num > st.line_count then
            some (st, Message.invalid_line_number)
          else
            match advance st.heap (line_num - 1).toNat st.head with
            | some (some to_delete) =>
                match unlink_prev st to_delete with
                | none => none
                | some st1 =>
                    match unlink_next st1 to_delete with
                    | none => none
                    | some st2 =>
                        some ({ st2 with
                            heap := Function.update st2.heap to_delete none,
                            line_count := st2.line_count - 1 },
                          Message.line_deleted line_num)
            | _ => none

/-- A line of the document: the address of its record and its text. -/
abbrev Cell := Nat × List Nat

/-- Address of the first of the cells, `dflt` when there is none. -/
def first_addr : List Cell → Option Nat → Option Nat
  | [], dflt => dflt
  | cell :: _, _ => some cell.1

/-- Address of the last of the cells, `dflt` when there is none. -/
def last_addr (cells : List Cell) (dflt : Option Nat) : Option Nat :=
  first_addr cells.reverse dflt

/-- The records of `cells` are in the heap and linked to one another in this
order: the `prev` of each is the address of the one before it (`prev` for the
first), its `next` the address of the one after it (`nxt` for the last), and
its text is the text of the cell. -/
def Seg (heap : Nat → Option LineNode) : Option Nat → List Cell → Option Nat → Prop
  | _, [], _ => True
  | prev, cell :: rest, nxt =>
      heap cell.1 = some { text := cell.2, prev := prev, next := first_addr rest nxt } ∧
        Seg heap (some cell.1) rest nxt

/-- The state holds the document whose lines are `cells`, in this order: the
records are distinct and doubly linked, `head` and `tail` are the first and the
last of them (`NULL` for the empty document) and `line_count` is their
number. -/
structure Document (st : State) (cells : List Cell) : Prop where
  nodup : (cells.map Prod.fst).Nodup
  head_eq : st.head = first_addr cells none
  tail_eq : st.tail = last_addr cells none
  count_eq : st.line_count = cells.length
  linked : Seg st.heap none cells none

/-- A document of three lines, `one`, `two`, `three`, at the addresses 10, 20
and 30. -/
def three_lines : State :=
  { heap := fun a =>
      if a = 10 then some { text := Ht.ascii "one\n", prev := none, next := some 20 }
      else if a = 20 then some { text := Ht.ascii "two\n", prev := some 10, next := some 30 }
      else if a = 30 then some { text := Ht.ascii "three\n", prev := some 20, next := none }
      else none,
    head := some 10, tail := some 30, line_count := 3 }

end Editor

/-! # 29_tiny_shell.c -/

namespace Shell

/-- `#define MAX_ARGS 32`. -/
def MAX_ARGS : Nat := 32

/-- Membership in the delimiter string `" \t\r\n\a"`. -/
def is_delimiter (c : Nat) : Bool :=
  decide (c = 32 ∨ c = 9 ∨ c = 13 ∨ c = 10 ∨ c = 7)

/-- The tokens the successive calls of `strtok` return for the rest of the
line, `cur` being the bytes of the token under way: the maximal runs of bytes
that are not delimiters. -/
def strtok_from (cur : List Nat) : List Nat → List (List Nat)
  | [] => if cur = [] then [] else [cur]
  | c :: rest =>
      if is_delimiter c = true then
        (if cur = [] then strtok_from [] rest else cur :: strtok_from [] rest)
      else strtok_from (cur ++ [c]) rest

/-- All tokens of a line, in order. -/
def strtok_all (line : List Nat) : List (List Nat) :=
  strtok_from [] line

/-- A store `tokens[index] = value`; the value `none` is `NULL`. -/
structure Store where
  index : Nat
  value : Option (List Nat)
deriving DecidableEq, Repr

/-- The `while (token != NULL)` loop of `parse_line` followed by
`tokens[position] = NULL`: the stores into `tokens`, in order.  `pending` are
the tokens `strtok` has still to return. -/
def parse_loop : List (List Nat) → Nat → List Store
  | [], position => [{ index := position, value := none }]
  | token :: pending, position =>
      { index := position, value := some token } ::
        (if position + 1 ≥ MAX_ARGS then [{ index := position + 1, value := none }]
         else parse_loop pending (position + 1))

/-- `char **parse_line(char *line)`: the stores it makes into the array of
`MAX_ARGS` slots it allocates; `none` is `exit(EXIT_FAILURE)` after a failed
`malloc`. -/
def parse_line (malloc_ok : Bool) (line : List Nat) : Option (List Store) :=
  if malloc_ok = false then none
  else some (parse_loop (strtok_all line) 0)

/-- The stores that put the given tokens into consecutive slots from
`position` on. -/
def numbered : Nat → List (List Nat) → List Store
  | _, [] => []
  | position, token :: rest =>
      { index := position, value := some token } :: numbered (position + 1) rest

end Shell

/-! # 28_hash_table_implementation.c: the map a table stands for -/

namespace Ht

/-- The record `e` with its value replaced by `v` when its key is `k`. -/
def set_value (k v : CStr) (e : EntryNode) : EntryNode :=
  if e.key = k then { e with value := v } else e

/-- All records of the table, bucket after bucket, each chain head first. -/
def all_entries (t : HashTable) : List EntryNode :=
  t.entries.flatten

/-- The finite map a table stands for: a key is mapped to the value of the
first record that holds it.  The hash function plays no part. -/
def to_map (t : HashTable) : CStr → Option CStr :=
  fun k => ((all_entries t).find? (fun e => decide (e.key = k))).map EntryNode.value

end Ht

namespace Ht

/-! ## Lemmas on lists -/

theorem getD_set_eq {α : Type} (l : List α) (i j : Nat) (x d : α) :
    (l.set i x).getD j d = if i = j ∧ i < l.length then x else l.getD j d := by
  simp only [List.getD_eq_getElem?_getD, List.getElem?_set]
  by_cases hij : i = j
  · subst hij
    by_cases hlt : i < l.length
    · simp [hlt]
    · simp [hlt]
      have : l.length ≤ i := Nat.le_of_not_lt hlt
      simp [List.getElem?_eq_none this]
  · simp [hij]

theorem set_getD_self {α : Type} (l : List α) (i : Nat) (d : α) :
    l.set i (l.getD i d) = l := by
  induction l generalizing i with
  | nil => simp
  | cons a l ih =>
    cases i with
    | zero => simp
    | succ n => simpa using ih n

theorem sum_map_set_eq {α : Type} (f : α → Nat) (l : List α) (i : Nat) (x d : α)
    (h : f x = f (l.getD i d)) : ((l.set i x).map f).sum = (l.map f).sum := by
  induction l generalizing i with
  | nil => simp
  | cons a l ih =>
    cases i with
    | zero => simp at h; simp [h]
    | succ n =>
      rw [List.getD_cons_succ] at h
      simp only [List.set_cons_succ, List.map_cons, List.sum_cons, ih n h]

theorem sum_map_set_succ {α : Type} (f : α → Nat) (l : List α) (i : Nat) (x d : α)
    (hi : i < l.length) (h : f x = f (l.getD i d) + 1) :
    ((l.set i x).map f).sum = (l.map f).sum + 1 := by
  induction l generalizing i with
  | nil => simp at hi
  | cons a l ih =>
    cases i with
    | zero => simp at h; simp [h]; omega
    | succ n =>
      rw [List.getD_cons_succ] at h
      have hi2 : n < l.length := by simpa using hi
      simp only [List.set_cons_succ, List.map_cons, List.sum_cons, ih n hi2 h]
      omega

theorem sum_map_eq_zero {α : Type} (f : α → Nat) (l : List α) (d : α)
    (h : ∀ j, f (l.getD j d) = 0) : (l.map f).sum = 0 := by
  induction l with
  | nil => simp
  | cons a l ih =>
    have h0 := h 0
    simp at h0
    have ht : ∀ j, f (l.getD j d) = 0 := fun j => by simpa using h (j + 1)
    simp [h0, ih ht]

theorem sum_map_single {α : Type} (f : α → Nat) (l : List α) (d : α) (i : Nat)
    (hd : f d = 0) (h : ∀ j, j ≠ i → f (l.getD j d) = 0) :
    (l.map f).sum = f (l.getD i d) := by
  induction l generalizing i with
  | nil => simp [hd]
  | cons a l ih =>
    cases i with
    | zero =>
      have ht : ∀ j, f (l.getD j d) = 0 := fun j => by simpa using h (j + 1) (by simp)
      simp [sum_map_eq_zero f l d ht]
    | succ n =>
      have h0 := h 0 (by simp)
      simp at h0
      have ht : ∀ j, j ≠ n → f (l.getD j d) = 0 := fun j hj => by
        simpa using h (j + 1) (by simpa using hj)
      simp [h0, ih n ht]

/-! ## Lemmas on chains -/

theorem search_chain_eq_none {k : CStr} {c : Chain} :
    search_chain k c = none ↔ ∀ e ∈ c, e.key ≠ k := by
  induction c with
  | nil => simp [search_chain]
  | cons e c ih =>
    by_cases h : e.key = k
    · simp [search_chain, h]
    · simp [search_chain, h, ih]

theorem search_chain_eq_none_keys {k : CStr} {c : Chain} :
    search_chain k c = none ↔ k ∉ c.map EntryNode.key := by
  rw [search_chain_eq_none]
  simp only [List.mem_map, not_exists, not_and]

theorem update_chain_eq_none {k v : CStr} {c : Chain} :
    update_chain k v c = none ↔ search_chain k c = none := by
  induction c with
  | nil => simp [update_chain, search_chain]
  | cons e c ih =>
    by_cases h : e.key = k
    · simp [update_chain, search_chain, h]
    · simp [update_chain, search_chain, h, ih]

theorem search_update_chain {k v k2 : CStr} {c u : Chain}
    (h : update_chain k v c = some u) :
    search_chain k2 u = if k2 = k then some v else search_chain k2 c := by
  induction c generalizing u with
  | nil => simp [update_chain] at h
  | cons e c ih =>
    by_cases hk : e.key = k
    · simp only [update_chain, hk, if_true, Option.some.injEq] at h
      subst h
      by_cases h2 : k2 = k
      · simp [search_chain, h2]
      · have h3 : ¬ k = k2 := fun h => h2 h.symm
        simp [search_chain, h2, hk, h3]
    · simp only [update_chain, hk, if_false, Option.map_eq_some'] at h
      obtain ⟨u2, hu2, rfl⟩ := h
      by_cases h2 : k2 = k
      · subst h2
        simp [search_chain, hk, ih hu2]
      · simp [search_chain, h2, ih hu2]

theorem keys_update_chain {k v : CStr} {c u : Chain}
    (h : update_chain k v c = some u) :
    u.map EntryNode.key = c.map EntryNode.key := by
  induction c generalizing u with
  | nil => simp [update_chain] at h
  | cons e c ih =>
    by_cases hk : e.key = k
    · simp only [update_chain, hk, if_true, Option.some.injEq] at h
      subst h
      simp [hk]
    · simp only [update_chain, hk, if_false, Option.map_eq_some'] at h
      obtain ⟨u2, hu2, rfl⟩ := h
      simp [ih hu2]

theorem search_insert_chain (k v k2 : CStr) (c : Chain) :
    search_chain k2 (insert_chain k v c) =
      if k2 = k then some v else search_chain k2 c := by
  unfold insert_chain
  cases h : update_chain k v c with
  | some u => exact search_update_chain h
  | none =>
    by_cases h2 : k2 = k
    · simp [search_chain, create_entry, h2]
    · have h3 : ¬ k = k2 := fun h => h2 h.symm
      simp [search_chain, create_entry, h2, h3]

theorem keys_insert_chain (k v : CStr) (c : Chain) :
    (insert_chain k v c).map EntryNode.key =
      if search_chain k c = none then k :: c.map EntryNode.key
      else c.map EntryNode.key := by
  unfold insert_chain
  cases h : update_chain k v c with
  | some u =>
    have hs : ¬ search_chain k c = none := by
      rw [← update_chain_eq_none (v := v), h]; simp
    simp [hs, keys_update_chain h]
  | none =>
    have hs : search_chain k c = none := update_chain_eq_none.mp h
    simp [hs, create_entry]

theorem nodup_insert_chain (k v : CStr) (c : Chain)
    (h : (c.map EntryNode.key).Nodup) :
    ((insert_chain k v c).map EntryNode.key).Nodup := by
  rw [keys_insert_chain]
  by_cases hs : search_chain k c = none
  · rw [if_pos hs]
    exact List.nodup_cons.mpr ⟨search_chain_eq_none_keys.mp hs, h⟩
  · rw [if_neg hs]; exact h

theorem key_of_mem_insert_chain {k v : CStr} {c : Chain} {e : EntryNode}
    (h : e ∈ insert_chain k v c) : e.key = k ∨ e.key ∈ c.map EntryNode.key := by
  have hm : e.key ∈ (insert_chain k v c).map EntryNode.key := List.mem_map_of_mem _ h
  rw [keys_insert_chain] at hm
  by_cases hs : search_chain k c = none
  · rw [if_pos hs] at hm
    exact List.mem_cons.mp hm
  · rw [if_neg hs] at hm
    exact Or.inr hm

theorem delete_chain_sublist (k : CStr) (c : Chain) :
    List.Sublist (delete_chain k c) c := by
  induction c with
  | nil => simp [delete_chain]
  | cons e c ih =>
    by_cases hk : e.key = k
    · simp [delete_chain, hk]
    · simp [delete_chain, hk, ih]

theorem delete_chain_of_search_none {k : CStr} {c : Chain}
    (h : search_chain k c = none) : delete_chain k c = c := by
  induction c with
  | nil => simp [delete_chain]
  | cons e c ih =>
    by_cases hk : e.key = k
    · simp [search_chain, hk] at h
    · simp only [search_chain, hk, if_false] at h
      simp [delete_chain, hk, ih h]

theorem search_delete_chain_ne {k k2 : CStr} (hne : k2 ≠ k) (c : Chain) :
    search_chain k2 (delete_chain k c) = search_chain k2 c := by
  induction c with
  | nil => simp [delete_chain]
  | cons e c ih =>
    by_cases hk : e.key = k
    · have h2 : ¬ e.key = k2 := fun h => hne (h.symm.trans hk)
      simp only [delete_chain, if_pos hk]
      simp only [search_chain, if_neg h2]
    · by_cases h2 : e.key = k2
      · simp only [delete_chain, if_neg hk, search_chain, if_pos h2]
      · simp only [delete_chain, if_neg hk, search_chain, if_neg h2, ih]

theorem search_delete_chain_same (k : CStr) (c : Chain)
    (h : (c.map EntryNode.key).Nodup) :
    search_chain k (delete_chain k c) = none := by
  induction c with
  | nil => simp [delete_chain, search_chain]
  | cons e c ih =>
    rw [List.map_cons, List.nodup_cons] at h
    by_cases hk : e.key = k
    · simp only [delete_chain, hk, if_true]
      rw [search_chain_eq_none_keys, ← hk]
      exact h.1
    · simp [delete_chain, search_chain, hk, ih h.2]

theorem nodup_delete_chain (k : CStr) (c : Chain)
    (h : (c.map EntryNode.key).Nodup) :
    ((delete_chain k c).map EntryNode.key).Nodup :=
  List.Nodup.sublist ((delete_chain_sublist k c).map EntryNode.key) h

theorem length_update_chain {k v : CStr} {c u : Chain}
    (h : update_chain k v c = some u) : u.length = c.length := by
  have := congrArg List.length (keys_update_chain h)
  simpa using this

theorem countP_key_of_nodup {k v : CStr} {c : Chain}
    (hn : (c.map EntryNode.key).Nodup) (hs : search_chain k c = some v) :
    c.countP (fun e => decide (e.key = k)) = 1 := by
  induction c with
  | nil => simp [search_chain] at hs
  | cons e c ih =>
    rw [List.map_cons, List.nodup_cons] at hn
    by_cases hk : e.key = k
    · have hno : ∀ x ∈ c, ¬ x.key = k := by
        intro x hx hxk
        exact hn.1 (List.mem_map.mpr ⟨x, hx, hxk.trans hk.symm⟩)
      have h0 : c.countP (fun e => decide (e.key = k)) = 0 := by
        rw [List.countP_eq_zero]
        intro x hx; simpa using hno x hx
      simp [List.countP_cons, hk, h0]
    · simp only [search_chain, hk, if_false] at hs
      simp [List.countP_cons, hk, ih hn.2 hs]

/-! ## Lemmas on tables -/

theorem ht_insert_eq (T : Target) (t : HashTable) (k v : CStr) :
    ht_insert T t k v =
      { t with entries := (t.entries.set (bucket_index T t k)
          (insert_chain k v (t.entries.getD (bucket_index T t k) []))) } := by
  simp only [ht_insert, insert_chain, bucket_index]
  cases update_chain k v (t.entries.getD (hash_function T k % t.size) []) <;> rfl

theorem size_ht_insert (T : Target) (t : HashTable) (k v : CStr) :
    (ht_insert T t k v).size = t.size := by
  rw [ht_insert_eq]

theorem length_ht_insert (T : Target) (t : HashTable) (k v : CStr) :
    (ht_insert T t k v).entries.length = t.entries.length := by
  rw [ht_insert_eq]; simp

theorem size_ht_delete (T : Target) (t : HashTable) (k : CStr) :
    (ht_delete T t k).size = t.size := rfl

theorem length_ht_delete (T : Target) (t : HashTable) (k : CStr) :
    (ht_delete T t k).entries.length = t.entries.length := by
  simp [ht_delete]

theorem bucket_index_lt {T : Target} {t : HashTable} (h : WellFormed t) (k : CStr) :
    bucket_index T t k < t.entries.length := by
  unfold bucket_index
  rw [h.1]
  exact Nat.mod_lt _ h.2

theorem bucket_ht_insert {T : Target} {t : HashTable} (h : WellFormed t)
    (k v : CStr) (j : Nat) :
    (ht_insert T t k v).entries.getD j [] =
      if bucket_index T t k = j then
        insert_chain k v (t.entries.getD (bucket_index T t k) [])
      else t.entries.getD j [] := by
  rw [ht_insert_eq]
  simp only [getD_set_eq, bucket_index_lt h k, and_true]

theorem bucket_ht_delete (T : Target) (t : HashTable) (k : CStr) (j : Nat) :
    (ht_delete T t k).entries.getD j [] =
      if bucket_index T t k = j then
        delete_chain k (t.entries.getD (bucket_index T t k) [])
      else t.entries.getD j [] := by
  show (t.entries.set (bucket_index T t k)
      (delete_chain k (t.entries.getD (bucket_index T t k) []))).getD j [] = _
  rw [getD_set_eq]
  by_cases hj : bucket_index T t k = j
  · subst hj
    by_cases hlt : bucket_index T t k < t.entries.length
    · rw [if_pos ⟨rfl, hlt⟩, if_pos rfl]
    · have hnil : t.entries.getD (bucket_index T t k) [] = [] := by
        rw [List.getD_eq_default]; exact Nat.le_of_not_lt hlt
      rw [if_neg (fun h => hlt h.2), if_pos rfl, hnil]
      rfl
  · rw [if_neg (fun h => hj h.1), if_neg hj]

theorem search_ht_insert {T : Target} {t : HashTable} (h : WellFormed t)
    (k v k2 : CStr) :
    ht_search T (ht_insert T t k v) k2 =
      if k2 = k then some v else ht_search T t k2 := by
  simp only [ht_search, size_ht_insert]
  rw [bucket_ht_insert h]
  by_cases hj : bucket_index T t k = hash_function T k2 % t.size
  · rw [if_pos hj, search_insert_chain, hj]
  · rw [if_neg hj]
    have hne : ¬ k2 = k := by
      intro e; subst e; exact hj rfl
    rw [if_neg hne]

theorem search_ht_delete_ne (T : Target) (t : HashTable) {k k2 : CStr}
    (hne : k2 ≠ k) :
    ht_search T (ht_delete T t k) k2 = ht_search T t k2 := by
  simp only [ht_search, size_ht_delete]
  rw [bucket_ht_delete]
  by_cases hj : bucket_index T t k = hash_function T k2 % t.size
  · rw [if_pos hj, search_delete_chain_ne hne, hj]
  · rw [if_neg hj]

theorem search_ht_delete_same (T : Target) {t : HashTable} (h : UniqueKeys t)
    (k : CStr) : ht_search T (ht_delete T t k) k = none := by
  simp only [ht_search, size_ht_delete]
  rw [bucket_ht_delete]
  rw [if_pos (show bucket_index T t k = hash_function T k % t.size from rfl)]
  exact search_delete_chain_same k _ (h _)

theorem ht_delete_of_search_none (T : Target) {t : HashTable} {k : CStr}
    (h : ht_search T t k = none) : ht_delete T t k = t := by
  simp only [ht_search] at h
  simp only [ht_delete]
  rw [delete_chain_of_search_none h, set_getD_self]

/-! ## The invariant of reachable tables -/

theorem ht_create_ok : ht_create true true = some empty_table := rfl

theorem ht_create_eq_some {a b : Bool} {t : HashTable}
    (h : ht_create a b = some t) : t = empty_table := by
  cases a <;> cases b <;> simp [ht_create] at h
  exact h.symm

theorem bucket_empty_table (i : Nat) : empty_table.entries.getD i [] = [] := by
  unfold empty_table
  rw [List.getD_eq_getElem?_getD, List.getElem?_replicate]
  split <;> rfl

theorem search_empty_table (T : Target) (k : CStr) :
    ht_search T empty_table k = none := by
  simp only [ht_search, bucket_empty_table, search_chain]

theorem wf_ht_insert {T : Target} {t : HashTable} (h : WellFormed t) (k v : CStr) :
    WellFormed (ht_insert T t k v) := by
  unfold WellFormed
  rw [length_ht_insert, size_ht_insert]; exact h

theorem wf_ht_delete {T : Target} {t : HashTable} (h : WellFormed t) (k : CStr) :
    WellFormed (ht_delete T t k) := by
  unfold WellFormed
  rw [length_ht_delete, size_ht_delete]; exact h

theorem inv_ht_create {T : Target} {a b : Bool} {t : HashTable}
    (h : ht_create a b = some t) : Inv T t := by
  rw [ht_create_eq_some h]
  refine ⟨⟨by simp [empty_table], by decide⟩, ?_, ?_⟩
  · intro i; rw [bucket_empty_table]; exact List.nodup_nil
  · intro i e he; rw [bucket_empty_table] at he; cases he

theorem inv_ht_insert {T : Target} {t : HashTable} (h : Inv T t) (k v : CStr) :
    Inv T (ht_insert T t k v) := by
  refine ⟨⟨?_, ?_⟩, ?_, ?_⟩
  · rw [length_ht_insert, size_ht_insert]; exact h.wf.1
  · rw [size_ht_insert]; exact h.wf.2
  · intro i
    rw [bucket_ht_insert h.wf]
    by_cases hj : bucket_index T t k = i
    · rw [if_pos hj]; exact nodup_insert_chain k v _ (h.unique _)
    · rw [if_neg hj]; exact h.unique i
  · intro i e he
    rw [size_ht_insert]
    rw [bucket_ht_insert h.wf] at he
    by_cases hj : bucket_index T t k = i
    · rw [if_pos hj] at he
      rcases key_of_mem_insert_chain he with hk | hk
      · rw [hk]; exact hj
      · obtain ⟨x, hx, hxe⟩ := List.mem_map.mp hk
        rw [← hxe, ← hj]
        exact h.placed _ x hx
    · rw [if_neg hj] at he
      exact h.placed i e he

theorem inv_ht_delete {T : Target} {t : HashTable} (h : Inv T t) (k : CStr) :
    Inv T (ht_delete T t k) := by
  refine ⟨⟨?_, ?_⟩, ?_, ?_⟩
  · rw [length_ht_delete, size_ht_delete]; exact h.wf.1
  · rw [size_ht_delete]; exact h.wf.2
  · intro i
    rw [bucket_ht_delete]
    by_cases hj : bucket_index T t k = i
    · rw [if_pos hj]; exact nodup_delete_chain k _ (h.unique _)
    · rw [if_neg hj]; exact h.unique i
  · intro i e he
    rw [size_ht_delete]
    rw [bucket_ht_delete] at he
    by_cases hj : bucket_index T t k = i
    · rw [if_pos hj] at he
      have hm := (delete_chain_sublist k _).subset he
      rw [← hj]
      exact h.placed _ e hm
    · rw [if_neg hj] at he
      exact h.placed i e he

theorem inv_of_reachable {T : Target} {t : HashTable} (h : Reachable T t) :
    Inv T t := by
  induction h with
  | create hc => exact inv_ht_create hc
  | insert k v _ ih => exact inv_ht_insert ih k v
  | delete k _ ih => exact inv_ht_delete ih k

theorem inv_run_ops {T : Target} {t : HashTable} (h : Inv T t) (ops : List Op) :
    Inv T (run_ops T t ops) := by
  induction ops generalizing t with
  | nil => exact h
  | cons op ops ih =>
    cases op with
    | insert k v => exact ih (inv_ht_insert h k v)
    | delete k => exact ih (inv_ht_delete h k)

theorem reachable_run_ops {T : Target} {t : HashTable} (h : Reachable T t)
    (ops : List Op) : Reachable T (run_ops T t ops) := by
  induction ops generalizing t with
  | nil => exact h
  | cons op ops ih =>
    cases op with
    | insert k v => exact ih (Reachable.insert k v h)
    | delete k => exact ih (Reachable.delete k h)

theorem run_ops_cons (T : Target) (t : HashTable) (op : Op) (ops : List Op) :
    run_ops T t (op :: ops) = run_ops T (apply_op T t op) ops := rfl

/-- Calls on other keys do not change the answer for `k`. -/
theorem search_run_ops_ne {T : Target} {t : HashTable} (h : WellFormed t)
    (k : CStr) (ops : List Op) (hops : ∀ op ∈ ops, op.key ≠ k) :
    ht_search T (run_ops T t ops) k = ht_search T t k := by
  induction ops generalizing t with
  | nil => rfl
  | cons op ops ih =>
    have hop : op.key ≠ k := hops op (List.mem_cons_self _ _)
    have hrest : ∀ o ∈ ops, o.key ≠ k := fun o ho => hops o (List.mem_cons_of_mem _ ho)
    rw [run_ops_cons]
    cases op with
    | insert k2 v2 =>
      have hne : ¬ k = k2 := fun e => hop e.symm
      show ht_search T (run_ops T (ht_insert T t k2 v2) ops) k = _
      rw [ih (wf_ht_insert h k2 v2) hrest, search_ht_insert h, if_neg hne]
    | delete k2 =>
      have hne : k ≠ k2 := fun e => hop e.symm
      show ht_search T (run_ops T (ht_delete T t k2) ops) k = _
      rw [ih (wf_ht_delete h k2) hrest]
      exact search_ht_delete_ne T t hne

/-- A key that is never inserted stays absent. -/
theorem search_run_ops_none {T : Target} {t : HashTable} (h : WellFormed t)
    (k : CStr) (ops : List Op) (hs : ht_search T t k = none)
    (hops : ∀ op ∈ ops, ∀ v, op ≠ Op.insert k v) :
    ht_search T (run_ops T t ops) k = none := by
  induction ops generalizing t with
  | nil => exact hs
  | cons op ops ih =>
    have hop : ∀ v, op ≠ Op.insert k v := hops op (List.mem_cons_self _ _)
    have hrest : ∀ o ∈ ops, ∀ v, o ≠ Op.insert k v :=
      fun o ho => hops o (List.mem_cons_of_mem _ ho)
    rw [run_ops_cons]
    cases op with
    | insert k2 v2 =>
      have hne : ¬ k = k2 := fun e => hop v2 (by rw [e])
      apply ih (wf_ht_insert h k2 v2) _ hrest
      show ht_search T (ht_insert T t k2 v2) k = none
      rw [search_ht_insert h, if_neg hne]; exact hs
    | delete k2 =>
      apply ih (wf_ht_delete h k2) _ hrest
      show ht_search T (ht_delete T t k2) k = none
      by_cases hk : k = k2
      · subst hk
        rw [ht_delete_of_search_none T hs]; exact hs
      · rw [search_ht_delete_ne T t hk]; exact hs

/-- In a table satisfying the invariant a present key has exactly one record. -/
theorem count_key_of_search {T : Target} {t : HashTable} (h : Inv T t)
    {k v : CStr} (hs : ht_search T t k = some v) : count_key t k = 1 := by
  unfold count_key
  rw [sum_map_single (fun chain : Chain => chain.countP (fun e => decide (e.key = k)))
    t.entries [] (hash_function T k % t.size) (by simp)]
  · exact countP_key_of_nodup (h.unique _) hs
  · intro j hj
    rw [List.countP_eq_zero]
    intro e he
    have hp := h.placed j e he
    simp only [decide_eq_true_eq]
    intro hk
    rw [hk] at hp
    exact hj hp.symm

/-- Replacing the value of a present key keeps the number of records. -/
theorem entry_count_ht_insert_present {T : Target} {t : HashTable}
    {k v0 : CStr} (hs : ht_search T t k = some v0) (v : CStr) :
    entry_count (ht_insert T t k v) = entry_count t := by
  unfold entry_count
  rw [ht_insert_eq]
  apply sum_map_set_eq List.length _ _ _ []
  unfold insert_chain
  cases hu : update_chain k v (t.entries.getD (bucket_index T t k) []) with
  | some u => exact length_update_chain hu
  | none =>
    have hn := update_chain_eq_none.mp hu
    simp only [ht_search] at hs
    simp only [bucket_index] at hn
    rw [hn] at hs
    cases hs

theorem size_of_reachable {T : Target} {t : HashTable} (h : Reachable T t) :
    t.size = TABLE_SIZE := by
  induction h with
  | create hc => rw [ht_create_eq_some hc]; rfl
  | insert k v _ ih => rw [size_ht_insert]; exact ih
  | delete k _ ih => rw [size_ht_delete]; exact ih

theorem search_apply_op {T : Target} {t : HashTable} (h : Inv T t) (op : Op) :
    ht_search T (apply_op T t op) = lookup_step (ht_search T t) op := by
  funext k2
  cases op with
  | insert k v => exact search_ht_insert h.wf k v k2
  | delete k =>
    show ht_search T (ht_delete T t k) k2 = if k2 = k then none else ht_search T t k2
    by_cases hk : k2 = k
    · subst hk
      rw [if_pos rfl]; exact search_ht_delete_same T h.unique k2
    · rw [if_neg hk]; exact search_ht_delete_ne T t hk

theorem inv_apply_op {T : Target} {t : HashTable} (h : Inv T t) (op : Op) :
    Inv T (apply_op T t op) := by
  cases op with
  | insert k v => exact inv_ht_insert h k v
  | delete k => exact inv_ht_delete h k

/-- Searching after a sequence of calls is looking up in the map the calls
build. -/
theorem search_run_ops {T : Target} {t : HashTable} (h : Inv T t) (ops : List Op) :
    ht_search T (run_ops T t ops) = ops.foldl lookup_step (ht_search T t) := by
  induction ops generalizing t with
  | nil => rfl
  | cons op ops ih =>
    rw [run_ops_cons, ih (inv_apply_op h op), search_apply_op h op]
    rfl

theorem search_run_ops_empty (T : Target) (ops : List Op) (k : CStr) :
    ht_search T (run_ops T empty_table ops) k =
      ops.foldl lookup_step (fun _ => none) k := by
  rw [search_run_ops (inv_ht_create ht_create_ok)]
  have : ht_search T empty_table = fun _ => none := funext (search_empty_table T)
  rw [this]

/-! ## The contract of the hash table -/

/-- C1: on every table of positive capacity (its bucket array holding `size`
slots), `ht_search` on the table produced by `ht_insert(table, k, v)` returns
`v` for `k`; nothing is assumed about `k` being absent or present before. -/
theorem C1_search_after_insert (T : Target) (t : HashTable) (k v : CStr)
    (hpos : 0 < t.size) (hlen : t.entries.length = t.size) :
    ht_search T (ht_insert T t k v) k = some v := by
  rw [search_ht_insert ⟨hlen, hpos⟩, if_pos rfl]

/-- Instance of C1 on a reachable table in which the key is already present
(the update path) and on the fresh table (the insert path). -/
theorem C1_search_after_insert_witness :
    (0 < (ht_insert lp64_signed empty_table (ascii "city") (ascii "New York")).size ∧
      (ht_insert lp64_signed empty_table (ascii "city") (ascii "New York")).entries.length =
        (ht_insert lp64_signed empty_table (ascii "city") (ascii "New York")).size ∧
      ht_search lp64_signed
        (ht_insert lp64_signed
          (ht_insert lp64_signed empty_table (ascii "city") (ascii "New York"))
          (ascii "city") (ascii "London")) (ascii "city") = some (ascii "London")) ∧
    ht_search lp64_signed (ht_insert lp64_signed empty_table (ascii "city") (ascii "London"))
      (ascii "city") = some (ascii "London") :=
  ⟨⟨by decide, by decide,
      C1_search_after_insert lp64_signed _ (ascii "city") (ascii "London")
        (by decide) (by decide)⟩,
    C1_search_after_insert lp64_signed empty_table (ascii "city") (ascii "London")
      (by decide) (by decide)⟩

/-- C2: on every table reachable from `ht_create`, after `ht_insert(k, v)`
every later sequence of `ht_insert` and `ht_delete` calls whose keys all differ
from `k` leaves `ht_search(k)` equal to `v`. -/
theorem C2_other_keys_keep_answer (T : Target) (t : HashTable) (k v : CStr)
    (ops : List Op) (hr : Reachable T t) (hops : ∀ op ∈ ops, op.key ≠ k) :
    ht_search T (run_ops T (ht_insert T t k v) ops) k = some v := by
  have hwf := (inv_of_reachable hr).wf
  rw [search_run_ops_ne (wf_ht_insert hwf k v) k ops hops, search_ht_insert hwf,
    if_pos rfl]

/-- Instance of C2: `"A"` and `"v"` share a bucket, `"age"` does not. -/
theorem C2_other_keys_keep_answer_witness :
    Reachable lp64_signed empty_table ∧
    (∀ op ∈ [Op.insert (ascii "v") (ascii "1"), Op.insert (ascii "age") (ascii "30"),
        Op.delete (ascii "v"), Op.delete (ascii "age")], op.key ≠ ascii "A") ∧
    ht_search lp64_signed
      (run_ops lp64_signed (ht_insert lp64_signed empty_table (ascii "A") (ascii "0"))
        [Op.insert (ascii "v") (ascii "1"), Op.insert (ascii "age") (ascii "30"),
          Op.delete (ascii "v"), Op.delete (ascii "age")]) (ascii "A") = some (ascii "0") :=
  ⟨Reachable.create ht_create_ok, by decide,
    C2_other_keys_keep_answer lp64_signed empty_table (ascii "A") (ascii "0") _
      (Reachable.create ht_create_ok) (by decide)⟩

/-- C3: for every key `k` and every sequence of `ht_insert` and `ht_delete`
calls applied to a freshly created table in which `k` is never the inserted
key, `ht_search(k)` returns `NULL`. -/
theorem C3_never_inserted_not_found (T : Target) (malloc_ok calloc_ok : Bool)
    (t0 : HashTable) (k : CStr) (ops : List Op)
    (hc : ht_create malloc_ok calloc_ok = some t0)
    (hops : ∀ op ∈ ops, ∀ v, op ≠ Op.insert k v) :
    ht_search T (run_ops T t0 ops) k = none := by
  rw [ht_create_eq_some hc]
  have h0 : Inv T empty_table := inv_ht_create ht_create_ok
  exact search_run_ops_none h0.wf k ops (search_empty_table T k) hops

/-- Instance of C3: `"status"` is deleted but never inserted. -/
theorem C3_never_inserted_not_found_witness :
    ht_create true true = some empty_table ∧
    (∀ op ∈ [Op.insert (ascii "name") (ascii "Alice"), Op.delete (ascii "status"),
        Op.insert (ascii "age") (ascii "30")], ∀ v, op ≠ Op.insert (ascii "status") v) ∧
    ht_search lp64_signed
      (run_ops lp64_signed empty_table
        [Op.insert (ascii "name") (ascii "Alice"), Op.delete (ascii "status"),
          Op.insert (ascii "age") (ascii "30")]) (ascii "status") = none :=
  ⟨rfl, by simp [ascii],
    C3_never_inserted_not_found lp64_signed true true empty_table (ascii "status") _ rfl
      (by simp [ascii])⟩

/-- C4: on every table reachable from `ht_create`, after `ht_insert(k, v)`
followed by `ht_delete(k)`, `ht_search(k)` returns `NULL`. -/
theorem C4_insert_delete_not_found (T : Target) (t : HashTable) (k v : CStr)
    (hr : Reachable T t) :
    ht_search T (ht_delete T (ht_insert T t k v) k) k = none :=
  search_ht_delete_same T (inv_ht_insert (inv_of_reachable hr) k v).unique k

/-- Instance of C4 on a table that already holds the key. -/
theorem C4_insert_delete_not_found_witness :
    Reachable lp64_signed (ht_insert lp64_signed empty_table (ascii "age") (ascii "30")) ∧
    ht_search lp64_signed
      (ht_delete lp64_signed
        (ht_insert lp64_signed
          (ht_insert lp64_signed empty_table (ascii "age") (ascii "30"))
          (ascii "age") (ascii "31")) (ascii "age")) (ascii "age") = none :=
  ⟨Reachable.insert _ _ (Reachable.create ht_create_ok),
    C4_insert_delete_not_found lp64_signed _ (ascii "age") (ascii "31")
      (Reachable.insert _ _ (Reachable.create ht_create_ok))⟩

/-- C5: `ht_delete` is idempotent on every table reachable from `ht_create`:
deleting `k` twice in a row leaves exactly the table that deleting it once
leaves. -/
theorem C5_delete_idempotent (T : Target) (t : HashTable) (k : CStr)
    (hr : Reachable T t) :
    ht_delete T (ht_delete T t k) k = ht_delete T t k :=
  ht_delete_of_search_none T (search_ht_delete_same T (inv_of_reachable hr).unique k)

/-- Instance of C5 on a table holding the deleted key. -/
theorem C5_delete_idempotent_witness :
    Reachable lp64_signed (ht_insert lp64_signed empty_table (ascii "age") (ascii "30")) ∧
    ht_delete lp64_signed
      (ht_delete lp64_signed
        (ht_insert lp64_signed empty_table (ascii "age") (ascii "30")) (ascii "age"))
      (ascii "age") =
    ht_delete lp64_signed
      (ht_insert lp64_signed empty_table (ascii "age") (ascii "30")) (ascii "age") :=
  ⟨Reachable.insert _ _ (Reachable.create ht_create_ok),
    C5_delete_idempotent lp64_signed _ (ascii "age")
      (Reachable.insert _ _ (Reachable.create ht_create_ok))⟩

/-- C6: on every table and for every key `k` for which `ht_search(k)` returns
`NULL`, `ht_delete(k)` returns the table unchanged: every bucket chain, key and
value is identical.  `ht_delete` has no result besides the table, so there is
no error it could signal. -/
theorem C6_delete_absent_unchanged (T : Target) (t : HashTable) (k : CStr)
    (h : ht_search T t k = none) : ht_delete T t k = t :=
  ht_delete_of_search_none T h

/-- Instance of C6: `"v"` is absent from a table whose bucket for `"v"` holds
`"A"`. -/
theorem C6_delete_absent_unchanged_witness :
    ht_search lp64_signed (ht_insert lp64_signed empty_table (ascii "A") (ascii "0"))
      (ascii "v") = none ∧
    ht_delete lp64_signed (ht_insert lp64_signed empty_table (ascii "A") (ascii "0"))
      (ascii "v") = ht_insert lp64_signed empty_table (ascii "A") (ascii "0") :=
  ⟨by decide, C6_delete_absent_unchanged lp64_signed _ (ascii "v") (by decide)⟩

/-- C7: update law on every table reachable from `ht_create`: after
`ht_insert(k, v1)` then `ht_insert(k, v2)`, `ht_search(k)` returns `v2`, the
table holds exactly one record with key `k`, and the number of records is the
one after the first insert. -/
theorem C7_update_law (T : Target) (t : HashTable) (k v1 v2 : CStr)
    (hr : Reachable T t) :
    ht_search T (ht_insert T (ht_insert T t k v1) k v2) k = some v2 ∧
    count_key (ht_insert T (ht_insert T t k v1) k v2) k = 1 ∧
    entry_count (ht_insert T (ht_insert T t k v1) k v2) =
      entry_count (ht_insert T t k v1) := by
  have h0 := inv_of_reachable hr
  have h1 := inv_ht_insert h0 k v1
  have h2 := inv_ht_insert h1 k v2
  have s1 : ht_search T (ht_insert T t k v1) k = some v1 := by
    rw [search_ht_insert h0.wf, if_pos rfl]
  have s2 : ht_search T (ht_insert T (ht_insert T t k v1) k v2) k = some v2 := by
    rw [search_ht_insert h1.wf, if_pos rfl]
  exact ⟨s2, count_key_of_search h2 s2, entry_count_ht_insert_present s1 v2⟩

/-- Instance of C7 on a table that holds another key in the same bucket. -/
theorem C7_update_law_witness :
    Reachable lp64_signed (ht_insert lp64_signed empty_table (ascii "A") (ascii "0")) ∧
    ht_search lp64_signed
      (ht_insert lp64_signed
        (ht_insert lp64_signed
          (ht_insert lp64_signed empty_table (ascii "A") (ascii "0"))
          (ascii "v") (ascii "1")) (ascii "v") (ascii "2")) (ascii "v") = some (ascii "2") ∧
    count_key
      (ht_insert lp64_signed
        (ht_insert lp64_signed
          (ht_insert lp64_signed empty_table (ascii "A") (ascii "0"))
          (ascii "v") (ascii "1")) (ascii "v") (ascii "2")) (ascii "v") = 1 ∧
    entry_count
      (ht_insert lp64_signed
        (ht_insert lp64_signed
          (ht_insert lp64_signed empty_table (ascii "A") (ascii "0"))
          (ascii "v") (ascii "1")) (ascii "v") (ascii "2")) =
    entry_count
      (ht_insert lp64_signed
        (ht_insert lp64_signed empty_table (ascii "A") (ascii "0"))
        (ascii "v") (ascii "1")) :=
  ⟨Reachable.insert _ _ (Reachable.create ht_create_ok),
    C7_update_law lp64_signed _ (ascii "v") (ascii "1") (ascii "2")
      (Reachable.insert _ _ (Reachable.create ht_create_ok))⟩

/-- C8: collision correctness on every table reachable from `ht_create`: for
distinct keys `k1`, `k2` with the same `hash_function % 53`, after inserting
both (in either order) each key is found with its own value and both use the
same bucket; after then deleting `k1`, `k2` is still found with `v2` and `k1`
is not found. -/
theorem C8_collision (T : Target) (t : HashTable) (k1 k2 v1 v2 : CStr)
    (hr : Reachable T t) (hne : k1 ≠ k2)
    (hcol : hash_function T k1 % TABLE_SIZE = hash_function T k2 % TABLE_SIZE) :
    (bucket_index T (ht_insert T (ht_insert T t k1 v1) k2 v2) k1 =
        bucket_index T (ht_insert T (ht_insert T t k1 v1) k2 v2) k2 ∧
      ht_search T (ht_insert T (ht_insert T t k1 v1) k2 v2) k1 = some v1 ∧
      ht_search T (ht_insert T (ht_insert T t k1 v1) k2 v2) k2 = some v2 ∧
      ht_search T (ht_delete T (ht_insert T (ht_insert T t k1 v1) k2 v2) k1) k2 = some v2 ∧
      ht_search T (ht_delete T (ht_insert T (ht_insert T t k1 v1) k2 v2) k1) k1 = none) ∧
    (ht_search T (ht_insert T (ht_insert T t k2 v2) k1 v1) k1 = some v1 ∧
      ht_search T (ht_insert T (ht_insert T t k2 v2) k1 v1) k2 = some v2 ∧
      ht_search T (ht_delete T (ht_insert T (ht_insert T t k2 v2) k1 v1) k1) k2 = some v2 ∧
      ht_search T (ht_delete T (ht_insert T (ht_insert T t k2 v2) k1 v1) k1) k1 = none) := by
  have h0 := inv_of_reachable hr
  have hsz := size_of_reachable hr
  have hne2 : k2 ≠ k1 := fun e => hne e.symm
  have ha := inv_ht_insert h0 k1 v1
  have hab := inv_ht_insert ha k2 v2
  have hb := inv_ht_insert h0 k2 v2
  have hba := inv_ht_insert hb k1 v1
  refine ⟨⟨?_, ?_, ?_, ?_, ?_⟩, ?_, ?_, ?_, ?_⟩
  · simp only [bucket_index, size_ht_insert, hsz]; exact hcol
  · rw [search_ht_insert ha.wf, if_neg hne, search_ht_insert h0.wf, if_pos rfl]
  · rw [search_ht_insert ha.wf, if_pos rfl]
  · rw [search_ht_delete_ne T _ hne2, search_ht_insert ha.wf, if_pos rfl]
  · exact search_ht_delete_same T hab.unique k1
  · rw [search_ht_insert hb.wf, if_pos rfl]
  · rw [search_ht_insert hb.wf, if_neg hne2, search_ht_insert h0.wf, if_pos rfl]
  · rw [search_ht_delete_ne T _ hne2, search_ht_insert hb.wf, if_neg hne2,
      search_ht_insert h0.wf, if_pos rfl]
  · exact search_ht_delete_same T hba.unique k1

/-- Instance of C8: the keys `"A"` and `"v"` collide (bucket 35 of 53). -/
theorem C8_collision_witness :
    Reachable lp64_signed empty_table ∧ ascii "A" ≠ ascii "v" ∧
    hash_function lp64_signed (ascii "A") % TABLE_SIZE = 35 ∧
    hash_function lp64_signed (ascii "v") % TABLE_SIZE = 35 ∧
    ht_search lp64_signed
      (ht_delete lp64_signed
        (ht_insert lp64_signed (ht_insert lp64_signed empty_table (ascii "A") (ascii "0"))
          (ascii "v") (ascii "1")) (ascii "A")) (ascii "v") = some (ascii "1") ∧
    ht_search lp64_signed
      (ht_delete lp64_signed
        (ht_insert lp64_signed (ht_insert lp64_signed empty_table (ascii "A") (ascii "0"))
          (ascii "v") (ascii "1")) (ascii "A")) (ascii "A") = none :=
  ⟨Reachable.create ht_create_ok, by decide, by decide, by decide,
    (C8_collision lp64_signed empty_table (ascii "A") (ascii "v") (ascii "0") (ascii "1")
      (Reachable.create ht_create_ok) (by decide) (by decide)).1.2.2.2.1,
    (C8_collision lp64_signed empty_table (ascii "A") (ascii "v") (ascii "0") (ascii "1")
      (Reachable.create ht_create_ok) (by decide) (by decide)).1.2.2.2.2⟩

/-- C9: the demonstration scenario, on every target.  On the fresh table of
capacity 53: after inserting ("name","Alice"), ("age","30"),
("city","New York"), searching "city" gives "New York" and "status" is not
found; after inserting ("city","London"), "city" gives "London"; after
deleting "age", "age" is not found and "name" gives "Alice".  The run of
`main`, which also inserts ("country","USA") and ("occupation","Engineer"),
prints the same answers and "Engineer" for "occupation". -/
theorem C9_demonstration (T : Target) :
    ht_create true true = some empty_table ∧ empty_table.size = 53 ∧
    ht_search T
      (ht_insert T (ht_insert T (ht_insert T empty_table (ascii "name") (ascii "Alice"))
        (ascii "age") (ascii "30")) (ascii "city") (ascii "New York"))
      (ascii "city") = some (ascii "New York") ∧
    ht_search T
      (ht_insert T (ht_insert T (ht_insert T empty_table (ascii "name") (ascii "Alice"))
        (ascii "age") (ascii "30")) (ascii "city") (ascii "New York"))
      (ascii "status") = none ∧
    ht_search T
      (ht_insert T
        (ht_insert T (ht_insert T (ht_insert T empty_table (ascii "name") (ascii "Alice"))
          (ascii "age") (ascii "30")) (ascii "city") (ascii "New York"))
        (ascii "city") (ascii "London"))
      (ascii "city") = some (ascii "London") ∧
    ht_search T
      (ht_delete T
        (ht_insert T
          (ht_insert T (ht_insert T (ht_insert T empty_table (ascii "name") (ascii "Alice"))
            (ascii "age") (ascii "30")) (ascii "city") (ascii "New York"))
          (ascii "city") (ascii "London"))
        (ascii "age"))
      (ascii "age") = none ∧
    ht_search T
      (ht_delete T
        (ht_insert T
          (ht_insert T (ht_insert T (ht_insert T empty_table (ascii "name") (ascii "Alice"))
            (ascii "age") (ascii "30")) (ascii "city") (ascii "New York"))
          (ascii "city") (ascii "London"))
        (ascii "age"))
      (ascii "name") = some (ascii "Alice") ∧
    main T true true =
      some [some (ascii "Alice"), some (ascii "New York"), some (ascii "Engineer"), none,
        some (ascii "New York"), some (ascii "London"), some (ascii "30"), none,
        some (ascii "Alice")] := by
  have e3 : ∀ k, ht_search T
      (ht_insert T (ht_insert T (ht_insert T empty_table (ascii "name") (ascii "Alice"))
        (ascii "age") (ascii "30")) (ascii "city") (ascii "New York")) k =
      ht_search T (run_ops T empty_table
        [Op.insert (ascii "name") (ascii "Alice"), Op.insert (ascii "age") (ascii "30"),
          Op.insert (ascii "city") (ascii "New York")]) k := by
    intro k; simp only [run_ops, List.foldl_cons, List.foldl_nil, apply_op]
  have e4 : ∀ k, ht_search T
      (ht_insert T
        (ht_insert T (ht_insert T (ht_insert T empty_table (ascii "name") (ascii "Alice"))
          (ascii "age") (ascii "30")) (ascii "city") (ascii "New York"))
        (ascii "city") (ascii "London")) k =
      ht_search T (run_ops T empty_table
        [Op.insert (ascii "name") (ascii "Alice"), Op.insert (ascii "age") (ascii "30"),
          Op.insert (ascii "city") (ascii "New York"),
          Op.insert (ascii "city") (ascii "London")]) k := by
    intro k; simp only [run_ops, List.foldl_cons, List.foldl_nil, apply_op]
  have e5 : ∀ k, ht_search T
      (ht_delete T
        (ht_insert T
          (ht_insert T (ht_insert T (ht_insert T empty_table (ascii "name") (ascii "Alice"))
            (ascii "age") (ascii "30")) (ascii "city") (ascii "New York"))
          (ascii "city") (ascii "London"))
        (ascii "age")) k =
      ht_search T (run_ops T empty_table
        [Op.insert (ascii "name") (ascii "Alice"), Op.insert (ascii "age") (ascii "30"),
          Op.insert (ascii "city") (ascii "New York"),
          Op.insert (ascii "city") (ascii "London"), Op.delete (ascii "age")]) k := by
    intro k; simp only [run_ops, List.foldl_cons, List.foldl_nil, apply_op]
  have em : main T true true =
      some [
        ht_search T (run_ops T empty_table
          [Op.insert (ascii "name") (ascii "Alice"), Op.insert (ascii "age") (ascii "30"),
            Op.insert (ascii "city") (ascii "New York"),
            Op.insert (ascii "country") (ascii "USA"),
            Op.insert (ascii "occupation") (ascii "Engineer")]) (ascii "name"),
        ht_search T (run_ops T empty_table
          [Op.insert (ascii "name") (ascii "Alice"), Op.insert (ascii "age") (ascii "30"),
            Op.insert (ascii "city") (ascii "New York"),
            Op.insert (ascii "country") (ascii "USA"),
            Op.insert (ascii "occupation") (ascii "Engineer")]) (ascii "city"),
        ht_search T (run_ops T empty_table
          [Op.insert (ascii "name") (ascii "Alice"), Op.insert (ascii "age") (ascii "30"),
            Op.insert (ascii "city") (ascii "New York"),
            Op.insert (ascii "country") (ascii "USA"),
            Op.insert (ascii "occupation") (ascii "Engineer")]) (ascii "occupation"),
        ht_search T (run_ops T empty_table
          [Op.insert (ascii "name") (ascii "Alice"), Op.insert (ascii "age") (ascii "30"),
            Op.insert (ascii "city") (ascii "New York"),
            Op.insert (ascii "country") (ascii "USA"),
            Op.insert (ascii "occupation") (ascii "Engineer")]) (ascii "status"),
        ht_search T (run_ops T empty_table
          [Op.insert (ascii "name") (ascii "Alice"), Op.insert (ascii "age") (ascii "30"),
            Op.insert (ascii "city") (ascii "New York"),
            Op.insert (ascii "country") (ascii "USA"),
            Op.insert (ascii "occupation") (ascii "Engineer")]) (ascii "city"),
        ht_search T (run_ops T empty_table
          [Op.insert (ascii "name") (ascii "Alice"), Op.insert (ascii "age") (ascii "30"),
            Op.insert (ascii "city") (ascii "New York"),
            Op.insert (ascii "country") (ascii "USA"),
            Op.insert (ascii "occupation") (ascii "Engineer"),
            Op.insert (ascii "city") (ascii "London")]) (ascii "city"),
        ht_search T (run_ops T empty_table
          [Op.insert (ascii "name") (ascii "Alice"), Op.insert (ascii "age") (ascii "30"),
            Op.insert (ascii "city") (ascii "New York"),
            Op.insert (ascii "country") (ascii "USA"),
            Op.insert (ascii "occupation") (ascii "Engineer"),
            Op.insert (ascii "city") (ascii "London")]) (ascii "age"),
        ht_search T (run_ops T empty_table
          [Op.insert (ascii "name") (ascii "Alice"), Op.insert (ascii "age") (ascii "30"),
            Op.insert (ascii "city") (ascii "New York"),
            Op.insert (ascii "country") (ascii "USA"),
            Op.insert (ascii "occupation") (ascii "Engineer"),
            Op.insert (ascii "city") (ascii "London"), Op.delete (ascii "age")])
          (ascii "age"),
        ht_search T (run_ops T empty_table
          [Op.insert (ascii "name") (ascii "Alice"), Op.insert (ascii "age") (ascii "30"),
            Op.insert (ascii "city") (ascii "New York"),
            Op.insert (ascii "country") (ascii "USA"),
            Op.insert (ascii "occupation") (ascii "Engineer"),
            Op.insert (ascii "city") (ascii "London"), Op.delete (ascii "age")])
          (ascii "name")] := by
    simp only [run_ops, List.foldl_cons, List.foldl_nil, apply_op, main, ht_create_ok]
  refine ⟨rfl, rfl, ?_, ?_, ?_, ?_, ?_, ?_⟩
  · rw [e3, search_run_ops_empty]; decide
  · rw [e3, search_run_ops_empty]; decide
  · rw [e4, search_run_ops_empty]; decide
  · rw [e5, search_run_ops_empty]; decide
  · rw [e5, search_run_ops_empty]; decide
  · rw [em]
    simp only [search_run_ops_empty]
    decide

/-! ## hash_function and the djb2 fold -/

theorem hash_step_int (T : Target) (h b : Nat) :
    ((hash_step T h b : Nat) : Int) =
      ((h : Int) * 33 + char_to_int T b) % (2 : Int) ^ T.ulong_bits := by
  have hM : ((2 : Int) ^ T.ulong_bits) ≠ 0 := by positivity
  simp only [hash_step, to_ulong, Nat.shiftLeft_eq]
  push_cast
  rw [Int.toNat_of_nonneg (Int.emod_nonneg _ hM)]
  rw [Int.add_emod_emod, Int.emod_add_emod, add_assoc, Int.emod_add_emod]
  congr 1
  ring

theorem hash_step_nat (T : Target) (h b : Nat)
    (hb : T.char_signed = false ∨ b < 128) :
    hash_step T h b = (h * 33 + b) % 2 ^ T.ulong_bits := by
  have hc : char_to_int T b = (b : Int) := by
    unfold char_to_int
    rcases hb with hb | hb
    · simp [hb]
    · have : ¬ 128 ≤ b := Nat.not_le.mpr hb
      simp [this]
  have hi := hash_step_int T h b
  rw [hc] at hi
  have : ((hash_step T h b : Nat) : Int) = (((h * 33 + b) % 2 ^ T.ulong_bits : Nat) : Int) := by
    rw [hi]; push_cast; rfl
  exact Int.ofNat_inj.mp this

theorem hash_loop_int (T : Target) (h : Nat) (s : CStr) :
    ((hash_loop T h s : Nat) : Int) =
      s.foldl (fun (a : Int) b => (a * 33 + char_to_int T b) % (2 : Int) ^ T.ulong_bits)
        (h : Int) := by
  induction s generalizing h with
  | nil => rfl
  | cons b s ih => simp only [hash_loop, List.foldl_cons, ih, hash_step_int]

theorem hash_loop_nat (T : Target) (h : Nat) (s : CStr)
    (hs : T.char_signed = false ∨ ∀ b ∈ s, b < 128) :
    hash_loop T h s = s.foldl (fun a b => (a * 33 + b) % 2 ^ T.ulong_bits) h := by
  induction s generalizing h with
  | nil => rfl
  | cons b s ih =>
    have hb : T.char_signed = false ∨ b < 128 :=
      hs.imp id (fun hall => hall b (List.mem_cons_self _ _))
    have hrest : T.char_signed = false ∨ ∀ x ∈ s, x < 128 :=
      hs.imp id (fun hall x hx => hall x (List.mem_cons_of_mem _ hx))
    simp only [hash_loop, List.foldl_cons, ih _ hrest, hash_step_nat T h b hb]

theorem hash_init (T : Target) (hw : 32 ≤ T.ulong_bits) :
    5381 % 2 ^ T.ulong_bits = 5381 := by
  apply Nat.mod_eq_of_lt
  calc 5381 < 2 ^ 32 := by norm_num
    _ ≤ 2 ^ T.ulong_bits := Nat.pow_le_pow_right (by norm_num) hw

/-- C10 as stated fails where plain `char` is signed: for the one-byte string
`\xC8` (byte value 200) `hash_function` returns `5381 * 33 - 56 = 177517`,
the unsigned-byte djb2 fold is `5381 * 33 + 200 = 177773`. -/
theorem C10_signed_char_counterexample :
    (∀ b ∈ [200], 0 < b ∧ b < 256) ∧
    hash_function lp64_signed [200] = 177517 ∧
    djb2_spec lp64_signed.ulong_bits [200] = 177773 ∧
    hash_function lp64_signed [200] ≠ djb2_spec lp64_signed.ulong_bits [200] := by
  decide

/-- C10 amended: on every target with `unsigned long` of at least 32 bits,
`hash_function(s)` is the fold `h0 = 5381`, `h_i = (h_(i-1) * 33 + c_i) mod 2^w`
with `c_i` the byte as a plain `char` (`b_i - 256` for a byte `>= 128` where
plain `char` is signed, `b_i` otherwise); it is the unsigned-byte djb2 fold
whenever plain `char` is unsigned or all bytes are below 128;
`hash_function("") = 5381`; and the bucket `ht_search`, `ht_insert` and
`ht_delete` work on is the digest modulo the `size` field. -/
theorem C10_hash_function_fold (T : Target) (s : CStr) (hw : 32 ≤ T.ulong_bits) :
    ((hash_function T s : Nat) : Int) = djb2_char_spec T.char_signed T.ulong_bits s ∧
    ((T.char_signed = false ∨ ∀ b ∈ s, b < 128) →
      hash_function T s = djb2_spec T.ulong_bits s) ∧
    hash_function T [] = 5381 ∧
    ∀ (t : HashTable) (v : CStr),
      ht_search T t s = search_chain s (t.entries.getD (hash_function T s % t.size) []) ∧
      (ht_insert T t s v).entries =
        t.entries.set (hash_function T s % t.size)
          (insert_chain s v (t.entries.getD (hash_function T s % t.size) [])) ∧
      (ht_delete T t s).entries =
        t.entries.set (hash_function T s % t.size)
          (delete_chain s (t.entries.getD (hash_function T s % t.size) [])) := by
  refine ⟨?_, ?_, ?_, ?_⟩
  · unfold hash_function djb2_char_spec
    rw [hash_init T hw, hash_loop_int]
    rfl
  · intro hs
    unfold hash_function djb2_spec
    rw [hash_init T hw, hash_loop_nat T _ s hs]
  · show 5381 % 2 ^ T.ulong_bits = 5381
    exact hash_init T hw
  · intro t v
    refine ⟨rfl, ?_, rfl⟩
    rw [ht_insert_eq]
    rfl

/-- Instance of C10 amended on LP64 with signed plain `char`, at a string with
a byte above 127 and at an ASCII string. -/
theorem C10_hash_function_fold_witness :
    32 ≤ lp64_signed.ulong_bits ∧
    ((hash_function lp64_signed [104, 200] : Nat) : Int) =
      djb2_char_spec true 64 [104, 200] ∧
    hash_function lp64_signed (ascii "name") = djb2_spec 64 (ascii "name") :=
  ⟨by decide, (C10_hash_function_fold lp64_signed [104, 200] (by decide)).1,
    (C10_hash_function_fold lp64_signed (ascii "name") (by decide)).2.1
      (Or.inr (by decide))⟩

/-! ## Invariants of reachable tables, creation, capacity -/

theorem count_key_of_search_none {T : Target} {t : HashTable} (h : Inv T t)
    {k : CStr} (hs : ht_search T t k = none) : count_key t k = 0 := by
  unfold count_key
  apply sum_map_eq_zero _ _ []
  intro j
  rw [List.countP_eq_zero]
  intro e he
  simp only [decide_eq_true_eq]
  intro hk
  have hp := h.placed j e he
  rw [hk] at hp
  simp only [ht_search] at hs
  rw [hp] at hs
  exact (search_chain_eq_none.mp hs) e he hk

theorem count_key_le_one {T : Target} {t : HashTable} (h : Inv T t) (k : CStr) :
    count_key t k ≤ 1 := by
  cases hs : ht_search T t k with
  | none => rw [count_key_of_search_none h hs]; exact Nat.zero_le _
  | some v => rw [count_key_of_search h hs]

theorem insert_chain_of_search_none {k : CStr} {c : Chain} (v : CStr)
    (h : search_chain k c = none) : insert_chain k v c = create_entry k v :: c := by
  unfold insert_chain
  rw [update_chain_eq_none.mpr h]

/-- C11: unique-key invariant.  In every table reachable from `ht_create` each
key is the key of at most one record over all bucket chains; the table
`ht_create` returns has no record at all, and the tables `ht_insert` and
`ht_delete` produce from a reachable table again hold each key at most once. -/
theorem C11_unique_keys (T : Target) (t : HashTable) (k k2 v : CStr)
    (hr : Reachable T t) :
    count_key t k ≤ 1 ∧
    count_key (ht_insert T t k2 v) k ≤ 1 ∧
    count_key (ht_delete T t k2) k ≤ 1 ∧
    ∀ (malloc_ok calloc_ok : Bool) (t0 : HashTable),
      ht_create malloc_ok calloc_ok = some t0 → count_key t0 k = 0 := by
  have h := inv_of_reachable hr
  refine ⟨count_key_le_one h k, count_key_le_one (inv_ht_insert h k2 v) k,
    count_key_le_one (inv_ht_delete h k2) k, ?_⟩
  intro a b t0 hc
  have h0 : Inv T t0 := inv_ht_create hc
  apply count_key_of_search_none h0
  rw [ht_create_eq_some hc]
  exact search_empty_table T k

/-- Instance of C11 on a table with two colliding keys, re-inserting one. -/
theorem C11_unique_keys_witness :
    Reachable lp64_signed
      (ht_insert lp64_signed (ht_insert lp64_signed empty_table (ascii "A") (ascii "0"))
        (ascii "v") (ascii "1")) ∧
    count_key
      (ht_insert lp64_signed
        (ht_insert lp64_signed (ht_insert lp64_signed empty_table (ascii "A") (ascii "0"))
          (ascii "v") (ascii "1")) (ascii "A") (ascii "2")) (ascii "A") ≤ 1 :=
  ⟨Reachable.insert _ _ (Reachable.insert _ _ (Reachable.create ht_create_ok)),
    (C11_unique_keys lp64_signed _ (ascii "A") (ascii "A") (ascii "2")
      (Reachable.insert _ _ (Reachable.insert _ _ (Reachable.create ht_create_ok)))).2.1⟩

/-- C12: bucket-placement invariant.  In every table reachable from
`ht_create`, a record found in the chain of bucket `i` has a key with
`hash_function(key) % size = i` (and `size` is 53), so the only bucket that
holds the record is the one its key hashes to. -/
theorem C12_bucket_placement (T : Target) (t : HashTable) (i : Nat) (e : EntryNode)
    (hr : Reachable T t) (he : e ∈ t.entries.getD i []) :
    hash_function T e.key % t.size = i ∧ t.size = TABLE_SIZE ∧ i < t.entries.length ∧
    ∀ j, e ∈ t.entries.getD j [] → j = hash_function T e.key % t.size := by
  have h := inv_of_reachable hr
  have hi := h.placed i e he
  refine ⟨hi, size_of_reachable hr, ?_, ?_⟩
  · rw [← hi, h.wf.1]; exact Nat.mod_lt _ h.wf.2
  · intro j hj
    exact (h.placed j e hj).symm

/-- Instance of C12: the record of `"name"` sits in bucket 20. -/
theorem C12_bucket_placement_witness :
    Reachable lp64_signed (ht_insert lp64_signed empty_table (ascii "name") (ascii "Alice")) ∧
    create_entry (ascii "name") (ascii "Alice") ∈
      (ht_insert lp64_signed empty_table (ascii "name") (ascii "Alice")).entries.getD 20 [] ∧
    hash_function lp64_signed (create_entry (ascii "name") (ascii "Alice")).key %
      (ht_insert lp64_signed empty_table (ascii "name") (ascii "Alice")).size = 20 :=
  ⟨Reachable.insert _ _ (Reachable.create ht_create_ok), by decide,
    (C12_bucket_placement lp64_signed _ 20 (create_entry (ascii "name") (ascii "Alice"))
      (Reachable.insert _ _ (Reachable.create ht_create_ok)) (by decide)).1⟩

/-- C13: when both allocations succeed `ht_create` returns a table whose
`size` is 53, a prime, whose bucket array has exactly 53 slots, all of them
empty, so that the table holds no record. -/
theorem C13_ht_create_empty :
    ∃ t : HashTable, ht_create true true = some t ∧ t.size = 53 ∧ Nat.Prime 53 ∧
      t.entries.length = 53 ∧ (∀ chain ∈ t.entries, chain = []) ∧ entry_count t = 0 := by
  refine ⟨empty_table, rfl, rfl, by norm_num, by simp [empty_table, TABLE_SIZE], ?_, ?_⟩
  · intro chain hc
    exact (List.mem_replicate.mp hc).2
  · simp [entry_count, empty_table]

/-- C14: capacity is immutable.  On every table `ht_insert` and `ht_delete`
leave the `size` field and the number of bucket slots as they were
(`ht_search` returns a value and no table), so every table reachable from
`ht_create` has `size` 53 and 53 slots. -/
theorem C14_capacity_immutable (T : Target) (t : HashTable) (k v : CStr) :
    (ht_insert T t k v).size = t.size ∧
    (ht_insert T t k v).entries.length = t.entries.length ∧
    (ht_delete T t k).size = t.size ∧
    (ht_delete T t k).entries.length = t.entries.length ∧
    (Reachable T t → t.size = 53 ∧ t.entries.length = 53) := by
  refine ⟨size_ht_insert T t k v, length_ht_insert T t k v, size_ht_delete T t k,
    length_ht_delete T t k, ?_⟩
  intro hr
  have hs : t.size = 53 := size_of_reachable hr
  exact ⟨hs, by rw [(inv_of_reachable hr).wf.1, hs]⟩

/-- Instance of C14 after the calls of the demonstration. -/
theorem C14_capacity_immutable_witness :
    Reachable lp64_signed
      (ht_delete lp64_signed
        (ht_insert lp64_signed empty_table (ascii "age") (ascii "30")) (ascii "age")) ∧
    (ht_delete lp64_signed
      (ht_insert lp64_signed empty_table (ascii "age") (ascii "30")) (ascii "age")).size = 53 ∧
    (ht_delete lp64_signed
      (ht_insert lp64_signed empty_table (ascii "age") (ascii "30"))
        (ascii "age")).entries.length = 53 :=
  ⟨Reachable.delete _ (Reachable.insert _ _ (Reachable.create ht_create_ok)),
    (C14_capacity_immutable lp64_signed _ (ascii "x") (ascii "y")).2.2.2.2
      (Reachable.delete _ (Reachable.insert _ _ (Reachable.create ht_create_ok)))⟩

/-! ## Insertion at the head of the chain -/

theorem bucket_ht_insert_absent {T : Target} {t : HashTable} (h : WellFormed t)
    {k : CStr} (v : CStr) (hs : ht_search T t k = none) :
    (ht_insert T t k v).entries.getD (bucket_index T t k) [] =
      create_entry k v :: t.entries.getD (bucket_index T t k) [] := by
  rw [bucket_ht_insert h, if_pos rfl]
  exact insert_chain_of_search_none v hs

theorem bucket_run_inserts {T : Target} {t : HashTable} (h : WellFormed t)
    (hsz : t.size = TABLE_SIZE) (i : Nat) (kvs : List (CStr × CStr))
    (hnd : (kvs.map Prod.fst).Nodup)
    (hi : ∀ p ∈ kvs, hash_function T p.1 % TABLE_SIZE = i)
    (hfresh : ∀ p ∈ kvs, search_chain p.1 (t.entries.getD i []) = none) :
    (run_ops T t (kvs.map (fun p => Op.insert p.1 p.2))).entries.getD i [] =
      (kvs.map (fun p => create_entry p.1 p.2)).reverse ++ t.entries.getD i [] := by
  induction kvs generalizing t with
  | nil => rfl
  | cons p kvs ih =>
    rw [List.map_cons, List.nodup_cons] at hnd
    have hp : hash_function T p.1 % TABLE_SIZE = i := hi p (List.mem_cons_self _ _)
    have hidx : bucket_index T t p.1 = i := by
      unfold bucket_index; rw [hsz]; exact hp
    have hs : ht_search T t p.1 = none := by
      have := hfresh p (List.mem_cons_self _ _)
      simp only [ht_search]
      rw [hsz, hp]; exact this
    have hhead := bucket_ht_insert_absent h p.2 hs
    rw [hidx] at hhead
    rw [List.map_cons, run_ops_cons]
    show (run_ops T (ht_insert T t p.1 p.2) _).entries.getD i [] = _
    rw [ih (wf_ht_insert h p.1 p.2) (by rw [size_ht_insert]; exact hsz) hnd.2
      (fun q hq => hi q (List.mem_cons_of_mem _ hq))]
    · rw [hhead]; simp
    · intro q hq
      rw [hhead]
      have hne : ¬ p.1 = q.1 := by
        intro e
        exact hnd.1 (e ▸ List.mem_map_of_mem Prod.fst hq)
      simp only [search_chain, create_entry, if_neg hne]
      exact hfresh q (List.mem_cons_of_mem _ hq)

/-- C20: insertion at the head.  When `ht_insert` is called with a key that
is not present (on a table of positive capacity with `size` slots), the new
record is the first of its bucket chain and the previous chain follows it
unchanged; hence inserting pairwise distinct keys `k1, ..., kn` that all hash
to bucket `i` into the empty table leaves in bucket `i` the chain
`kn, ..., k1`. -/
theorem C20_insert_at_head (T : Target) (t : HashTable) (k v : CStr)
    (hpos : 0 < t.size) (hlen : t.entries.length = t.size)
    (habsent : ht_search T t k = none) :
    (ht_insert T t k v).entries.getD (hash_function T k % t.size) [] =
      create_entry k v :: t.entries.getD (hash_function T k % t.size) [] ∧
    ∀ (i : Nat) (kvs : List (CStr × CStr)), (kvs.map Prod.fst).Nodup →
      (∀ p ∈ kvs, hash_function T p.1 % TABLE_SIZE = i) →
      (run_ops T empty_table (kvs.map (fun p => Op.insert p.1 p.2))).entries.getD i [] =
        (kvs.map (fun p => create_entry p.1 p.2)).reverse := by
  refine ⟨bucket_ht_insert_absent ⟨hlen, hpos⟩ v habsent, ?_⟩
  intro i kvs hnd hi
  have h0 : Inv T empty_table := inv_ht_create ht_create_ok
  rw [bucket_run_inserts h0.wf rfl i kvs hnd hi]
  · rw [bucket_empty_table, List.append_nil]
  · intro p _
    rw [bucket_empty_table]; rfl

/-- Instance of C20: `"A"`, `"v"` and `"ag"` all hash to bucket 35; inserted
in this order they form the chain `"ag"`, `"v"`, `"A"`. -/
theorem C20_insert_at_head_witness :
    (0 < (ht_insert lp64_signed empty_table (ascii "A") (ascii "0")).size ∧
      (ht_insert lp64_signed empty_table (ascii "A") (ascii "0")).entries.length =
        (ht_insert lp64_signed empty_table (ascii "A") (ascii "0")).size ∧
      ht_search lp64_signed (ht_insert lp64_signed empty_table (ascii "A") (ascii "0"))
        (ascii "v") = none ∧
      (ht_insert lp64_signed (ht_insert lp64_signed empty_table (ascii "A") (ascii "0"))
        (ascii "v") (ascii "1")).entries.getD 35 [] =
        [create_entry (ascii "v") (ascii "1"), create_entry (ascii "A") (ascii "0")]) ∧
    (([(ascii "A", ascii "0"), (ascii "v", ascii "1"), (ascii "ag", ascii "2")].map
        Prod.fst).Nodup ∧
      (∀ p ∈ [(ascii "A", ascii "0"), (ascii "v", ascii "1"), (ascii "ag", ascii "2")],
        hash_function lp64_signed p.1 % TABLE_SIZE = 35) ∧
      (run_ops lp64_signed empty_table
        [Op.insert (ascii "A") (ascii "0"), Op.insert (ascii "v") (ascii "1"),
          Op.insert (ascii "ag") (ascii "2")]).entries.getD 35 [] =
        [create_entry (ascii "ag") (ascii "2"), create_entry (ascii "v") (ascii "1"),
          create_entry (ascii "A") (ascii "0")]) :=
  ⟨⟨by decide, by decide, by decide,
      (C20_insert_at_head lp64_signed
        (ht_insert lp64_signed empty_table (ascii "A") (ascii "0")) (ascii "v") (ascii "1")
        (by decide) (by decide) (by decide)).1⟩,
    by decide, by decide,
    (C20_insert_at_head lp64_signed
      (ht_insert lp64_signed empty_table (ascii "A") (ascii "0")) (ascii "v") (ascii "1")
      (by decide) (by decide) (by decide)).2 35
      [(ascii "A", ascii "0"), (ascii "v", ascii "1"), (ascii "ag", ascii "2")]
      (by decide) (by decide)⟩

/-! ## Allocation failure inside ht_insert -/

theorem update_chain_alloc_all_ok (k v : CStr) (c : Chain) :
    update_chain_alloc { malloc_ok := true, strdup_key_ok := true, strdup_value_ok := true }
        k v (c.map raw_node) =
      some ((update_chain k v c).map (fun u => u.map raw_node)) := by
  induction c with
  | nil => rfl
  | cons e c ih =>
    by_cases hk : e.key = k
    · simp [update_chain_alloc, update_chain, raw_node, hk, strdup]
    · simp only [List.map_cons, update_chain_alloc, update_chain, raw_node, hk, if_false, ih,
        Option.map_some', Option.map_map]
      cases update_chain k v c <;> rfl

/-- With every allocation succeeding, the model with allocations is the
model used for the contract. -/
theorem ht_insert_alloc_all_ok (T : Target) (t : HashTable) (k v : CStr) :
    ht_insert_alloc T { malloc_ok := true, strdup_key_ok := true, strdup_value_ok := true }
        (raw_table t) k v =
      some (raw_table (ht_insert T t k v)) := by
  have hget : ∀ i, (t.entries.map (fun chain => chain.map raw_node)).getD i [] =
      (t.entries.getD i []).map raw_node := by
    intro i
    simp only [List.getD_eq_getElem?_getD, List.getElem?_map]
    cases t.entries[i]? <;> rfl
  simp only [ht_insert_alloc, raw_table, hget, update_chain_alloc_all_ok, ht_insert]
  cases update_chain k v (t.entries.getD (hash_function T k % t.size) []) with
  | some u => simp [List.map_set]
  | none => simp [List.map_set, create_entry_alloc, create_entry, raw_node, strdup]

/-- C15 fails on the code.  `ht_insert` checks none of its allocations and
returns `void`.  Update path: on the table holding ("city","New York"),
`ht_insert("city","London")` with a failing `strdup(value)` yields a different
table in which "city" has the value `NULL`, so the old value is lost and
`ht_search` returns `NULL`.  Insert path: with a failing `malloc` the call
stores through `NULL` (undefined behaviour); with a failing `strdup(key)` a
record with a `NULL` key is linked in, and the next `ht_search` in that bucket
hands it to `strcmp` (undefined behaviour). -/
theorem C15_allocation_failure_unhandled :
    ht_search_raw lp64_signed
      (raw_table (ht_insert lp64_signed empty_table (ascii "city") (ascii "New York")))
      (ascii "city") = some (some (ascii "New York")) ∧
    ht_insert_alloc lp64_signed
      { malloc_ok := true, strdup_key_ok := true, strdup_value_ok := false }
      (raw_table (ht_insert lp64_signed empty_table (ascii "city") (ascii "New York")))
      (ascii "city") (ascii "London") ≠
      some (raw_table (ht_insert lp64_signed empty_table (ascii "city") (ascii "New York"))) ∧
    (ht_insert_alloc lp64_signed
      { malloc_ok := true, strdup_key_ok := true, strdup_value_ok := false }
      (raw_table (ht_insert lp64_signed empty_table (ascii "city") (ascii "New York")))
      (ascii "city") (ascii "London")).map
        (fun t => ht_search_raw lp64_signed t (ascii "city")) = some (some none) ∧
    ht_insert_alloc lp64_signed
      { malloc_ok := false, strdup_key_ok := true, strdup_value_ok := true }
      (raw_table empty_table) (ascii "city") (ascii "London") = none ∧
    (ht_insert_alloc lp64_signed
      { malloc_ok := true, strdup_key_ok := false, strdup_value_ok := true }
      (raw_table empty_table) (ascii "city") (ascii "London")).map
        (fun t => (t.entries.getD 46 [], ht_search_raw lp64_signed t (ascii "city"))) =
      some ([{ key := none, value := some (ascii "London") }], none) := by
  decide

end Ht

/-! # Theorems on 19_recursion.c -/

namespace Recursion

theorem to_ull_natCast (k : Nat) : to_ull (k : Int) = k % 2 ^ 64 := by
  unfold to_ull
  rw [← Int.natCast_mod, Int.toNat_natCast]

theorem factorial_recursive_nat (k : Nat) :
    factorial_recursive (k : Int) = k.factorial % 2 ^ 64 := by
  induction k with
  | zero => rw [factorial_recursive]; simp
  | succ k ih =>
    rw [factorial_recursive]
    by_cases h : ((k + 1 : Nat) : Int) ≤ 1
    · have hk : k = 0 := by omega
      subst hk
      simp
    · rw [if_neg h]
      have hpred : ((k + 1 : Nat) : Int) - 1 = (k : Int) := by omega
      rw [hpred, ih, to_ull_natCast, Nat.factorial_succ, Nat.mod_mul_mod, Nat.mul_mod_mod]

theorem factorial_recursive_eq (n : Int) :
    factorial_recursive n = n.toNat.factorial % 2 ^ 64 := by
  by_cases h : 0 ≤ n
  · have hn : n = (n.toNat : Int) := (Int.toNat_of_nonneg h).symm
    rw [hn, factorial_recursive_nat, ← hn]
  · have h0 : n.toNat = 0 := by omega
    rw [factorial_recursive, if_pos (by omega), h0]
    rfl

theorem factorial_iterative_loop_nat (k : Nat) (r : Nat) (hr : r < 2 ^ 64) :
    factorial_iterative_loop r (k : Int) = (r * k.factorial) % 2 ^ 64 := by
  induction k generalizing r with
  | zero =>
    rw [factorial_iterative_loop, if_neg (by simp), Nat.factorial_zero, Nat.mul_one,
      Nat.mod_eq_of_lt hr]
  | succ k ih =>
    rw [factorial_iterative_loop]
    by_cases h : ((k + 1 : Nat) : Int) > 1
    · rw [if_pos h]
      have hpred : ((k + 1 : Nat) : Int) - 1 = (k : Int) := by omega
      rw [hpred, ih _ (Nat.mod_lt _ (by norm_num)), to_ull_natCast, Nat.factorial_succ,
        ← Nat.mul_assoc]
      have h1 : Nat.ModEq (2 ^ 64) (r * ((k + 1) % 2 ^ 64) % 2 ^ 64) (r * (k + 1)) :=
        (Nat.mod_modEq _ _).trans ((Nat.ModEq.refl r).mul (Nat.mod_modEq (k + 1) _))
      exact h1.mul_right k.factorial
    · have hk : k = 0 := by omega
      subst hk
      rw [if_neg h, Nat.zero_add, Nat.factorial_one, Nat.mul_one, Nat.mod_eq_of_lt hr]

theorem factorial_iterative_eq (n : Int) :
    factorial_iterative n = n.toNat.factorial % 2 ^ 64 := by
  unfold factorial_iterative
  by_cases h : 0 ≤ n
  · have hn : n = (n.toNat : Int) := (Int.toNat_of_nonneg h).symm
    rw [hn, factorial_iterative_loop_nat _ _ (by norm_num), ← hn, Nat.one_mul]
  · have h0 : n.toNat = 0 := by omega
    rw [factorial_iterative_loop, if_neg (by omega), h0]
    rfl

/-- C18: for every `int n`, `factorial_recursive(n) = factorial_iterative(n)`:
both are `n!` reduced modulo `2^64` (the recursion is total, so it ends for
every `n`), both return 1 for `n <= 1`, and at `n = 15` both return
`15! = 1307674368000`. -/
theorem C18_factorial_agree (n : Int) :
    factorial_recursive n = factorial_iterative n ∧
    factorial_recursive n = n.toNat.factorial % 2 ^ 64 ∧
    (n ≤ 1 → factorial_recursive n = 1 ∧ factorial_iterative n = 1) ∧
    factorial_recursive 15 = 1307674368000 ∧ factorial_iterative 15 = 1307674368000 := by
  refine ⟨?_, factorial_recursive_eq n, ?_, ?_, ?_⟩
  · rw [factorial_recursive_eq, factorial_iterative_eq]
  · intro h
    have hle : n.toNat ≤ 1 := by omega
    have hf : n.toNat.factorial = 1 := by
      interval_cases n.toNat <;> rfl
    rw [factorial_recursive_eq, factorial_iterative_eq, hf]
    exact ⟨rfl, rfl⟩
  · rw [factorial_recursive_eq]; decide
  · rw [factorial_iterative_eq]; decide

/-- Instance of C18 at a negative argument and at an argument where `n!`
exceeds 64 bits. -/
theorem C18_factorial_agree_witness :
    ((-3 : Int) ≤ 1 ∧ factorial_recursive (-3) = 1 ∧ factorial_iterative (-3) = 1) ∧
    factorial_recursive 25 = factorial_iterative 25 :=
  ⟨⟨by decide, (C18_factorial_agree (-3)).2.2.1 (by decide)⟩, (C18_factorial_agree 25).1⟩

end Recursion

/-! # Theorems on 27_build_your_own_grep.c -/

namespace Grep

theorem strstr_iff (haystack needle : List Nat) :
    strstr haystack needle = true ↔ needle <:+: haystack := by
  induction haystack with
  | nil =>
    simp only [strstr, List.isEmpty_iff, List.infix_nil]
  | cons c haystack ih =>
    simp only [strstr, Bool.or_eq_true, ih, List.isPrefixOf_iff_prefix,
      List.infix_cons_iff]

theorem fgets_read_nil (room : Nat) : fgets_read room [] = ([], []) := by
  cases room <;> rfl

theorem fgets_read_append (room : Nat) (s : List Nat) :
    (fgets_read room s).1 ++ (fgets_read room s).2 = s := by
  induction s generalizing room with
  | nil => rw [fgets_read_nil]; rfl
  | cons c s ih =>
    cases room with
    | zero => rfl
    | succ room =>
      by_cases hc : c = 10
      · simp [fgets_read, hc]
      · simp [fgets_read, hc, ih room]

theorem fgets_read_ne_nil (room : Nat) (c : Nat) (s : List Nat) :
    (fgets_read (room + 1) (c :: s)).1 ≠ [] := by
  by_cases hc : c = 10
  · simp [fgets_read, hc]
  · simp [fgets_read, hc]

theorem fgets_read_rest_lt (room : Nat) (s : List Nat) (hs : s ≠ []) :
    (fgets_read (room + 1) s).2.length < s.length := by
  cases s with
  | nil => exact absurd rfl hs
  | cons c s =>
    have h1 := fgets_read_append (room + 1) (c :: s)
    have h2 := fgets_read_ne_nil room c s
    have h3 := congrArg List.length h1
    rw [List.length_append] at h3
    have h4 : 0 < (fgets_read (room + 1) (c :: s)).1.length := List.length_pos.mpr h2
    omega

/-- The loop does not depend on the fuel once the fuel exceeds the length of
the stream: the fuel given by `search_in_file` is never used up. -/
theorem search_loop_fuel (pattern : List Nat) (f1 f2 : Nat) (s : List Nat)
    (h1 : s.length < f1) (h2 : s.length < f2) :
    search_loop pattern f1 s = search_loop pattern f2 s := by
  induction f1 generalizing f2 s with
  | zero => omega
  | succ f1 ih =>
    cases f2 with
    | zero => omega
    | succ f2 =>
      by_cases hs : s = []
      · simp [search_loop, fgets, hs]
      · have hlt : (fgets_read 1023 s).2.length < s.length := fgets_read_rest_lt 1022 s hs
        have e := ih f2 (fgets_read 1023 s).2 (by omega) (by omega)
        simp only [search_loop, fgets, hs, if_false, MAX_LINE_LENGTH]
        rw [e]

theorem file_lines_eq_nil {s : List Nat} (h : file_lines s = []) : s = [] := by
  cases s with
  | nil => rfl
  | cons c s =>
    by_cases hc : c = 10
    · simp [file_lines, hc] at h
    · simp only [file_lines, hc, if_false] at h
      cases hf : file_lines s <;> simp [hf] at h

theorem fgets_read_line (s : List Nat) (room : Nat) (line : List Nat)
    (lines : List (List Nat)) (hl : file_lines s = line :: lines)
    (hroom : line.length ≤ room) :
    (fgets_read room s).1 = line ∧ file_lines (fgets_read room s).2 = lines := by
  induction s generalizing room line lines with
  | nil => simp [file_lines] at hl
  | cons c s ih =>
    by_cases hc : c = 10
    · simp only [file_lines, hc, if_true, List.cons.injEq] at hl
      obtain ⟨h1, h2⟩ := hl
      subst h1
      cases room with
      | zero => simp at hroom
      | succ room => simp [fgets_read, hc, h2]
    · simp only [file_lines, hc, if_false] at hl
      cases hf : file_lines s with
      | nil =>
        rw [hf] at hl
        simp only [List.cons.injEq] at hl
        obtain ⟨h1, h2⟩ := hl
        subst h1
        have hs := file_lines_eq_nil hf
        subst hs
        cases room with
        | zero => simp at hroom
        | succ room => simp [fgets_read, hc, fgets_read_nil, ← h2, file_lines]
      | cons l ls =>
        rw [hf] at hl
        simp only [List.cons.injEq] at hl
        obtain ⟨h1, h2⟩ := hl
        subst h1
        cases room with
        | zero => simp at hroom
        | succ room =>
          have hr : l.length ≤ room := by simpa using hroom
          obtain ⟨i1, i2⟩ := ih room l ls hf hr
          simp [fgets_read, hc, i1, i2, h2]

theorem c_string_of_no_nul (buf : List Nat) (h : 0 ∉ buf) : c_string buf = buf := by
  unfold c_string
  rw [List.takeWhile_eq_self_iff]
  intro x hx
  have : x ≠ 0 := fun e => h (e ▸ hx)
  simpa using this

theorem search_loop_short_lines (pattern : List Nat) (fuel : Nat) (s : List Nat)
    (hfuel : s.length < fuel) (hnul : 0 ∉ s)
    (hshort : ∀ line ∈ file_lines s, line.length ≤ MAX_LINE_LENGTH - 1) :
    search_loop pattern fuel s =
      (file_lines s).filter (fun line => decide (pattern <:+: line)) := by
  have hM : MAX_LINE_LENGTH - 1 = 1023 := rfl
  rw [hM] at hshort
  induction fuel generalizing s with
  | zero => omega
  | succ fuel ih =>
    by_cases hs : s = []
    · simp [search_loop, fgets, hs, file_lines]
    · cases hf : file_lines s with
      | nil => exact absurd (file_lines_eq_nil hf) hs
      | cons line lines =>
        have hlen : line.length ≤ 1023 := hshort line (by rw [hf]; simp)
        obtain ⟨e1, e2⟩ := fgets_read_line s 1023 line lines hf hlen
        have happ := fgets_read_append 1023 s
        have hlt : (fgets_read 1023 s).2.length < s.length := fgets_read_rest_lt 1022 s hs
        have hnul1 : 0 ∉ line := by
          intro h0; apply hnul; rw [← happ, e1]; exact List.mem_append_left _ h0
        have hnul2 : 0 ∉ (fgets_read 1023 s).2 := by
          intro h0; apply hnul; rw [← happ]; exact List.mem_append_right _ h0
        have hrec := ih (fgets_read 1023 s).2 (by omega) hnul2
          (by rw [e2]; intro l hl; exact hshort l (by rw [hf]; exact List.mem_cons_of_mem _ hl))
        rw [e2] at hrec
        simp only [search_loop, fgets, hs, if_false, hM]
        rw [e1, c_string_of_no_nul line hnul1, hrec, List.filter_cons]
        by_cases hm : pattern <:+: line
        · simp [hm, (strstr_iff line pattern).mpr hm]
        · have hfalse : ¬ strstr line pattern = true := fun h => hm ((strstr_iff _ _).mp h)
          simp [hm, hfalse]

theorem search_loop_nil (pattern : List Nat) (fuel : Nat) :
    search_loop pattern fuel [] = [] := by
  cases fuel <;> rfl

/-- One pass of the loop on a stream that is not at its end. -/
theorem search_loop_step (pattern : List Nat) (fuel : Nat) (s : List Nat)
    (hs : s ≠ []) (hfuel : s.length < fuel) :
    search_loop pattern fuel s =
      (if strstr (c_string (fgets_read 1023 s).1) pattern = true then
          [c_string (fgets_read 1023 s).1] else []) ++
        search_loop pattern ((fgets_read 1023 s).2.length + 1) (fgets_read 1023 s).2 := by
  cases fuel with
  | zero => omega
  | succ fuel =>
    have hlt : (fgets_read 1023 s).2.length < s.length := fgets_read_rest_lt 1022 s hs
    have e := search_loop_fuel pattern fuel ((fgets_read 1023 s).2.length + 1)
      (fgets_read 1023 s).2 (by omega) (by omega)
    simp only [search_loop, fgets, hs, if_false, MAX_LINE_LENGTH]
    rw [e]
    split <;> rfl

theorem fgets_read_replicate (n k a : Nat) (ha : a ≠ 10) (s : List Nat) :
    fgets_read (n + k) (List.replicate n a ++ s) =
      (List.replicate n a ++ (fgets_read k s).1, (fgets_read k s).2) := by
  induction n with
  | zero => simp
  | succ n ih =>
    have e : n + 1 + k = (n + k) + 1 := by omega
    rw [e, List.replicate_succ, List.cons_append]
    simp only [fgets_read, if_neg ha, ih, List.cons_append]

theorem file_lines_single (s : List Nat) (hs : 10 ∉ s) :
    file_lines (s ++ [10]) = [s ++ [10]] := by
  induction s with
  | nil => rfl
  | cons c s ih =>
    have hc : ¬ c = 10 := fun e => hs (e ▸ List.mem_cons_self _ _)
    have hrest : 10 ∉ s := fun h => hs (List.mem_cons_of_mem _ h)
    rw [List.cons_append, file_lines, if_neg hc, ih hrest]

/-- A line of `n + 4` bytes ending in `lazy`, with `n + 2 = 1023`: the first
piece `fgets` delivers ends inside `lazy`. -/
theorem long_line_split (n : Nat) (hn : n + 2 = 1023) :
    0 ∉ List.replicate n 97 ++ [108, 97, 122, 121, 10] ∧
    search_in_file [108, 97, 122, 121]
      (some (List.replicate n 97 ++ [108, 97, 122, 121, 10])) = some [] ∧
    matching_lines [108, 97, 122, 121] (List.replicate n 97 ++ [108, 97, 122, 121, 10]) =
      [List.replicate n 97 ++ [108, 97, 122, 121, 10]] := by
  have hread : fgets_read 1023 (List.replicate n 97 ++ [108, 97, 122, 121, 10]) =
      (List.replicate n 97 ++ [108, 97], [122, 121, 10]) := by
    rw [← hn]
    exact fgets_read_replicate n 2 97 (by decide) [108, 97, 122, 121, 10]
  have hnul : 0 ∉ List.replicate n 97 ++ [108, 97] := by
    simp [List.mem_replicate]
  have hno : ¬ strstr (List.replicate n 97 ++ [108, 97]) [108, 97, 122, 121] = true := by
    rw [strstr_iff]
    intro h
    have hz : (122 : Nat) ∈ List.replicate n 97 ++ [108, 97] := h.subset (by simp)
    simp [List.mem_replicate] at hz
  refine ⟨by simp [List.mem_replicate], ?_, ?_⟩
  · simp only [search_in_file]
    rw [search_loop_step _ _ _ (by simp) (Nat.lt_succ_self _), hread,
      c_string_of_no_nul _ hnul, if_neg hno]
    have hrest : search_loop [108, 97, 122, 121] 4 [122, 121, 10] = [] := by decide
    exact congrArg some hrest
  · have hline : List.replicate n 97 ++ [108, 97, 122, 121, 10] =
        (List.replicate n 97 ++ [108, 97, 122, 121]) ++ [10] := by simp
    have hfl := file_lines_single (List.replicate n 97 ++ [108, 97, 122, 121])
      (by simp [List.mem_replicate])
    have hin : [108, 97, 122, 121] <:+: List.replicate n 97 ++ [108, 97, 122, 121] ++ [10] :=
      ⟨List.replicate n 97, [10], by simp⟩
    unfold matching_lines
    rw [hline, hfl, List.filter_cons, if_pos (by simpa using hin)]
    rfl

/-- C16 as stated fails on a line that does not fit the buffer of
`MAX_LINE_LENGTH` bytes.  The file is the single line of 1021 letters `a`
followed by `lazy` and a newline (1026 bytes): `fgets` delivers it as the
pieces `a...ala` (1023 bytes) and `zy\n`, neither contains `lazy`, and nothing
is printed although the line contains the pattern. -/
theorem C16_long_line_counterexample :
    Ht.ascii "lazy" = [108, 97, 122, 121] ∧ Ht.ascii "lazy\n" = [108, 97, 122, 121, 10] ∧
    0 ∉ List.replicate 1021 97 ++ [108, 97, 122, 121, 10] ∧
    search_in_file [108, 97, 122, 121]
      (some (List.replicate 1021 97 ++ [108, 97, 122, 121, 10])) = some [] ∧
    matching_lines [108, 97, 122, 121] (List.replicate 1021 97 ++ [108, 97, 122, 121, 10]) =
      [List.replicate 1021 97 ++ [108, 97, 122, 121, 10]] :=
  ⟨by decide, by decide, long_line_split 1021 rfl⟩

/-- C16 amended: for every pattern and every file without NUL bytes in which
every line, its newline included, has at most `MAX_LINE_LENGTH - 1 = 1023`
bytes, `search_in_file` prints exactly the lines that contain the pattern as a
substring (a line being taken with its terminating newline), each whole and
once, in file order, and nothing else. -/
theorem C16_search_in_file_short_lines (pattern content : List Nat)
    (hnul : 0 ∉ content)
    (hshort : ∀ line ∈ file_lines content, line.length ≤ MAX_LINE_LENGTH - 1) :
    search_in_file pattern (some content) = some (matching_lines pattern content) := by
  simp only [search_in_file, matching_lines]
  rw [search_loop_short_lines pattern _ content (Nat.lt_succ_self _) hnul hshort]

/-- Instance of C16 amended: the pattern `lazy` on the four-line poem prints
lines 1 and 4. -/
theorem C16_search_in_file_short_lines_witness :
    0 ∉ poem ∧ (∀ line ∈ file_lines poem, line.length ≤ MAX_LINE_LENGTH - 1) ∧
    matching_lines (Ht.ascii "lazy") poem =
      [Ht.ascii "The quick brown fox jumps over the lazy dog.\n",
        Ht.ascii "The lazy dog naps in the sun.\n"] ∧
    search_in_file (Ht.ascii "lazy") (some poem) = some (matching_lines (Ht.ascii "lazy") poem) :=
  ⟨by decide, by decide, by decide,
    C16_search_in_file_short_lines (Ht.ascii "lazy") poem (by decide) (by decide)⟩

end Grep

/-! # Theorems on 30_multithreaded_file_analyzer.c -/

namespace Analyzer

/-- C17 fails on the code.  For the 12-byte file `hello world\n` the chunks
computed in `main` are `hello`, `lo world`, `world` and `ld\n`: a chunk that
is extended to the next whitespace runs into the chunks after it, which still
start at multiples of `file_size / 4`.  The totals are 1 line, 5 words and
doubled letter counts (`l`: 6, `o`: 4), where one sequential pass over the
buffer counts 1 line, 2 words, `l`: 3, `o`: 2. -/
theorem C17_overlapping_chunks_count_twice :
    (List.range NUM_THREADS).map (chunk (Ht.ascii "hello world\n")) =
      [Ht.ascii "hello", Ht.ascii "lo world", Ht.ascii "world", Ht.ascii "ld\n"] ∧
    main (Ht.ascii "hello world\n") =
      { lines := 1, words := 5,
        char_counts :=
          [0, 0, 0, 3, 1, 0, 0, 1, 0, 0, 0, 6, 0, 0, 4, 0, 0, 2, 0, 0, 0, 0, 2, 0, 0, 0] } ∧
    sequential (Ht.ascii "hello world\n") =
      { lines := 1, words := 2,
        char_counts :=
          [0, 0, 0, 1, 1, 0, 0, 1, 0, 0, 0, 3, 0, 0, 2, 0, 0, 1, 0, 0, 0, 0, 1, 0, 0, 0] } ∧
    main (Ht.ascii "hello world\n") ≠ sequential (Ht.ascii "hello world\n") := by
  decide

end Analyzer

/-! # More theorems on 28_hash_table_implementation.c -/

namespace Ht

/-! ## Footprint of ht_insert and ht_delete -/

theorem bucket_index_lt_of_search {T : Target} {t : HashTable} {k v0 : CStr}
    (h : ht_search T t k = some v0) : bucket_index T t k < t.entries.length := by
  by_contra hlt
  have hnil : t.entries.getD (bucket_index T t k) [] = [] := by
    rw [List.getD_eq_default]; exact Nat.le_of_not_lt hlt
  simp only [ht_search] at h
  simp only [bucket_index] at hnil
  rw [hnil] at h
  cases h

theorem bucket_ht_insert_of_lt {T : Target} {t : HashTable} {k : CStr}
    (hlt : bucket_index T t k < t.entries.length) (v : CStr) (j : Nat) :
    (ht_insert T t k v).entries.getD j [] =
      if bucket_index T t k = j then
        insert_chain k v (t.entries.getD (bucket_index T t k) [])
      else t.entries.getD j [] := by
  rw [ht_insert_eq]
  simp only [getD_set_eq, hlt, and_true]

theorem bucket_ht_insert_ne (T : Target) (t : HashTable) (k v : CStr) {j : Nat}
    (hj : j ≠ bucket_index T t k) :
    (ht_insert T t k v).entries.getD j [] = t.entries.getD j [] := by
  rw [ht_insert_eq]
  simp only [getD_set_eq]
  rw [if_neg (fun h => hj h.1.symm)]

theorem update_chain_getElem {k v : CStr} {chain upd : Chain}
    (h : update_chain k v chain = some upd) (p : Nat) (e : EntryNode)
    (he : chain[p]? = some e) (hk : e.key ≠ k) : upd[p]? = some e := by
  induction chain generalizing upd p with
  | nil => simp [update_chain] at h
  | cons x chain ih =>
    by_cases hx : x.key = k
    · simp only [update_chain, if_pos hx, Option.some.injEq] at h
      subst h
      cases p with
      | zero =>
        simp only [List.getElem?_cons_zero, Option.some.injEq] at he
        subst he
        exact absurd hx hk
      | succ p => simpa using he
    · simp only [update_chain, if_neg hx, Option.map_eq_some'] at h
      obtain ⟨u2, hu2, rfl⟩ := h
      cases p with
      | zero => simpa using he
      | succ p =>
        simp only [List.getElem?_cons_succ] at he ⊢
        exact ih hu2 p he

theorem map_set_value_of_absent {k : CStr} (v : CStr) {c : Chain}
    (h : ∀ e ∈ c, e.key ≠ k) : c.map (set_value k v) = c := by
  induction c with
  | nil => rfl
  | cons x c ih =>
    have hx : ¬ x.key = k := h x (List.mem_cons_self _ _)
    rw [List.map_cons, ih (fun e he => h e (List.mem_cons_of_mem _ he))]
    simp only [set_value, if_neg hx]

theorem update_chain_eq_map {k v : CStr} {c u : Chain}
    (hn : (c.map EntryNode.key).Nodup) (h : update_chain k v c = some u) :
    u = c.map (set_value k v) := by
  induction c generalizing u with
  | nil => simp [update_chain] at h
  | cons x c ih =>
    rw [List.map_cons, List.nodup_cons] at hn
    by_cases hx : x.key = k
    · simp only [update_chain, if_pos hx, Option.some.injEq] at h
      subst h
      have hrest : ∀ e ∈ c, e.key ≠ k := by
        intro e he hek
        exact hn.1 (List.mem_map.mpr ⟨e, he, hek.trans hx.symm⟩)
      rw [List.map_cons, map_set_value_of_absent v hrest]
      simp only [set_value, if_pos hx]
    · simp only [update_chain, if_neg hx, Option.map_eq_some'] at h
      obtain ⟨u2, hu2, rfl⟩ := h
      rw [List.map_cons, ← ih hn.2 hu2]
      simp only [set_value, if_neg hx]

theorem map_eq_self_of_getD {f : Chain → Chain} (l : List Chain)
    (h : ∀ j, f (l.getD j []) = l.getD j []) : l.map f = l := by
  induction l with
  | nil => rfl
  | cons a l ih =>
    have h0 := h 0
    rw [List.getD_cons_zero] at h0
    rw [List.map_cons, h0, ih (fun j => by simpa using h (j + 1))]

theorem set_eq_map {f : Chain → Chain} (l : List Chain) (i : Nat)
    (h : ∀ j, j ≠ i → f (l.getD j []) = l.getD j []) :
    l.set i (f (l.getD i [])) = l.map f := by
  induction l generalizing i with
  | nil => rfl
  | cons a l ih =>
    cases i with
    | zero =>
      rw [List.set_cons_zero, List.getD_cons_zero, List.map_cons,
        map_eq_self_of_getD l (fun j => by simpa using h (j + 1) (by simp))]
    | succ n =>
      have h0 := h 0 (by simp)
      rw [List.getD_cons_zero] at h0
      rw [List.set_cons_succ, List.getD_cons_succ, List.map_cons, h0,
        ih n (fun j hj => by simpa using h (j + 1) (by simpa using hj))]

/-- C21: update in place.  When `ht_insert(k, v)` is called on a table in
which `k` is present, the sequence of keys of every bucket chain and the
number of buckets are unchanged, every record with another key is the same
record at the same place, and `ht_search(k)` then returns `v`; on a table
reachable from `ht_create` the new bucket array is the old one with the value
of the record of `k` set to `v` and nothing else changed. -/
theorem C21_update_in_place (T : Target) (t : HashTable) (k v v0 : CStr)
    (hpresent : ht_search T t k = some v0) :
    (∀ j, ((ht_insert T t k v).entries.getD j []).map EntryNode.key =
      (t.entries.getD j []).map EntryNode.key) ∧
    (ht_insert T t k v).entries.length = t.entries.length ∧
    (∀ (j p : Nat) (e : EntryNode), (t.entries.getD j [])[p]? = some e → e.key ≠ k →
      ((ht_insert T t k v).entries.getD j [])[p]? = some e) ∧
    ht_search T (ht_insert T t k v) k = some v ∧
    (Reachable T t →
      (ht_insert T t k v).entries = t.entries.map (fun chain => chain.map (set_value k v))) := by
  have hlt := bucket_index_lt_of_search hpresent
  have hs : search_chain k (t.entries.getD (bucket_index T t k) []) = some v0 := hpresent
  obtain ⟨u, hu⟩ : ∃ u, update_chain k v (t.entries.getD (bucket_index T t k) []) = some u := by
    cases hc : update_chain k v (t.entries.getD (bucket_index T t k) []) with
    | none => rw [update_chain_eq_none.mp hc] at hs; cases hs
    | some u => exact ⟨u, rfl⟩
  have hins : insert_chain k v (t.entries.getD (bucket_index T t k) []) = u := by
    unfold insert_chain; rw [hu]
  refine ⟨?_, length_ht_insert T t k v, ?_, ?_, ?_⟩
  · intro j
    rw [bucket_ht_insert_of_lt hlt]
    by_cases hj : bucket_index T t k = j
    · rw [if_pos hj, hins, keys_update_chain hu, hj]
    · rw [if_neg hj]
  · intro j p e he hk
    rw [bucket_ht_insert_of_lt hlt]
    by_cases hj : bucket_index T t k = j
    · rw [if_pos hj, hins]
      rw [← hj] at he
      exact update_chain_getElem hu p e he hk
    · rw [if_neg hj]; exact he
  · simp only [ht_search, size_ht_insert]
    rw [bucket_ht_insert_of_lt hlt,
      if_pos (show bucket_index T t k = hash_function T k % t.size from rfl),
      search_insert_chain, if_pos rfl]
  · intro hr
    have h := inv_of_reachable hr
    rw [ht_insert_eq, hins, update_chain_eq_map (h.unique _) hu]
    apply set_eq_map
    intro j hj
    apply map_set_value_of_absent
    intro e he hek
    have hp := h.placed j e he
    rw [hek] at hp
    exact hj hp.symm

/-- Instance of C21: `"v"` is updated in the chain `"v"`, `"A"` of bucket 35. -/
theorem C21_update_in_place_witness :
    ht_search lp64_signed
      (ht_insert lp64_signed (ht_insert lp64_signed empty_table (ascii "A") (ascii "0"))
        (ascii "v") (ascii "1")) (ascii "v") = some (ascii "1") ∧
    (ht_insert lp64_signed
      (ht_insert lp64_signed (ht_insert lp64_signed empty_table (ascii "A") (ascii "0"))
        (ascii "v") (ascii "1")) (ascii "v") (ascii "2")).entries.getD 35 [] =
      [create_entry (ascii "v") (ascii "2"), create_entry (ascii "A") (ascii "0")] ∧
    ((ht_insert lp64_signed
      (ht_insert lp64_signed (ht_insert lp64_signed empty_table (ascii "A") (ascii "0"))
        (ascii "v") (ascii "1")) (ascii "v") (ascii "2")).entries.getD 35 []).map
        EntryNode.key =
      ((ht_insert lp64_signed (ht_insert lp64_signed empty_table (ascii "A") (ascii "0"))
        (ascii "v") (ascii "1")).entries.getD 35 []).map EntryNode.key :=
  ⟨by decide, by decide,
    (C21_update_in_place lp64_signed
      (ht_insert lp64_signed (ht_insert lp64_signed empty_table (ascii "A") (ascii "0"))
        (ascii "v") (ascii "1")) (ascii "v") (ascii "2") (ascii "1") (by decide)).1 35⟩

theorem sum_map_set_pred {α : Type} (f : α → Nat) (l : List α) (i : Nat) (x d : α)
    (hi : i < l.length) (h : f x + 1 = f (l.getD i d)) :
    ((l.set i x).map f).sum + 1 = (l.map f).sum := by
  have hi2 : i < (l.set i x).length := by simpa using hi
  have hget : (l.set i x).getD i d = x := by
    rw [getD_set_eq, if_pos ⟨rfl, hi⟩]
  have hback : (l.set i x).set i (l.getD i d) = l := by
    rw [List.set_set, set_getD_self]
  have := sum_map_set_succ f (l.set i x) i (l.getD i d) d hi2 (by rw [hget]; exact h.symm)
  rw [hback] at this
  exact this.symm

theorem keys_sublist_insert_chain (k v : CStr) (chain : Chain) :
    List.Sublist (chain.map EntryNode.key) ((insert_chain k v chain).map EntryNode.key) := by
  rw [keys_insert_chain]
  split
  · exact List.sublist_cons_self _ _
  · exact List.Sublist.refl _

/-- C22: footprint of `ht_insert` on every table of positive capacity with
`size` slots: every bucket other than `hash_function(k) % size` is left
identical; no record is removed (in every bucket the old keys remain, in
order, and every key found before is found after); the number of records
grows by exactly 1 when `k` was absent and stays the same when `k` was
present. -/
theorem C22_insert_footprint (T : Target) (t : HashTable) (k v : CStr)
    (hpos : 0 < t.size) (hlen : t.entries.length = t.size) :
    (∀ j, j ≠ hash_function T k % t.size →
      (ht_insert T t k v).entries.getD j [] = t.entries.getD j []) ∧
    (∀ j, List.Sublist ((t.entries.getD j []).map EntryNode.key)
      (((ht_insert T t k v).entries.getD j []).map EntryNode.key)) ∧
    (∀ k2, ht_search T t k2 ≠ none → ht_search T (ht_insert T t k v) k2 ≠ none) ∧
    (ht_search T t k = none → entry_count (ht_insert T t k v) = entry_count t + 1) ∧
    (ht_search T t k ≠ none → entry_count (ht_insert T t k v) = entry_count t) := by
  have hwf : WellFormed t := ⟨hlen, hpos⟩
  refine ⟨fun j hj => bucket_ht_insert_ne T t k v hj, ?_, ?_, ?_, ?_⟩
  · intro j
    rw [bucket_ht_insert hwf]
    by_cases hj : bucket_index T t k = j
    · rw [if_pos hj, hj]; exact keys_sublist_insert_chain k v _
    · rw [if_neg hj]
  · intro k2 h2
    rw [search_ht_insert hwf]
    by_cases hk : k2 = k
    · rw [if_pos hk]; exact Option.some_ne_none v
    · rw [if_neg hk]; exact h2
  · intro habsent
    unfold entry_count
    rw [ht_insert_eq]
    apply sum_map_set_succ List.length _ _ _ [] (bucket_index_lt hwf k)
    have hs : search_chain k (t.entries.getD (bucket_index T t k) []) = none := habsent
    rw [insert_chain_of_search_none v hs]
    rfl
  · intro hpresent
    cases hs : ht_search T t k with
    | none => exact absurd hs hpresent
    | some v0 => exact entry_count_ht_insert_present hs v

/-- Instance of C22: inserting `"v"` next to `"A"` adds one record, inserting
it again adds none. -/
theorem C22_insert_footprint_witness :
    0 < (ht_insert lp64_signed empty_table (ascii "A") (ascii "0")).size ∧
    (ht_insert lp64_signed empty_table (ascii "A") (ascii "0")).entries.length =
      (ht_insert lp64_signed empty_table (ascii "A") (ascii "0")).size ∧
    ht_search lp64_signed (ht_insert lp64_signed empty_table (ascii "A") (ascii "0"))
      (ascii "v") = none ∧
    entry_count
      (ht_insert lp64_signed (ht_insert lp64_signed empty_table (ascii "A") (ascii "0"))
        (ascii "v") (ascii "1")) =
      entry_count (ht_insert lp64_signed empty_table (ascii "A") (ascii "0")) + 1 :=
  ⟨by decide, by decide, by decide,
    (C22_insert_footprint lp64_signed
      (ht_insert lp64_signed empty_table (ascii "A") (ascii "0")) (ascii "v") (ascii "1")
      (by decide) (by decide)).2.2.2.1 (by decide)⟩

theorem delete_chain_split {k v0 : CStr} {chain : Chain}
    (h : search_chain k chain = some v0) :
    ∃ pre post, chain = pre ++ { key := k, value := v0 } :: post ∧
      (∀ e ∈ pre, e.key ≠ k) ∧ delete_chain k chain = pre ++ post := by
  induction chain with
  | nil => simp [search_chain] at h
  | cons x chain ih =>
    by_cases hx : x.key = k
    · simp only [search_chain, if_pos hx, Option.some.injEq] at h
      refine ⟨[], chain, ?_, by simp, ?_⟩
      · cases x
        simp only at hx h
        subst hx; subst h
        rfl
      · simp only [delete_chain, if_pos hx, List.nil_append]
    · simp only [search_chain, if_neg hx] at h
      obtain ⟨pre, post, h1, h2, h3⟩ := ih h
      refine ⟨x :: pre, post, by rw [h1]; rfl, ?_, by simp only [delete_chain, if_neg hx, h3]; rfl⟩
      intro e he
      rcases List.mem_cons.mp he with rfl | he
      · exact hx
      · exact h2 e he

/-- C23: footprint of `ht_delete` on a table reachable from `ht_create` that
holds `k`: the chain of the bucket of `k` is `pre ++ record :: post` (the
record may be the head, in the middle or the last) and becomes `pre ++ post`,
in which no record has key `k`; every other bucket is left identical; the
number of records drops by exactly 1 and the number of records with key `k`
from 1 to 0. -/
theorem C23_delete_footprint (T : Target) (t : HashTable) (k v0 : CStr)
    (hr : Reachable T t) (hpresent : ht_search T t k = some v0) :
    (∃ pre post,
      t.entries.getD (hash_function T k % t.size) [] =
        pre ++ { key := k, value := v0 } :: post ∧
      (ht_delete T t k).entries.getD (hash_function T k % t.size) [] = pre ++ post ∧
      ∀ e ∈ pre ++ post, e.key ≠ k) ∧
    (∀ j, j ≠ hash_function T k % t.size →
      (ht_delete T t k).entries.getD j [] = t.entries.getD j []) ∧
    entry_count (ht_delete T t k) + 1 = entry_count t ∧
    count_key t k = 1 ∧ count_key (ht_delete T t k) k = 0 := by
  have h := inv_of_reachable hr
  have hd := inv_ht_delete h k
  obtain ⟨pre, post, h1, h2, h3⟩ := delete_chain_split hpresent
  have hidx : bucket_index T t k = hash_function T k % t.size := rfl
  have hafter : (ht_delete T t k).entries.getD (hash_function T k % t.size) [] = pre ++ post := by
    rw [bucket_ht_delete, if_pos hidx, hidx, h3]
  have hgone : ht_search T (ht_delete T t k) k = none := search_ht_delete_same T h.unique k
  refine ⟨⟨pre, post, h1, hafter, ?_⟩, ?_, ?_, count_key_of_search h hpresent,
    count_key_of_search_none hd hgone⟩
  · have hs : search_chain k (pre ++ post) = none := by
      rw [← hafter]
      simpa only [ht_search, size_ht_delete] using hgone
    exact search_chain_eq_none.mp hs
  · intro j hj
    rw [bucket_ht_delete,
      if_neg (fun e : bucket_index T t k = j => hj (e.symm.trans hidx))]
  · unfold entry_count
    apply sum_map_set_pred List.length _ _ _ [] (bucket_index_lt h.wf k)
    rw [h3, hidx, h1]
    simp only [List.length_append, List.length_cons]
    omega

/-- Instance of C23: with the chain `"ag"`, `"v"`, `"A"` in bucket 35, deleting
`"v"` unlinks the middle record. -/
theorem C23_delete_footprint_witness :
    Reachable lp64_signed
      (run_ops lp64_signed empty_table
        [Op.insert (ascii "A") (ascii "0"), Op.insert (ascii "v") (ascii "1"),
          Op.insert (ascii "ag") (ascii "2")]) ∧
    ht_search lp64_signed
      (run_ops lp64_signed empty_table
        [Op.insert (ascii "A") (ascii "0"), Op.insert (ascii "v") (ascii "1"),
          Op.insert (ascii "ag") (ascii "2")]) (ascii "v") = some (ascii "1") ∧
    (ht_delete lp64_signed
      (run_ops lp64_signed empty_table
        [Op.insert (ascii "A") (ascii "0"), Op.insert (ascii "v") (ascii "1"),
          Op.insert (ascii "ag") (ascii "2")]) (ascii "v")).entries.getD 35 [] =
      [create_entry (ascii "ag") (ascii "2"), create_entry (ascii "A") (ascii "0")] ∧
    entry_count
      (ht_delete lp64_signed
        (run_ops lp64_signed empty_table
          [Op.insert (ascii "A") (ascii "0"), Op.insert (ascii "v") (ascii "1"),
            Op.insert (ascii "ag") (ascii "2")]) (ascii "v")) + 1 =
      entry_count
        (run_ops lp64_signed empty_table
          [Op.insert (ascii "A") (ascii "0"), Op.insert (ascii "v") (ascii "1"),
            Op.insert (ascii "ag") (ascii "2")]) :=
  ⟨reachable_run_ops (Reachable.create ht_create_ok) _, by decide, by decide,
    (C23_delete_footprint lp64_signed
      (run_ops lp64_signed empty_table
        [Op.insert (ascii "A") (ascii "0"), Op.insert (ascii "v") (ascii "1"),
          Op.insert (ascii "ag") (ascii "2")]) (ascii "v") (ascii "1")
      (reachable_run_ops (Reachable.create ht_create_ok) _) (by decide)).2.2.1⟩

/-! ## The table as a finite map -/

theorem search_chain_eq_find (k : CStr) (chain : Chain) :
    search_chain k chain =
      (chain.find? (fun e => decide (e.key = k))).map EntryNode.value := by
  induction chain with
  | nil => rfl
  | cons x chain ih =>
    by_cases hx : x.key = k
    · simp [search_chain, List.find?_cons, hx]
    · simp [search_chain, List.find?_cons, hx, ih]

theorem find_flatten_single {p : EntryNode → Bool} (l : List Chain) (i : Nat)
    (h : ∀ j, j ≠ i → ∀ e ∈ l.getD j [], p e = false) :
    l.flatten.find? p = (l.getD i []).find? p := by
  induction l generalizing i with
  | nil => rfl
  | cons a l ih =>
    rw [List.flatten_cons, List.find?_append]
    cases i with
    | zero =>
      have hrest : l.flatten.find? p = none := by
        rw [List.find?_eq_none]
        intro e he
        obtain ⟨chain, hc, hec⟩ := List.mem_flatten.mp he
        obtain ⟨n, hn, rfl⟩ := List.getElem_of_mem hc
        have := h (n + 1) (by simp) e (by
          rw [List.getD_cons_succ, List.getD_eq_getElem _ _ hn]; exact hec)
        simp [this]
      rw [hrest, List.getD_cons_zero, Option.or_none]
    | succ n =>
      have ha : a.find? p = none := by
        rw [List.find?_eq_none]
        intro e he
        have := h 0 (by simp) e (by rw [List.getD_cons_zero]; exact he)
        simp [this]
      rw [ha, Option.none_or, List.getD_cons_succ]
      exact ih n (fun j hj e he => h (j + 1) (by simpa using hj) e (by
        rw [List.getD_cons_succ]; exact he))

/-- On a table satisfying the invariant, `ht_search` is lookup in the map. -/
theorem to_map_eq_search {T : Target} {t : HashTable} (h : Inv T t) (k : CStr) :
    to_map t k = ht_search T t k := by
  unfold to_map all_entries
  rw [find_flatten_single t.entries (hash_function T k % t.size)]
  · simp only [ht_search]
    rw [search_chain_eq_find]
  · intro j hj e he
    have hp := h.placed j e he
    simp only [decide_eq_false_iff_not]
    intro hek
    rw [hek] at hp
    exact hj hp.symm

/-- C25: map refinement.  `to_map` sends every table reachable from
`ht_create` to a finite map from strings to strings (its domain lies in the
keys of the records): the table `ht_create` returns is sent to the empty map,
`ht_insert(k, v)` is insertion with overwrite, `ht_delete(k)` is erasure and
`ht_search(k)` is lookup; consequently after every sequence of calls on the
fresh table every `ht_search` result is the lookup result in the map the
calls build. -/
theorem C25_map_refinement (T : Target) (t : HashTable) (k v : CStr)
    (hr : Reachable T t) :
    (∀ (malloc_ok calloc_ok : Bool) (t0 : HashTable),
      ht_create malloc_ok calloc_ok = some t0 → to_map t0 = fun _ => none) ∧
    to_map (ht_insert T t k v) = (fun k2 => if k2 = k then some v else to_map t k2) ∧
    to_map (ht_delete T t k) = (fun k2 => if k2 = k then none else to_map t k2) ∧
    ht_search T t k = to_map t k ∧
    (∀ k2, to_map t k2 ≠ none → k2 ∈ (all_entries t).map EntryNode.key) ∧
    (∀ (ops : List Op) (k2 : CStr),
      ht_search T (run_ops T empty_table ops) k2 =
        ops.foldl lookup_step (fun _ => none) k2) := by
  have h := inv_of_reachable hr
  refine ⟨?_, ?_, ?_, (to_map_eq_search h k).symm, ?_, fun ops k2 =>
    search_run_ops_empty T ops k2⟩
  · intro a b t0 hc
    funext k2
    have h0 : Inv T t0 := inv_ht_create hc
    rw [to_map_eq_search h0, ht_create_eq_some hc]
    exact search_empty_table T k2
  · funext k2
    rw [to_map_eq_search (inv_ht_insert h k v), to_map_eq_search h,
      search_ht_insert h.wf]
  · funext k2
    rw [to_map_eq_search (inv_ht_delete h k), to_map_eq_search h]
    by_cases hk : k2 = k
    · subst hk
      rw [if_pos rfl]; exact search_ht_delete_same T h.unique k2
    · rw [if_neg hk]; exact search_ht_delete_ne T t hk
  · intro k2 hne
    unfold to_map at hne
    cases hf : (all_entries t).find? (fun e => decide (e.key = k2)) with
    | none => rw [hf] at hne; exact absurd rfl hne
    | some e =>
      have hmem := List.mem_of_find?_eq_some hf
      have hkey : e.key = k2 := by simpa using List.find?_some hf
      exact List.mem_map.mpr ⟨e, hmem, hkey⟩

/-- Instance of C25 on the table holding `"A"` and `"v"`. -/
theorem C25_map_refinement_witness :
    Reachable lp64_signed
      (ht_insert lp64_signed (ht_insert lp64_signed empty_table (ascii "A") (ascii "0"))
        (ascii "v") (ascii "1")) ∧
    to_map
      (ht_insert lp64_signed (ht_insert lp64_signed empty_table (ascii "A") (ascii "0"))
        (ascii "v") (ascii "1")) (ascii "A") = some (ascii "0") ∧
    ht_search lp64_signed
      (ht_insert lp64_signed (ht_insert lp64_signed empty_table (ascii "A") (ascii "0"))
        (ascii "v") (ascii "1")) (ascii "A") =
      to_map
        (ht_insert lp64_signed (ht_insert lp64_signed empty_table (ascii "A") (ascii "0"))
          (ascii "v") (ascii "1")) (ascii "A") :=
  ⟨Reachable.insert _ _ (Reachable.insert _ _ (Reachable.create ht_create_ok)), by decide,
    (C25_map_refinement lp64_signed
      (ht_insert lp64_signed (ht_insert lp64_signed empty_table (ascii "A") (ascii "0"))
        (ascii "v") (ascii "1")) (ascii "A") (ascii "x")
      (Reachable.insert _ _ (Reachable.insert _ _ (Reachable.create ht_create_ok)))).2.2.2.1⟩

/-- C26: bucket indexing is in bounds.  On every table reachable from
`ht_create` and for every key, `size` is not zero and the index
`hash_function(key) % size` that `ht_insert`, `ht_search` and `ht_delete`
compute is below the number of bucket slots: the bucket read is the slot at
that index and a bucket written is stored there. -/
theorem C26_index_in_bounds (T : Target) (t : HashTable) (key : CStr)
    (hr : Reachable T t) :
    t.size ≠ 0 ∧ hash_function T key % t.size < t.entries.length ∧
    t.entries.length = TABLE_SIZE ∧
    (∃ h : hash_function T key % t.size < t.entries.length,
      t.entries.getD (hash_function T key % t.size) [] =
        t.entries.get ⟨hash_function T key % t.size, h⟩) ∧
    ∀ chain : Chain,
      (t.entries.set (hash_function T key % t.size) chain).getD
        (hash_function T key % t.size) [] = chain := by
  have h := inv_of_reachable hr
  have hlt : hash_function T key % t.size < t.entries.length := bucket_index_lt h.wf key
  refine ⟨Nat.pos_iff_ne_zero.mp h.wf.2, hlt, ?_, ⟨hlt, ?_⟩, ?_⟩
  · rw [h.wf.1]; exact size_of_reachable hr
  · rw [List.getD_eq_getElem _ _ hlt]; rfl
  · intro chain
    rw [getD_set_eq, if_pos ⟨rfl, hlt⟩]

/-- Instance of C26 for the key `"name"` after the demonstration's first call. -/
theorem C26_index_in_bounds_witness :
    Reachable lp64_signed (ht_insert lp64_signed empty_table (ascii "name") (ascii "Alice")) ∧
    hash_function lp64_signed (ascii "name") %
      (ht_insert lp64_signed empty_table (ascii "name") (ascii "Alice")).size <
      (ht_insert lp64_signed empty_table (ascii "name") (ascii "Alice")).entries.length :=
  ⟨Reachable.insert _ _ (Reachable.create ht_create_ok),
    (C26_index_in_bounds lp64_signed _ (ascii "name")
      (Reachable.insert _ _ (Reachable.create ht_create_ok))).2.1⟩

end Ht

/-! # More theorems on 30_multithreaded_file_analyzer.c -/

namespace Analyzer

/-- C27 fails on the code.  For the 12-byte file `hello world\n`
(`file_size / 4 = 3`) the four chunks are the byte ranges `[0, 5)`, `[3, 11)`,
`[6, 11)` and `[9, 12)`: a chunk whose end is moved to the next whitespace
still is followed by a chunk that starts at `i * (file_size / 4)`, so the
chunks overlap (byte 3 lies in chunks 0 and 1, byte 9 in chunks 1, 2 and 3)
and the word `world` is counted by three chunks. -/
theorem C27_chunks_overlap :
    (List.range NUM_THREADS).map
        (fun i => (chunk_start (Ht.ascii "hello world\n") i,
          chunk_start (Ht.ascii "hello world\n") i +
            chunk_size_of (Ht.ascii "hello world\n") i)) =
      [(0, 5), (3, 11), (6, 11), (9, 12)] ∧
    (List.range NUM_THREADS).map (chunk (Ht.ascii "hello world\n")) =
      [Ht.ascii "hello", Ht.ascii "lo world", Ht.ascii "world", Ht.ascii "ld\n"] ∧
    ((List.range NUM_THREADS).map
        (fun i => chunk_size_of (Ht.ascii "hello world\n") i)).sum = 21 ∧
    (Ht.ascii "hello world\n").length = 12 := by
  decide

end Analyzer

/-! # Theorems on 29_tiny_shell.c -/

namespace Shell

theorem parse_loop_eq (pending : List (List Nat)) (position : Nat)
    (hpos : position < MAX_ARGS) :
    parse_loop pending position =
      numbered position (pending.take (MAX_ARGS - position)) ++
        [{ index := position + min pending.length (MAX_ARGS - position), value := none }] := by
  induction pending generalizing position with
  | nil => simp [parse_loop, numbered]
  | cons token pending ih =>
    have hsub : MAX_ARGS - position = (MAX_ARGS - (position + 1)) + 1 := by omega
    by_cases hfull : position + 1 ≥ MAX_ARGS
    · have h0 : MAX_ARGS - (position + 1) = 0 := by omega
      rw [hsub, h0]
      simp only [parse_loop, if_pos hfull, List.take_succ_cons, List.take_zero,
        numbered, List.length_cons, List.cons_append, List.nil_append]
      have hmin : min (pending.length + 1) (0 + 1) = 1 := by omega
      rw [hmin]
    · have hlt : position + 1 < MAX_ARGS := by omega
      rw [hsub]
      simp only [parse_loop, if_neg hfull, ih (position + 1) hlt, List.take_succ_cons,
        numbered, List.length_cons, List.cons_append]
      have hmin : position + 1 + min pending.length (MAX_ARGS - (position + 1)) =
          position + min (pending.length + 1) (MAX_ARGS - (position + 1) + 1) := by omega
      rw [hmin]

theorem numbered_index_lt (position : Nat) (tokens : List (List Nat)) :
    ∀ s ∈ numbered position tokens, s.index < position + tokens.length := by
  induction tokens generalizing position with
  | nil => intro s hs; simp [numbered] at hs
  | cons token tokens ih =>
    intro s hs
    simp only [numbered, List.mem_cons] at hs
    rcases hs with rfl | hs
    · simp
    · have := ih (position + 1) s hs
      simp only [List.length_cons]; omega

/-- The stores of `parse_line`, for every line: the first `MAX_ARGS` tokens at
the indices `0, 1, ...`, then `NULL` at the index `min n MAX_ARGS`, where `n`
is the number of tokens of the line. -/
theorem parse_line_stores (line : List Nat) :
    parse_line true line =
      some (numbered 0 ((strtok_all line).take MAX_ARGS) ++
        [{ index := min (strtok_all line).length MAX_ARGS, value := none }]) := by
  have hloop := parse_loop_eq (strtok_all line) 0 (by decide)
  rw [Nat.sub_zero, Nat.zero_add] at hloop
  have hpl : parse_line true line = some (parse_loop (strtok_all line) 0) := rfl
  rw [hpl, hloop]

/-- The stores of `parse_line` all stay below `MAX_ARGS` exactly when the line
has fewer than `MAX_ARGS` tokens. -/
theorem parse_line_in_bounds_iff (line : List Nat) :
    (∀ stores, parse_line true line = some stores → ∀ s ∈ stores, s.index < MAX_ARGS) ↔
      (strtok_all line).length < MAX_ARGS := by
  constructor
  · intro h
    have h1 := h _ (parse_line_stores line)
      { index := min (strtok_all line).length MAX_ARGS, value := none } (by simp)
    have h2 : min (strtok_all line).length MAX_ARGS < MAX_ARGS := h1
    omega
  · intro hlt stores hst s hs
    rw [parse_line_stores line] at hst
    cases hst
    rcases List.mem_append.mp hs with h1 | h1
    · have h2 := numbered_index_lt 0 _ s h1
      have h3 : ((strtok_all line).take MAX_ARGS).length ≤ (strtok_all line).length := by
        rw [List.length_take]; exact Nat.min_le_right _ _
      omega
    · simp only [List.mem_singleton] at h1
      subst h1
      exact lt_of_le_of_lt (Nat.min_le_left _ _) hlt

/-- C29 fails in the code.  For the line made of 32 times `a` followed by a
space, the 32 tokens are stored at the indices 0 to 31, the loop is left with
`position = 32` and the terminator `NULL` is stored at index 32, one past the
`MAX_ARGS = 32` slots allocated, so not every store is at an index below
`MAX_ARGS`.  In general, for every line, `parse_line` stores the first 32
tokens in order at the indices `0, 1, ...` and then `NULL` at the index
`min n 32`, `n` being the number of tokens of the line: all stores are below
`MAX_ARGS` exactly when the line has fewer than 32 tokens, and with 32 or more
tokens the terminator is stored at index 32. -/
theorem C29_terminator_out_of_bounds :
    (strtok_all (List.replicate 32 (Ht.ascii "a ")).flatten).length = 32 ∧
    (parse_line true (List.replicate 32 (Ht.ascii "a ")).flatten).map List.getLast? =
      some (some { index := 32, value := none }) ∧
    (¬ ∀ stores, parse_line true (List.replicate 32 (Ht.ascii "a ")).flatten = some stores →
      ∀ s ∈ stores, s.index < MAX_ARGS) ∧
    (∀ line : List Nat, parse_line true line =
      some (numbered 0 ((strtok_all line).take MAX_ARGS) ++
        [{ index := min (strtok_all line).length MAX_ARGS, value := none }])) ∧
    (∀ line : List Nat,
      (∀ stores, parse_line true line = some stores → ∀ s ∈ stores, s.index < MAX_ARGS) ↔
        (strtok_all line).length < MAX_ARGS) := by
  refine ⟨by decide, by decide, ?_, parse_line_stores, parse_line_in_bounds_iff⟩
  intro h
  have h2 := h _ rfl { index := 32, value := none } (by decide)
  exact absurd h2 (by decide)

/-- The line `ls -l /tmp` has three tokens, stored at the indices 0 to 2,
followed by `NULL` at index 3. -/
theorem parse_line_ls :
    strtok_all (Ht.ascii "ls -l /tmp\n") = [Ht.ascii "ls", Ht.ascii "-l", Ht.ascii "/tmp"] ∧
    parse_line true (Ht.ascii "ls -l /tmp\n") =
      some [{ index := 0, value := some (Ht.ascii "ls") },
            { index := 1, value := some (Ht.ascii "-l") },
            { index := 2, value := some (Ht.ascii "/tmp") },
            { index := 3, value := none }] := by
  decide

end Shell

/-! # Theorems on 25_simple_text_editor.c -/

namespace Editor

theorem first_addr_append (l1 l2 : List Cell) (d : Option Nat) :
    first_addr (l1 ++ l2) d = first_addr l1 (first_addr l2 d) := by
  cases l1 <;> rfl

theorem last_addr_nil (d : Option Nat) : last_addr [] d = d := rfl

theorem last_addr_append (l1 l2 : List Cell) (d : Option Nat) :
    last_addr (l1 ++ l2) d = last_addr l2 (last_addr l1 d) := by
  unfold last_addr
  rw [List.reverse_append, first_addr_append]

theorem last_addr_cons (cell : Cell) (rest : List Cell) (d : Option Nat) :
    last_addr (cell :: rest) d = last_addr rest (some cell.1) := by
  have := last_addr_append [cell] rest d
  simpa [last_addr, first_addr] using this

theorem seg_append (heap : Nat → Option LineNode) (l1 l2 : List Cell)
    (prev nxt : Option Nat) :
    Seg heap prev (l1 ++ l2) nxt ↔
      Seg heap prev l1 (first_addr l2 nxt) ∧ Seg heap (last_addr l1 prev) l2 nxt := by
  induction l1 generalizing prev with
  | nil => simp [Seg, last_addr_nil]
  | cons cell l1 ih =>
    simp only [List.cons_append, Seg, List.append_eq, first_addr_append, ih, last_addr_cons,
      and_assoc]

theorem seg_frame {heap heap2 : Nat → Option LineNode} {cells : List Cell}
    {prev nxt : Option Nat} (h : Seg heap prev cells nxt)
    (hsame : ∀ cell ∈ cells, heap2 cell.1 = heap cell.1) : Seg heap2 prev cells nxt := by
  induction cells generalizing prev with
  | nil => trivial
  | cons cell rest ih =>
    obtain ⟨h1, h2⟩ := h
    refine ⟨?_, ih h2 (fun x hx => hsame x (List.mem_cons_of_mem _ hx))⟩
    rw [hsame cell (List.mem_cons_self _ _)]; exact h1

theorem advance_seg (heap : Nat → Option LineNode) (pre rest : List Cell)
    (prev nxt : Option Nat) (h : Seg heap prev (pre ++ rest) nxt) :
    advance heap pre.length (first_addr (pre ++ rest) nxt) = some (first_addr rest nxt) := by
  induction pre generalizing prev with
  | nil => rfl
  | cons cell pre ih =>
    obtain ⟨h1, h2⟩ := h
    simp only [List.cons_append, List.length_cons, first_addr, advance, h1]
    exact ih (some cell.1) h2

theorem first_addr_concat (init : List Cell) (b : Cell) (x y : Option Nat) :
    first_addr (init ++ [b]) x = first_addr (init ++ [b]) y := by
  cases init <;> rfl

theorem last_addr_concat (init : List Cell) (b : Cell) (d : Option Nat) :
    last_addr (init ++ [b]) d = some b.1 := by
  rw [last_addr_append]; rfl

/-- The first unlinking step on the record `a` of a document `pre ++ a :: post`. -/
theorem unlink_prev_spec (st : State) (pre post : List Cell) (a : Cell)
    (hnd : ((pre ++ a :: post).map Prod.fst).Nodup)
    (hhead : st.head = first_addr (pre ++ a :: post) none)
    (hseg : Seg st.heap none (pre ++ a :: post) none) :
    ∃ st1, unlink_prev st a.1 = some st1 ∧
      st1.head = first_addr (pre ++ post) none ∧ st1.tail = st.tail ∧
      st1.line_count = st.line_count ∧
      Seg st1.heap none pre (first_addr post none) ∧
      st1.heap a.1 =
        some { text := a.2, prev := last_addr pre none, next := first_addr post none } ∧
      Seg st1.heap (some a.1) post none ∧
      (∀ x, x ∉ (pre ++ a :: post).map Prod.fst → st1.heap x = st.heap x) := by
  obtain ⟨s1, ha, s2⟩ := (seg_append st.heap pre (a :: post) none none).mp hseg
  rcases List.eq_nil_or_concat pre with hp | ⟨init, b, hp⟩
  · subst hp
    refine ⟨{ st with head := first_addr post none }, ?_, rfl, rfl, rfl, trivial, ha, s2,
      fun _ _ => rfl⟩
    simp only [unlink_prev, ha, last_addr_nil]
  · rw [List.concat_eq_append] at hp
    subst hp
    obtain ⟨s1a, hb, _⟩ := (seg_append st.heap init [b] none (some a.1)).mp s1
    have hlast : last_addr (init ++ [b]) none = some b.1 := last_addr_concat init b none
    rw [hlast] at ha
    have hnd2 : (init.map Prod.fst ++ (b.1 :: a.1 :: post.map Prod.fst)).Nodup := by
      simpa using hnd
    have hnda := List.nodup_append.mp hnd2
    have hb_init : ∀ x ∈ init, x.1 ≠ b.1 := by
      intro x hx e
      exact hnda.2.2 (List.mem_map_of_mem Prod.fst hx) (by rw [e]; exact List.mem_cons_self _ _)
    have hnb := List.nodup_cons.mp hnda.2.1
    have hab : a.1 ≠ b.1 := fun e => hnb.1 (e ▸ List.mem_cons_self _ _)
    have hb_post : ∀ x ∈ post, x.1 ≠ b.1 := by
      intro x hx e
      exact hnb.1 (e ▸ List.mem_cons_of_mem _ (List.mem_map_of_mem Prod.fst hx))
    refine ⟨{ st with heap := (Function.update st.heap b.1
        (some { text := b.2, prev := last_addr init none, next := first_addr post none })) },
      ?_, ?_, rfl, rfl, ?_, ?_, ?_, ?_⟩
    · simp only [unlink_prev, ha, hb]
    · show st.head = _
      rw [hhead]
      cases init <;> rfl
    · apply (seg_append _ init [b] none (first_addr post none)).mpr
      refine ⟨seg_frame s1a (fun x hx => Function.update_noteq (hb_init x hx) _ _), ?_, trivial⟩
      show Function.update st.heap b.1 _ b.1 = _
      rw [Function.update_same]
      rfl
    · show Function.update st.heap b.1 _ a.1 = _
      rw [Function.update_noteq hab, ha, hlast]
    · exact seg_frame s2 (fun x hx => Function.update_noteq (hb_post x hx) _ _)
    · intro x hx
      show Function.update st.heap b.1 _ x = _
      apply Function.update_noteq
      intro e
      apply hx
      rw [e]
      simp

theorem last_addr_cons_indep (cell : Cell) (rest : List Cell) (x y : Option Nat) :
    last_addr (cell :: rest) x = last_addr (cell :: rest) y := by
  unfold last_addr
  rw [List.reverse_cons]
  exact first_addr_concat _ _ _ _

/-- The second unlinking step, after the first one. -/
theorem unlink_next_spec (st1 : State) (pre post : List Cell) (a : Cell)
    (hnd : ((pre ++ a :: post).map Prod.fst).Nodup)
    (htail : st1.tail = last_addr (pre ++ a :: post) none)
    (hpre : Seg st1.heap none pre (first_addr post none))
    (ha : st1.heap a.1 =
      some { text := a.2, prev := last_addr pre none, next := first_addr post none })
    (hpost : Seg st1.heap (some a.1) post none) :
    ∃ st2, unlink_next st1 a.1 = some st2 ∧
      st2.head = st1.head ∧ st2.tail = last_addr (pre ++ post) none ∧
      st2.line_count = st1.line_count ∧
      Seg st2.heap none pre (first_addr post none) ∧
      Seg st2.heap (last_addr pre none) post none ∧
      (∀ x, x ∉ (pre ++ a :: post).map Prod.fst → st2.heap x = st1.heap x) := by
  cases post with
  | nil =>
    refine ⟨{ st1 with tail := last_addr pre none }, ?_, rfl, ?_, rfl, hpre, trivial,
      fun _ _ => rfl⟩
    · simp only [unlink_next, ha, first_addr]
    · show last_addr pre none = _
      rw [List.append_nil]
  | cons c rest =>
    obtain ⟨hc, hrest⟩ := hpost
    have hnd2 : (pre.map Prod.fst ++ (a.1 :: c.1 :: rest.map Prod.fst)).Nodup := by
      simpa using hnd
    have hnda := List.nodup_append.mp hnd2
    have hna := List.nodup_cons.mp hnda.2.1
    have hnc := List.nodup_cons.mp hna.2
    have hc_pre : ∀ x ∈ pre, x.1 ≠ c.1 := by
      intro x hx e
      exact hnda.2.2 (List.mem_map_of_mem Prod.fst hx)
        (by rw [e]; exact List.mem_cons_of_mem _ (List.mem_cons_self _ _))
    have hc_rest : ∀ x ∈ rest, x.1 ≠ c.1 := by
      intro x hx e
      exact hnc.1 (e ▸ List.mem_map_of_mem Prod.fst hx)
    refine ⟨{ st1 with heap := (Function.update st1.heap c.1
        (some { text := c.2, prev := last_addr pre none, next := first_addr rest none })) },
      ?_, rfl, ?_, rfl, ?_, ?_, ?_⟩
    · simp only [unlink_next, ha, first_addr, hc]
    · show st1.tail = _
      rw [htail, last_addr_append, last_addr_append, last_addr_cons]
      exact last_addr_cons_indep c rest _ _
    · exact seg_frame hpre (fun x hx => Function.update_noteq (hc_pre x hx) _ _)
    · refine ⟨?_, seg_frame hrest (fun x hx => Function.update_noteq (hc_rest x hx) _ _)⟩
      show Function.update st1.heap c.1 _ c.1 = _
      rw [Function.update_same]
    · intro x hx
      show Function.update st1.heap c.1 _ x = _
      apply Function.update_noteq
      intro e
      apply hx
      rw [e]
      simp

/-- Deleting line `pre.length + 1` of the document `pre ++ a :: post`. -/
theorem delete_at (st : State) (pre post : List Cell) (a : Cell)
    (hdoc : Document st (pre ++ a :: post)) :
    ∃ st2, handle_delete_line st (some ((pre.length : Int) + 1)) =
        some (st2, Message.line_deleted ((pre.length : Int) + 1)) ∧
      Document st2 (pre ++ post) ∧ st2.heap a.1 = none ∧
      (∀ x, x ∉ (pre ++ a :: post).map Prod.fst → st2.heap x = st.heap x) := by
  obtain ⟨st1, e1, h1head, h1tail, h1count, h1pre, h1a, h1post, h1frame⟩ :=
    unlink_prev_spec st pre post a hdoc.nodup hdoc.head_eq hdoc.linked
  obtain ⟨st2, e2, h2head, h2tail, h2count, h2pre, h2post, h2frame⟩ :=
    unlink_next_spec st1 pre post a hdoc.nodup (h1tail.trans hdoc.tail_eq) h1pre h1a h1post
  have hnd2 : (pre.map Prod.fst ++ (a.1 :: post.map Prod.fst)).Nodup := by
    simpa using hdoc.nodup
  have hnda := List.nodup_append.mp hnd2
  have hna := List.nodup_cons.mp hnda.2.1
  have ha_pre : ∀ x ∈ pre, x.1 ≠ a.1 := by
    intro x hx e
    exact hnda.2.2 (List.mem_map_of_mem Prod.fst hx) (by rw [e]; exact List.mem_cons_self _ _)
  have ha_post : ∀ x ∈ post, x.1 ≠ a.1 := by
    intro x hx e
    exact hna.1 (e ▸ List.mem_map_of_mem Prod.fst hx)
  have hadv : advance st.heap pre.length st.head = some (some a.1) := by
    rw [hdoc.head_eq]
    exact advance_seg st.heap pre (a :: post) none none hdoc.linked
  have hheadsome : ∃ x, st.head = some x := by
    rw [hdoc.head_eq]
    cases pre with
    | nil => exact ⟨a.1, rfl⟩
    | cons c _ => exact ⟨c.1, rfl⟩
  obtain ⟨x0, hx0⟩ := hheadsome
  have hcount : st.line_count = (pre.length : Int) + 1 + post.length := by
    rw [hdoc.count_eq]
    simp only [List.length_append, List.length_cons]
    push_cast
    ring
  have hcond : ¬ ((pre.length : Int) + 1 < 1 ∨ (pre.length : Int) + 1 > st.line_count) := by
    rw [hcount]; omega
  have htoNat : ((pre.length : Int) + 1 - 1).toNat = pre.length := by
    simp
  refine ⟨State.mk (Function.update st2.heap a.1 none) st2.head st2.tail (st2.line_count - 1),
    ?_, ?_, ?_, ?_⟩
  · simp only [handle_delete_line, hx0, if_neg hcond, htoNat]
    rw [← hx0, hadv]
    simp only [e1, e2]
  · refine ⟨?_, ?_, ?_, ?_, ?_⟩
    · have : ((pre ++ post).map Prod.fst).Sublist ((pre ++ a :: post).map Prod.fst) := by
        apply List.Sublist.map
        exact List.Sublist.append (List.Sublist.refl pre) (List.sublist_cons_self a post)
      exact List.Nodup.sublist this hdoc.nodup
    · show st2.head = _
      rw [h2head, h1head]
    · show st2.tail = _
      exact h2tail
    · show st2.line_count - 1 = _
      rw [h2count, h1count, hcount]
      simp only [List.length_append]
      push_cast
      ring
    · show Seg (Function.update st2.heap a.1 none) none (pre ++ post) none
      apply (seg_append _ pre post none none).mpr
      exact ⟨seg_frame h2pre (fun x hx => Function.update_noteq (ha_pre x hx) _ _),
        seg_frame h2post (fun x hx => Function.update_noteq (ha_post x hx) _ _)⟩
  · show Function.update st2.heap a.1 none a.1 = none
    rw [Function.update_same]
  · intro x hx
    show Function.update st2.heap a.1 none x = _
    have hxa : x ≠ a.1 := by
      intro e
      apply hx
      rw [e]
      simp
    rw [Function.update_noteq hxa, h2frame x hx, h1frame x hx]

/-- C28: for every document of `n >= 1` lines and every line number `p` with
`1 <= p <= n`, `handle_delete_line` removes exactly the `p`-th line: the new
state holds the document made of the other lines in their order (their
records doubly linked, `head` and `tail` the first and last of them, both
`NULL` when no line is left, `line_count = n - 1` their number), the record of
the deleted line is freed and no record outside the document is touched; for
`p < 1` or `p > n` the state is returned unchanged. -/
theorem C28_delete_line (st : State) (cells : List Cell) (p : Int)
    (hdoc : Document st cells) (hn : 1 ≤ cells.length) :
    (1 ≤ p → p ≤ cells.length →
      ∃ st2, handle_delete_line st (some p) = some (st2, Message.line_deleted p) ∧
        Document st2 (cells.eraseIdx (p.toNat - 1)) ∧
        st2.line_count = (cells.length : Int) - 1 ∧
        (cells.length = 1 → st2.head = none ∧ st2.tail = none) ∧
        (∀ cell, cells[p.toNat - 1]? = some cell → st2.heap cell.1 = none) ∧
        (∀ x, x ∉ cells.map Prod.fst → st2.heap x = st.heap x)) ∧
    (p < 1 ∨ (cells.length : Int) < p →
      handle_delete_line st (some p) = some (st, Message.invalid_line_number)) := by
  constructor
  · intro h1 h2
    have hi : p.toNat - 1 < cells.length := by omega
    have hsplit : cells = cells.take (p.toNat - 1) ++
        cells.get ⟨p.toNat - 1, hi⟩ :: cells.drop (p.toNat - 1 + 1) := by
      rw [List.get_eq_getElem, List.getElem_cons_drop, List.take_append_drop]
    have hlen : (cells.take (p.toNat - 1)).length = p.toNat - 1 := by
      rw [List.length_take]; omega
    have hp : ((cells.take (p.toNat - 1)).length : Int) + 1 = p := by
      rw [hlen]; omega
    have herase : cells.eraseIdx (p.toNat - 1) =
        cells.take (p.toNat - 1) ++ cells.drop (p.toNat - 1 + 1) :=
      List.eraseIdx_eq_take_drop_succ _ _
    have hdoc2 : Document st (cells.take (p.toNat - 1) ++
        cells.get ⟨p.toNat - 1, hi⟩ :: cells.drop (p.toNat - 1 + 1)) := by
      rw [← hsplit]; exact hdoc
    obtain ⟨st2, e, hd, hfree, hframe⟩ := delete_at st _ _ _ hdoc2
    rw [hp] at e
    rw [← herase] at hd
    rw [← hsplit] at hframe
    refine ⟨st2, e, hd, ?_, ?_, ?_, hframe⟩
    · rw [hd.count_eq, List.length_eraseIdx, if_pos hi]
      omega
    · intro hone
      have hnil : cells.eraseIdx (p.toNat - 1) = [] := by
        apply List.eq_nil_of_length_eq_zero
        rw [List.length_eraseIdx, if_pos hi, hone]
      have hh := hd.head_eq
      have ht := hd.tail_eq
      rw [hnil] at hh ht
      exact ⟨hh, ht⟩
    · intro cell hcell
      rw [List.getElem?_eq_getElem hi] at hcell
      cases hcell
      exact hfree
  · intro h
    have hcount := hdoc.count_eq
    obtain ⟨x0, hx0⟩ : ∃ x, st.head = some x := by
      rw [hdoc.head_eq]
      cases cells with
      | nil => simp at hn
      | cons c _ => exact ⟨c.1, rfl⟩
    have hcond : p < 1 ∨ p > st.line_count := by
      rw [hcount]; omega
    simp only [handle_delete_line, hx0, if_pos hcond]

/-- Instance of C28: deleting line 2 of the three-line document. -/
theorem C28_delete_line_witness :
    Document three_lines
      [(10, Ht.ascii "one\n"), (20, Ht.ascii "two\n"), (30, Ht.ascii "three\n")] ∧
    ([(10, Ht.ascii "one\n"), (20, Ht.ascii "two\n"), (30, Ht.ascii "three\n")] :
      List Cell).eraseIdx ((2 : Int).toNat - 1) =
      [(10, Ht.ascii "one\n"), (30, Ht.ascii "three\n")] ∧
    ∃ st2, handle_delete_line three_lines (some 2) = some (st2, Message.line_deleted 2) ∧
      Document st2
        (([(10, Ht.ascii "one\n"), (20, Ht.ascii "two\n"), (30, Ht.ascii "three\n")] :
          List Cell).eraseIdx ((2 : Int).toNat - 1)) :=
  have hdoc : Document three_lines
      [(10, Ht.ascii "one\n"), (20, Ht.ascii "two\n"), (30, Ht.ascii "three\n")] :=
    ⟨by decide, rfl, rfl, rfl, ⟨rfl, rfl, rfl, trivial⟩⟩
  ⟨hdoc, by decide,
    match (C28_delete_line three_lines _ 2 hdoc (by decide)).1 (by decide) (by decide) with
    | ⟨st2, e, hd, _⟩ => ⟨st2, e, hd⟩⟩

end Editor

/-! # Theorems on the allocations of the hash table -/

namespace Ht

theorem sum_map_set_add {α M : Type} [AddCommMonoid M] (f : α → M) (l : List α)
    (i : Nat) (x d : α) (hi : i < l.length) :
    ((l.set i x).map f).sum + f (l.getD i d) = (l.map f).sum + f x := by
  induction l generalizing i with
  | nil => simp at hi
  | cons a l ih =>
    cases i with
    | zero =>
      simp only [List.set_cons_zero, List.map_cons, List.sum_cons, List.getD_cons_zero]
      abel
    | succ n =>
      have hn : n < l.length := by simpa using hi
      simp only [List.set_cons_succ, List.map_cons, List.sum_cons, List.getD_cons_succ]
      rw [add_assoc, ih n hn, add_assoc]

theorem map_getD_range {β : Type} (l : List β) (d : β) :
    (List.range l.length).map (fun i => l.getD i d) = l := by
  apply List.ext_getElem
  · simp
  · intro n h1 h2
    simp only [List.getElem_map, List.getElem_range]
    exact List.getD_eq_getElem _ _ h2

theorem free_chain_log (a : Allocator) (chain : List OwnedEntry) :
    (free_chain a chain).freed = a.freed ++ chain.flatMap entry_allocations ∧
    (free_chain a chain).allocated = a.allocated ∧ (free_chain a chain).next = a.next := by
  induction chain generalizing a with
  | nil => simp [free_chain]
  | cons e chain ih =>
    obtain ⟨h1, h2, h3⟩ := ih (free (free (free a e.key_addr) e.value_addr) e.node_addr)
    refine ⟨?_, ?_, ?_⟩
    · rw [free_chain, h1]
      simp [free, entry_allocations, List.flatMap_cons]
    · rw [free_chain, h2]; rfl
    · rw [free_chain, h3]; rfl

theorem free_buckets_log (a : Allocator) (buckets : List (List OwnedEntry)) :
    (buckets.foldl free_chain a).freed =
      a.freed ++ buckets.flatMap (fun chain => chain.flatMap entry_allocations) ∧
    (buckets.foldl free_chain a).allocated = a.allocated ∧
    (buckets.foldl free_chain a).next = a.next := by
  induction buckets generalizing a with
  | nil => simp
  | cons chain buckets ih =>
    obtain ⟨h1, h2, h3⟩ := ih (free_chain a chain)
    obtain ⟨g1, g2, g3⟩ := free_chain_log a chain
    refine ⟨?_, ?_, ?_⟩
    · rw [List.foldl_cons, h1, g1, List.flatMap_cons, List.append_assoc]
    · rw [List.foldl_cons, h2, g2]
    · rw [List.foldl_cons, h3, g3]

theorem coe_flatMap_entry_allocations (chain : List OwnedEntry) :
    ((chain.flatMap entry_allocations : List Nat) : Multiset Nat) = chain_owned chain := by
  unfold chain_owned
  induction chain with
  | nil => rfl
  | cons e chain ih =>
    rw [List.flatMap_cons, ← Multiset.coe_add, ih, List.map_cons, List.sum_cons]

theorem coe_flatMap_buckets (buckets : List (List OwnedEntry)) :
    ((buckets.flatMap (fun chain => chain.flatMap entry_allocations) : List Nat) :
      Multiset Nat) = (buckets.map chain_owned).sum := by
  induction buckets with
  | nil => rfl
  | cons chain buckets ih =>
    rw [List.flatMap_cons, ← Multiset.coe_add, ih, coe_flatMap_entry_allocations,
      List.map_cons, List.sum_cons]

/-- What `ht_free` frees, on a table whose bucket array has `size` slots: the
key, the value and the record of every record, bucket after bucket, then the
bucket array and the table record. -/
theorem ht_free_mem_log (m : Mem) (hlen : m.table.entries.length = m.table.size) :
    (ht_free_mem m).freed =
      m.alloc.freed ++
        (m.table.entries.flatMap (fun chain => chain.flatMap entry_allocations) ++
          [m.table.entries_addr, m.table.table_addr]) ∧
    (ht_free_mem m).allocated = m.alloc.allocated := by
  have hfold : (List.range m.table.size).foldl
      (fun a i => free_chain a (m.table.entries.getD i [])) m.alloc =
      m.table.entries.foldl free_chain m.alloc := by
    rw [← hlen]
    conv_rhs => rw [← map_getD_range m.table.entries []]
    rw [List.foldl_map]
  obtain ⟨h1, h2, _⟩ := free_buckets_log m.alloc m.table.entries
  unfold ht_free_mem
  simp only [hfold, free, h1, h2, List.append_assoc, List.cons_append, List.nil_append,
    and_self]

/-! ## The model with allocations refines the model of the contract -/

theorem forget_update_chain_mem (k v : CStr) (a : Allocator) (chain : List OwnedEntry) :
    (update_chain_mem k v a chain).map (fun r => r.2.map forget_entry) =
      update_chain k v (chain.map forget_entry) := by
  induction chain with
  | nil => rfl
  | cons e chain ih =>
    by_cases hk : e.key = k
    · simp [update_chain_mem, update_chain, forget_entry, hk]
    · simp only [update_chain_mem, update_chain, List.map_cons, forget_entry, if_neg hk,
        Option.map_map, ← ih]
      cases update_chain_mem k v a chain <;> rfl

theorem forget_delete_chain_mem (k : CStr) (a : Allocator) (chain : List OwnedEntry) :
    (delete_chain_mem k a chain).2.map forget_entry =
      delete_chain k (chain.map forget_entry) := by
  induction chain with
  | nil => rfl
  | cons e chain ih =>
    by_cases hk : e.key = k
    · simp [delete_chain_mem, delete_chain, forget_entry, hk]
    · simp only [delete_chain_mem, delete_chain, List.map_cons, forget_entry, if_neg hk, ← ih]

theorem getD_map_forget (entries : List (List OwnedEntry)) (i : Nat) :
    (entries.map (fun chain => chain.map forget_entry)).getD i [] =
      (entries.getD i []).map forget_entry := by
  simp only [List.getD_eq_getElem?_getD, List.getElem?_map]
  cases entries[i]? <;> rfl

theorem forget_ht_insert_mem (T : Target) (m : Mem) (k v : CStr) :
    forget_table (ht_insert_mem T m k v).table = ht_insert T (forget_table m.table) k v := by
  have h := forget_update_chain_mem k v m.alloc
    (m.table.entries.getD (hash_function T k % m.table.size) [])
  simp only [ht_insert_mem, ht_insert, forget_table, getD_map_forget, ← h]
  cases update_chain_mem k v m.alloc
      (m.table.entries.getD (hash_function T k % m.table.size) []) with
  | some r => simp [List.map_set]
  | none => simp [List.map_set, create_entry_mem, create_entry, forget_entry]

theorem forget_ht_delete_mem (T : Target) (m : Mem) (k : CStr) :
    forget_table (ht_delete_mem T m k).table = ht_delete T (forget_table m.table) k := by
  simp only [ht_delete_mem, ht_delete, forget_table, getD_map_forget, List.map_set,
    forget_delete_chain_mem]

theorem reachable_forget {T : Target} {m : Mem} (h : ReachableMem T m) :
    Reachable T (forget_table m.table) := by
  induction h with
  | create => exact Reachable.create ht_create_ok
  | insert k v _ ih => rw [forget_ht_insert_mem]; exact Reachable.insert k v ih
  | delete k _ ih => rw [forget_ht_delete_mem]; exact Reachable.delete k ih

theorem index_lt_of_reachable_mem {T : Target} {m : Mem} (h : ReachableMem T m) (k : CStr) :
    hash_function T k % m.table.size < m.table.entries.length ∧
      m.table.entries.length = m.table.size := by
  have hwf := (inv_of_reachable (reachable_forget h)).wf
  have hlen : m.table.entries.length = m.table.size := by
    have := hwf.1
    simpa [forget_table] using this
  have hpos : 0 < m.table.size := hwf.2
  exact ⟨by rw [hlen]; exact Nat.mod_lt _ hpos, hlen⟩

/-! ## Every allocation is freed or owned -/

theorem coe_three (x y z : Nat) :
    (([x, y, z] : List Nat) : Multiset Nat) = {x} + {y} + {z} := rfl

theorem coe_two (x y : Nat) : (([x, y] : List Nat) : Multiset Nat) = {x} + {y} := rfl

theorem coe_one (x : Nat) : (([x] : List Nat) : Multiset Nat) = {x} := rfl

theorem chain_owned_cons (e : OwnedEntry) (chain : List OwnedEntry) :
    chain_owned (e :: chain) =
      ((entry_allocations e : List Nat) : Multiset Nat) + chain_owned chain := by
  unfold chain_owned
  rw [List.map_cons, List.sum_cons]

theorem update_chain_mem_log {k v : CStr} {a a2 : Allocator} {chain chain2 : List OwnedEntry}
    (h : update_chain_mem k v a chain = some (a2, chain2)) :
    a2.next = a.next + 1 ∧ a2.allocated = a.allocated ++ [a.next] ∧
    ∃ old, a2.freed = a.freed ++ [old] ∧
      chain_owned chain2 + (([old] : List Nat) : Multiset Nat) =
        chain_owned chain + (([a.next] : List Nat) : Multiset Nat) := by
  induction chain generalizing chain2 with
  | nil => simp [update_chain_mem] at h
  | cons e chain ih =>
    by_cases hk : e.key = k
    · simp only [update_chain_mem, if_pos hk, Option.some.injEq, Prod.mk.injEq] at h
      obtain ⟨h1, h2⟩ := h
      subst h1; subst h2
      refine ⟨rfl, rfl, e.value_addr, rfl, ?_⟩
      rw [chain_owned_cons, chain_owned_cons]
      simp only [entry_allocations, malloc, free]
      have hnew : ((([e.key_addr, a.next, e.node_addr] : List Nat) : Multiset Nat)) +
          (([e.value_addr] : List Nat) : Multiset Nat) =
          (([e.key_addr, e.value_addr, e.node_addr] : List Nat) : Multiset Nat) +
            (([a.next] : List Nat) : Multiset Nat) := by
        rw [coe_three, coe_three, coe_one, coe_one]
        abel
      rw [add_right_comm, hnew]
      abel
    · simp only [update_chain_mem, if_neg hk, Option.map_eq_some', Prod.mk.injEq] at h
      obtain ⟨r, hr, h1, h2⟩ := h
      subst h1; subst h2
      obtain ⟨g1, g2, old, g3, g4⟩ :=
        ih (show update_chain_mem k v a chain = some (r.1, r.2) from hr)
      refine ⟨g1, g2, old, g3, ?_⟩
      rw [chain_owned_cons, chain_owned_cons, add_assoc, g4, add_assoc]

theorem delete_chain_mem_log (k : CStr) (a : Allocator) (chain : List OwnedEntry) :
    (delete_chain_mem k a chain).1.next = a.next ∧
    (delete_chain_mem k a chain).1.allocated = a.allocated ∧
    ∃ dropped : List Nat, (delete_chain_mem k a chain).1.freed = a.freed ++ dropped ∧
      chain_owned chain =
        chain_owned (delete_chain_mem k a chain).2 + (dropped : Multiset Nat) := by
  induction chain with
  | nil => exact ⟨rfl, rfl, [], by simp [delete_chain_mem], by simp [delete_chain_mem]⟩
  | cons e chain ih =>
    by_cases hk : e.key = k
    · simp only [delete_chain_mem, if_pos hk]
      refine ⟨rfl, rfl, entry_allocations e, by simp [free, entry_allocations], ?_⟩
      rw [chain_owned_cons, add_comm]
    · obtain ⟨g1, g2, dropped, g3, g4⟩ := ih
      simp only [delete_chain_mem, if_neg hk]
      refine ⟨g1, g2, dropped, g3, ?_⟩
      rw [chain_owned_cons, chain_owned_cons, g4, add_assoc]

theorem owned_set (t : OwnedTable) (i : Nat) (chain2 : List OwnedEntry)
    (x y : Multiset Nat) (hi : i < t.entries.length)
    (h : chain_owned chain2 + x = chain_owned (t.entries.getD i []) + y) :
    owned { t with entries := t.entries.set i chain2 } + x = owned t + y := by
  have hsum := sum_map_set_add chain_owned t.entries i chain2 [] hi
  unfold owned
  simp only []
  have key : ((t.entries.set i chain2).map chain_owned).sum + x +
      chain_owned (t.entries.getD i []) =
      (t.entries.map chain_owned).sum + y + chain_owned (t.entries.getD i []) := by
    rw [add_right_comm, hsum, add_assoc, h]
    abel
  have key2 := add_right_cancel key
  rw [add_assoc, key2, add_assoc]

theorem balanced_create : Balanced (ht_create_mem Allocator.empty) := by
  constructor
  · decide
  · simp only [ht_create_mem, malloc, Allocator.empty, owned]
    have hz : ((List.replicate TABLE_SIZE ([] : List OwnedEntry)).map chain_owned).sum = 0 := by
      apply List.sum_eq_zero
      intro x hx
      obtain ⟨c, hc, rfl⟩ := List.mem_map.mp hx
      rw [(List.mem_replicate.mp hc).2]
      rfl
    rw [hz, add_zero]
    show (([0, 1] : List Nat) : Multiset Nat) = (([] : List Nat) : Multiset Nat) + _
    rw [coe_two, coe_two]
    show _ = 0 + _
    abel

theorem balanced_insert {T : Target} {m : Mem} (hr : ReachableMem T m) (hb : Balanced m)
    (k v : CStr) : Balanced (ht_insert_mem T m k v) := by
  obtain ⟨hlt, _⟩ := index_lt_of_reachable_mem hr k
  cases hu : update_chain_mem k v m.alloc
      (m.table.entries.getD (hash_function T k % m.table.size) []) with
  | some r =>
    obtain ⟨a2, chain2⟩ := r
    obtain ⟨g1, g2, old, g3, g4⟩ := update_chain_mem_log hu
    have ho := owned_set m.table _ chain2 _ _ hlt g4
    have hm : ht_insert_mem T m k v =
        { alloc := a2, table := { m.table with
            entries := (m.table.entries.set (hash_function T k % m.table.size) chain2) } } := by
      simp only [ht_insert_mem, hu]
    rw [hm]
    constructor
    · show a2.allocated = List.range a2.next
      rw [g2, g1, hb.fresh, List.range_succ]
    · show (a2.allocated : Multiset Nat) = (a2.freed : Multiset Nat) + _
      rw [g2, g3, ← Multiset.coe_add, ← Multiset.coe_add, hb.balance, add_assoc, ← ho]
      abel
  | none =>
    have hm : ht_insert_mem T m k v =
        { alloc := (create_entry_mem m.alloc k v).1, table := { m.table with
            entries := (m.table.entries.set (hash_function T k % m.table.size)
              ((create_entry_mem m.alloc k v).2 ::
                m.table.entries.getD (hash_function T k % m.table.size) [])) } } := by
      simp only [ht_insert_mem, hu]
    have ho := owned_set m.table (hash_function T k % m.table.size)
      ((create_entry_mem m.alloc k v).2 ::
        m.table.entries.getD (hash_function T k % m.table.size) []) 0
      ((entry_allocations (create_entry_mem m.alloc k v).2 : List Nat) : Multiset Nat) hlt
      (by rw [chain_owned_cons]; abel)
    rw [add_zero] at ho
    rw [hm]
    constructor
    · show (create_entry_mem m.alloc k v).1.allocated = List.range _
      simp only [create_entry_mem, malloc, hb.fresh, List.range_succ, List.append_assoc,
        List.cons_append, List.nil_append]
    · show ((create_entry_mem m.alloc k v).1.allocated : Multiset Nat) =
        ((create_entry_mem m.alloc k v).1.freed : Multiset Nat) + _
      rw [ho]
      have hfreed : (create_entry_mem m.alloc k v).1.freed = m.alloc.freed := rfl
      have halloc : (create_entry_mem m.alloc k v).1.allocated =
          m.alloc.allocated ++ [m.alloc.next, m.alloc.next + 1, m.alloc.next + 1 + 1] := by
        simp [create_entry_mem, malloc]
      have hperm : ((entry_allocations (create_entry_mem m.alloc k v).2 : List Nat) :
          Multiset Nat) =
          (([m.alloc.next, m.alloc.next + 1, m.alloc.next + 1 + 1] : List Nat) :
            Multiset Nat) := by
        simp only [entry_allocations, create_entry_mem, malloc]
        rw [coe_three, coe_three]
        abel
      rw [hfreed, halloc, hperm, ← Multiset.coe_add, hb.balance]
      abel

theorem balanced_delete {T : Target} {m : Mem} (hr : ReachableMem T m) (hb : Balanced m)
    (k : CStr) : Balanced (ht_delete_mem T m k) := by
  obtain ⟨hlt, _⟩ := index_lt_of_reachable_mem hr k
  obtain ⟨g1, g2, dropped, g3, g4⟩ := delete_chain_mem_log k m.alloc
    (m.table.entries.getD (hash_function T k % m.table.size) [])
  have ho := owned_set m.table (hash_function T k % m.table.size)
    (delete_chain_mem k m.alloc
      (m.table.entries.getD (hash_function T k % m.table.size) [])).2
    (dropped : Multiset Nat) 0 hlt (by rw [add_zero]; exact g4.symm)
  rw [add_zero] at ho
  constructor
  · show (delete_chain_mem k m.alloc _).1.allocated = List.range (delete_chain_mem k m.alloc _).1.next
    rw [g2, g1]; exact hb.fresh
  · show ((delete_chain_mem k m.alloc _).1.allocated : Multiset Nat) =
      ((delete_chain_mem k m.alloc _).1.freed : Multiset Nat) + owned _
    rw [g2, g3, ← Multiset.coe_add, hb.balance, ← ho]
    simp only [ht_delete_mem]
    abel

theorem balanced_of_reachable {T : Target} {m : Mem} (h : ReachableMem T m) : Balanced m := by
  induction h with
  | create => exact balanced_create
  | insert k v hr ih => exact balanced_insert hr ih k v
  | delete k hr ih => exact balanced_delete hr ih k

theorem reachable_insert_all {T : Target} {m : Mem} (h : ReachableMem T m)
    (kvs : List (CStr × CStr)) :
    ReachableMem T (kvs.foldl (fun m p => ht_insert_mem T m p.1 p.2) m) := by
  induction kvs generalizing m with
  | nil => exact h
  | cons p kvs ih => exact ih (ReachableMem.insert p.1 p.2 h)

/-- After `ht_free` on a reachable table the calls of `free` made so far are
pairwise distinct and are exactly the allocations made so far. -/
theorem teardown_of_reachable {T : Target} {m : Mem} (hr : ReachableMem T m) :
    (ht_free_mem m).freed.Nodup ∧
    List.Perm (ht_free_mem m).freed (ht_free_mem m).allocated ∧
    outstanding (ht_free_mem m) = [] := by
  obtain ⟨_, hlen⟩ := index_lt_of_reachable_mem hr []
  obtain ⟨hf, ha⟩ := ht_free_mem_log m hlen
  have hb := balanced_of_reachable hr
  have hperm : List.Perm (ht_free_mem m).freed (ht_free_mem m).allocated := by
    rw [← Multiset.coe_eq_coe, hf, ha, hb.balance, ← Multiset.coe_add, ← Multiset.coe_add,
      coe_flatMap_buckets]
    unfold owned
    abel
  have hnd : (ht_free_mem m).allocated.Nodup := by
    rw [ha, hb.fresh]; exact List.nodup_range _
  refine ⟨hperm.nodup_iff.mpr hnd, hperm, ?_⟩
  unfold outstanding
  rw [List.filter_eq_nil_iff]
  intro p hp
  have : p ∈ (ht_free_mem m).freed := hperm.mem_iff.mpr hp
  simpa using this

/-- C24: teardown releases everything exactly once.  On every table reachable
from `ht_create`, `ht_free` frees the key, the value and the record of every
record of every bucket, then the bucket array and the table record, and
allocates nothing; afterwards no call of `free` of the whole run has been
made twice and the calls of `free` are exactly the allocations of the run, so
none is outstanding.  In particular this holds after inserting any `N` pairs
into a fresh table. -/
theorem C24_teardown (T : Target) (m : Mem) (hr : ReachableMem T m) :
    (ht_free_mem m).freed =
      m.alloc.freed ++
        (m.table.entries.flatMap (fun chain => chain.flatMap entry_allocations) ++
          [m.table.entries_addr, m.table.table_addr]) ∧
    (ht_free_mem m).allocated = m.alloc.allocated ∧
    (ht_free_mem m).freed.Nodup ∧
    List.Perm (ht_free_mem m).freed (ht_free_mem m).allocated ∧
    outstanding (ht_free_mem m) = [] ∧
    ∀ kvs : List (CStr × CStr),
      (ht_free_mem (kvs.foldl (fun m p => ht_insert_mem T m p.1 p.2)
        (ht_create_mem Allocator.empty))).freed.Nodup ∧
      outstanding (ht_free_mem (kvs.foldl (fun m p => ht_insert_mem T m p.1 p.2)
        (ht_create_mem Allocator.empty))) = [] := by
  obtain ⟨_, hlen⟩ := index_lt_of_reachable_mem hr []
  obtain ⟨hf, ha⟩ := ht_free_mem_log m hlen
  obtain ⟨h1, h2, h3⟩ := teardown_of_reachable hr
  refine ⟨hf, ha, h1, h2, h3, ?_⟩
  intro kvs
  obtain ⟨g1, _, g3⟩ := teardown_of_reachable
    (reachable_insert_all (show ReachableMem T (ht_create_mem Allocator.empty) from
      ReachableMem.create) kvs)
  exact ⟨g1, g3⟩

/-- Instance of C24: two colliding inserts, an update and a delete, then
`ht_free`; the nine allocations `0..8` are freed once each. -/
theorem C24_teardown_witness :
    ReachableMem lp64_signed
      (ht_delete_mem lp64_signed
        (ht_insert_mem lp64_signed
          (ht_insert_mem lp64_signed
            (ht_insert_mem lp64_signed (ht_create_mem Allocator.empty) (ascii "A") (ascii "0"))
            (ascii "v") (ascii "1"))
          (ascii "A") (ascii "2"))
        (ascii "zz")) ∧
    ht_free_mem
      (ht_delete_mem lp64_signed
        (ht_insert_mem lp64_signed
          (ht_insert_mem lp64_signed
            (ht_insert_mem lp64_signed (ht_create_mem Allocator.empty) (ascii "A") (ascii "0"))
            (ascii "v") (ascii "1"))
          (ascii "A") (ascii "2"))
        (ascii "zz")) =
      { next := 9, allocated := [0, 1, 2, 3, 4, 5, 6, 7, 8],
        freed := [4, 6, 7, 5, 3, 8, 2, 1, 0] } ∧
    outstanding
      (ht_free_mem
        (ht_delete_mem lp64_signed
          (ht_insert_mem lp64_signed
            (ht_insert_mem lp64_signed
              (ht_insert_mem lp64_signed (ht_create_mem Allocator.empty) (ascii "A") (ascii "0"))
              (ascii "v") (ascii "1"))
            (ascii "A") (ascii "2"))
          (ascii "zz"))) = [] :=
  ⟨ReachableMem.delete _ (ReachableMem.insert _ _ (ReachableMem.insert _ _
      (ReachableMem.insert _ _ ReachableMem.create))),
    by decide,
    (C24_teardown lp64_signed _
      (ReachableMem.delete _ (ReachableMem.insert _ _ (ReachableMem.insert _ _
        (ReachableMem.insert _ _ ReachableMem.create))))).2.2.2.2.1⟩

end Ht
